import Mathlib

/-!
# Segment trees of `segtree.hpp`

A shallow embedding of the two engines of `src/src/segtree.hpp`

* `abstract_tourist_like_segtree` (the recursive engine, with and without `push`),
* `segtree<T, bottom_up_segtree_tag>` (the iterative engine),

and of the node `sum_segtree_node` of `src/test/segtree_tests.cpp`.

Conventions of the embedding.

* `int` (sizes, indices and range bounds) is an unbounded integer (`Int`); `>> 1` is floor
  division by two, `<< 1` is multiplication by two, `& 1` is the remainder modulo two.
* `long long` (the fields of `sum_segtree_node`) is a 64-bit two's-complement integer: the
  result of every `+` and `*` on `long long` operands is reduced by `wrap64` into
  `[-2^63, 2^63)`, which is what the compiled code computes.  Signed overflow is undefined
  behaviour in C++; `int64 x` says that `x` is representable, and the theorems about exact
  sums and products carry the hypothesis that the values concerned are representable.
* `vector<T>` is `List T`; every `operator[]` goes through `rd` / `wr`, which stop with
  `Fault.outOfRange` when the index is not in `[0, size)`.
* `assert(c)` stops with `Fault.assertion` when `c` is false.
* Recursive functions and loops carry a budget (`fuel`); running out of it is
  `Fault.outOfFuel`.  The public operations pass a budget that the theorems show to be
  sufficient.
* The order in which `unite(get(..), get(..))` evaluates its arguments is left to the
  compiler; `get_at` takes the left one first and `get_at_order` shows that the other order
  gives the same result and the same tree.
* `modify_at_log` is `modify_at` together with the list of the indices that it passes to
  `operator[]`; `modify_at_log_erase` shows that dropping the list gives `modify_at`.
-/

namespace kirkon

/-! ## Results of operations -/

/-- Reasons for which an operation stops without returning. -/
inductive Fault where
  /-- An `assert` did not hold. -/
  | assertion
  /-- A `vector` was indexed outside `[0, size)`. -/
  | outOfRange
  /-- The argument of `resize` was negative (a huge unsigned length). -/
  | allocation
  /-- The budget of the model ran out. -/
  | outOfFuel
  deriving DecidableEq, Repr

deriving instance DecidableEq for Except

/-- Result of a public member function called on an object in state `σ`. -/
inductive Outcome (α σ : Type) where
  /-- The call returned `a` and left the object in state `s`. -/
  | ok (a : α) (s : σ)
  /-- The precondition `assert` failed; the object was in state `s` at that point. -/
  | assertFail (s : σ)
  /-- The call ran into `f` (undefined behaviour of the source); no state is modelled. -/
  | fault (f : Fault)
  deriving DecidableEq, Repr

/-- `t[i]` read through `operator[]` with an `int` index. -/
def rd {α : Type} (t : List α) (i : Int) : Except Fault α :=
  if 0 ≤ i then
    match t[i.toNat]? with
    | some a => .ok a
    | none => .error .outOfRange
  else .error .outOfRange

/-- `t[i] = a` written through `operator[]` with an `int` index. -/
def wr {α : Type} (t : List α) (i : Int) (a : α) : Except Fault (List α) :=
  if 0 ≤ i ∧ i.toNat < t.length then .ok (t.set i.toNat a) else .error .outOfRange

/-! ## The node contract -/

/-- What the engines use of a node type `N` updated with values of type `M`
(`SegtreeNodeWithPushConcept` / `SegtreeNodeWithoutPushConcept`).
`push` is `some` exactly for the node types that satisfy `SegtreeNodeWithPushConcept`;
`nd.push(l, r, left, right)` maps `(nd, left, right)` to their new values. -/
structure SegtreeNodeConcept (N M : Type) where
  /-- The value-initialised node `node{}`. -/
  dflt : N
  /-- The member `nd.apply(l, r, v)`, returning the new value of `nd`. -/
  apply : Int → Int → M → N → N
  /-- The free function `unite(a, b)`. -/
  unite : N → N → N
  /-- The member `nd.push(l, r, left_son, right_son)`, when the type has one. -/
  push : Option (Int → Int → N → N → N → N × N × N)

/-! ## `sum_segtree_node` (src/test/segtree_tests.cpp) -/

/-- The value `x` is representable in `long long` (`int64_t`). -/
def int64 (x : Int) : Prop := -9223372036854775808 ≤ x ∧ x ≤ 9223372036854775807

instance int64.decidable (x : Int) : Decidable (int64 x) := by
  unfold int64
  infer_instance

/-- The 64-bit two's-complement representative of `x`: the value in `[-2^63, 2^63)` that is
congruent to `x` modulo `2^64`. -/
def wrap64 (x : Int) : Int :=
  (x + 9223372036854775808) % 18446744073709551616 - 9223372036854775808

/-- The sentinel `NO_LAZY = std::numeric_limits<ll>::max()`. -/
def NO_LAZY : Int := 9223372036854775807

/-- The node `sum_segtree_node`: a sum and a pending assignment. -/
structure sum_segtree_node where
  data : Int
  set_value : Int
  deriving DecidableEq, Repr

namespace sum_segtree_node

/-- Default member initialisers `data{0}`, `set_value{NO_LAZY}`. -/
def dflt : sum_segtree_node := ⟨0, NO_LAZY⟩

/-- The member `apply(l, r, value)`: `data = value * 1LL * (r - l + 1)` in `long long`. -/
def apply (l r : Int) (value : Int) (_nd : sum_segtree_node) : sum_segtree_node :=
  ⟨wrap64 (value * 1 * (r - l + 1)), value⟩

/-- The friend `unite(a, b)`: `res` is default-initialised, then `res.data = a.data + b.data`
in `long long`. -/
def unite (a b : sum_segtree_node) : sum_segtree_node :=
  { dflt with data := wrap64 (a.data + b.data) }

/-- The member `push(l, r, left_son, right_son)`. -/
def push (l r : Int) (nd left_son right_son : sum_segtree_node) :
    sum_segtree_node × sum_segtree_node × sum_segtree_node :=
  if nd.set_value ≠ NO_LAZY then
    let y := (l + r) / 2
    ({ nd with set_value := NO_LAZY },
      apply l y nd.set_value left_son,
      apply (y + 1) r nd.set_value right_son)
  else (nd, left_son, right_son)

/-- The node type `sum_segtree_node` as an instance of the node contract. -/
def concept : SegtreeNodeConcept sum_segtree_node Int :=
  ⟨dflt, apply, unite, some push⟩

/-- The member `apply` with the results of the arithmetic passed through `w`: `wrap64` for the
node of the source, the identity for arithmetic over unbounded integers. -/
def apply_with (w : Int → Int) (l r : Int) (value : Int) (_nd : sum_segtree_node) :
    sum_segtree_node :=
  ⟨w (value * 1 * (r - l + 1)), value⟩

/-- The friend `unite` with the results of the arithmetic passed through `w`. -/
def unite_with (w : Int → Int) (a b : sum_segtree_node) : sum_segtree_node :=
  { dflt with data := w (a.data + b.data) }

/-- The member `push` with the results of the arithmetic passed through `w`. -/
def push_with (w : Int → Int) (l r : Int) (nd left_son right_son : sum_segtree_node) :
    sum_segtree_node × sum_segtree_node × sum_segtree_node :=
  if nd.set_value ≠ NO_LAZY then
    let y := (l + r) / 2
    ({ nd with set_value := NO_LAZY },
      apply_with w l y nd.set_value left_son,
      apply_with w (y + 1) r nd.set_value right_son)
  else (nd, left_son, right_son)

/-- The node type with the results of the arithmetic passed through `w`;
`concept = concept_with wrap64` (`concept_eq`). -/
def concept_with (w : Int → Int) : SegtreeNodeConcept sum_segtree_node Int :=
  ⟨dflt, apply_with w, unite_with w, some (push_with w)⟩

/-- The node type with the arithmetic taken over unbounded integers: the idealisation that
the stress-test property is worded for. -/
def concept_unbounded : SegtreeNodeConcept sum_segtree_node Int :=
  concept_with id

end sum_segtree_node

/-! ## The recursive engine `abstract_tourist_like_segtree` -/

namespace tourist_like

variable {N M : Type}

/-- The members `n` and `tree` of `abstract_tourist_like_segtree`. -/
structure segtree (N : Type) where
  n : Int
  tree : List N
  deriving DecidableEq, Repr

/-- `pull(x, z)`: `tree[x] = unite(tree[x + 1], tree[z])`. -/
def pull (T : SegtreeNodeConcept N M) (t : List N) (x z : Int) : Except Fault (List N) := do
  let a ← rd t (x + 1)
  let b ← rd t z
  wr t x (T.unite a b)

/-- `push(x, l, r)` of the derived class: a no-op for a node type without `push`, and
`tree[x].push(l, r, tree[x + 1], tree[z])` for a node type with one. -/
def push (T : SegtreeNodeConcept N M) (t : List N) (x l r : Int) : Except Fault (List N) :=
  match T.push with
  | none => .ok t
  | some p => do
    let y := (l + r) / 2
    let z := x + 2 * (y - l + 1)
    let nd ← rd t x
    let a ← rd t (x + 1)
    let b ← rd t z
    let q := p l r nd a b
    let t ← wr t x q.1
    let t ← wr t (x + 1) q.2.1
    wr t z q.2.2

/-- `build(x, l, r)`. -/
def build (T : SegtreeNodeConcept N M) :
    Nat → List N → Int → Int → Int → Except Fault (List N)
  | 0, _, _, _, _ => .error .outOfFuel
  | fuel + 1, t, x, l, r =>
    if l = r then .ok t
    else do
      let y := (l + r) / 2
      let z := x + 2 * (y - l + 1)
      let t ← build T fuel t (x + 1) l y
      let t ← build T fuel t z (y + 1) r
      pull T t x z

/-- `build(x, l, r, v)`. -/
def build_values (T : SegtreeNodeConcept N M) (v : List M) :
    Nat → List N → Int → Int → Int → Except Fault (List N)
  | 0, _, _, _, _ => .error .outOfFuel
  | fuel + 1, t, x, l, r =>
    if l = r then do
      let nd ← rd t x
      let m ← rd v l
      wr t x (T.apply l r m nd)
    else do
      let y := (l + r) / 2
      let z := x + 2 * (y - l + 1)
      let t ← build_values T v fuel t (x + 1) l y
      let t ← build_values T v fuel t z (y + 1) r
      pull T t x z

/-- `get(x, l, r, ll, rr)`, returning the result and the new `tree`.  The two recursive calls
of `unite(get(..), get(..))` are sequenced left first; `get_at_right_first` is the other
order. -/
def get_at (T : SegtreeNodeConcept N M) :
    Nat → List N → Int → Int → Int → Int → Int → Except Fault (N × List N)
  | 0, _, _, _, _, _, _ => .error .outOfFuel
  | fuel + 1, t, x, l, r, ll, rr =>
    if ll ≤ l ∧ r ≤ rr then do
      let nd ← rd t x
      pure (nd, t)
    else do
      let y := (l + r) / 2
      let z := x + 2 * (y - l + 1)
      let t ← push T t x l r
      if rr ≤ y then do
        let q ← get_at T fuel t (x + 1) l y ll rr
        let t ← pull T q.2 x z
        pure (q.1, t)
      else if ll > y then do
        let q ← get_at T fuel t z (y + 1) r ll rr
        let t ← pull T q.2 x z
        pure (q.1, t)
      else do
        let q₁ ← get_at T fuel t (x + 1) l y ll rr
        let q₂ ← get_at T fuel q₁.2 z (y + 1) r ll rr
        let t ← pull T q₂.2 x z
        pure (T.unite q₁.1 q₂.1, t)

/-- `get(x, l, r, ll, rr)` with the two recursive calls of `unite(get(..), get(..))`
sequenced right first: the source leaves the order of evaluation of the two arguments to
the compiler.  `get_at_order` shows that the order makes no difference. -/
def get_at_right_first (T : SegtreeNodeConcept N M) :
    Nat → List N → Int → Int → Int → Int → Int → Except Fault (N × List N)
  | 0, _, _, _, _, _, _ => .error .outOfFuel
  | fuel + 1, t, x, l, r, ll, rr =>
    if ll ≤ l ∧ r ≤ rr then do
      let nd ← rd t x
      pure (nd, t)
    else do
      let y := (l + r) / 2
      let z := x + 2 * (y - l + 1)
      let t ← push T t x l r
      if rr ≤ y then do
        let q ← get_at_right_first T fuel t (x + 1) l y ll rr
        let t ← pull T q.2 x z
        pure (q.1, t)
      else if ll > y then do
        let q ← get_at_right_first T fuel t z (y + 1) r ll rr
        let t ← pull T q.2 x z
        pure (q.1, t)
      else do
        let q₂ ← get_at_right_first T fuel t z (y + 1) r ll rr
        let q₁ ← get_at_right_first T fuel q₂.2 (x + 1) l y ll rr
        let t ← pull T q₁.2 x z
        pure (T.unite q₁.1 q₂.1, t)

/-- `modify(x, l, r, ll, rr, v)`. -/
def modify_at (T : SegtreeNodeConcept N M) :
    Nat → List N → Int → Int → Int → Int → Int → M → Except Fault (List N)
  | 0, _, _, _, _, _, _, _ => .error .outOfFuel
  | fuel + 1, t, x, l, r, ll, rr, v =>
    if ll ≤ l ∧ r ≤ rr then do
      let nd ← rd t x
      wr t x (T.apply l r v nd)
    else do
      let y := (l + r) / 2
      let z := x + 2 * (y - l + 1)
      let t ← push T t x l r
      let t ← if ll ≤ y then modify_at T fuel t (x + 1) l y ll rr v else pure t
      let t ← if rr > y then modify_at T fuel t z (y + 1) r ll rr v else pure t
      pull T t x z

/-- The constructor `abstract_tourist_like_segtree(int _n)`. -/
def segtree.new (T : SegtreeNodeConcept N M) (n : Int) : Except Fault (segtree N) :=
  if 0 < n then do
    let t ← build T n.toNat (List.replicate (2 * n - 1).toNat T.dflt) 0 0 (n - 1)
    pure ⟨n, t⟩
  else .error .assertion

/-- The constructor `abstract_tourist_like_segtree(const vector<M> &v)`. -/
def segtree.new_values (T : SegtreeNodeConcept N M) (v : List M) : Except Fault (segtree N) :=
  let n : Int := v.length
  if 0 < n then do
    let t ← build_values T v n.toNat (List.replicate (2 * n - 1).toNat T.dflt) 0 0 (n - 1)
    pure ⟨n, t⟩
  else .error .assertion

/-- The member `get(ll, rr)`. -/
def segtree.get (T : SegtreeNodeConcept N M) (s : segtree N) (ll rr : Int) :
    Outcome N (segtree N) :=
  if 0 ≤ ll ∧ ll ≤ rr ∧ rr ≤ s.n - 1 then
    match get_at T s.n.toNat s.tree 0 0 (s.n - 1) ll rr with
    | .ok q => .ok q.1 ⟨s.n, q.2⟩
    | .error f => .fault f
  else .assertFail s

/-- The member `get(p)`. -/
def segtree.get_point (T : SegtreeNodeConcept N M) (s : segtree N) (p : Int) :
    Outcome N (segtree N) :=
  if 0 ≤ p ∧ p ≤ s.n - 1 then
    match get_at T s.n.toNat s.tree 0 0 (s.n - 1) p p with
    | .ok q => .ok q.1 ⟨s.n, q.2⟩
    | .error f => .fault f
  else .assertFail s

/-- The member `modify(ll, rr, v)`. -/
def segtree.modify (T : SegtreeNodeConcept N M) (s : segtree N) (ll rr : Int) (v : M) :
    Outcome Unit (segtree N) :=
  if 0 ≤ ll ∧ ll ≤ rr ∧ rr ≤ s.n - 1 then
    match modify_at T s.n.toNat s.tree 0 0 (s.n - 1) ll rr v with
    | .ok t => .ok () ⟨s.n, t⟩
    | .error f => .fault f
  else .assertFail s

end tourist_like

/-! ## The iterative engine `segtree<T, bottom_up_segtree_tag>` -/

namespace bottom_up

variable {N M : Type}

/-- The members `n` and `tree` of `segtree<T, bottom_up_segtree_tag>`. -/
structure segtree (N : Type) where
  n : Int
  tree : List N
  deriving DecidableEq, Repr

/-- The constructor `segtree(int n)`: `tree.resize(2 * n - 1)`. -/
def segtree.new (T : SegtreeNodeConcept N M) (n : Int) : Except Fault (segtree N) :=
  if 0 ≤ 2 * n - 1 then .ok ⟨n, List.replicate (2 * n - 1).toNat T.dflt⟩
  else .error .allocation

/-- The first loop of `build`: `for (int i = n; i < 2 * n - 1; ++i) tree[i].apply(i, i, v[i - n])`,
entered with the current value of `i`. -/
def build_leaves (T : SegtreeNodeConcept N M) (n : Int) (v : List M) :
    Nat → List N → Int → Except Fault (List N)
  | 0, _, _ => .error .outOfFuel
  | fuel + 1, t, i =>
    if i < 2 * n - 1 then do
      let nd ← rd t i
      let m ← rd v (i - n)
      let t ← wr t i (T.apply i i m nd)
      build_leaves T n v fuel t (i + 1)
    else .ok t

/-- The second loop of `build`:
`for (int i = n - 1; i > 0; --i) tree[i] = unite(tree[i << 1], tree[i << 1 | 1])`. -/
def build_inner (T : SegtreeNodeConcept N M) :
    Nat → List N → Int → Except Fault (List N)
  | 0, _, _ => .error .outOfFuel
  | fuel + 1, t, i =>
    if i > 0 then do
      let a ← rd t (2 * i)
      let b ← rd t (2 * i + 1)
      let t ← wr t i (T.unite a b)
      build_inner T fuel t (i - 1)
    else .ok t

/-- The member `build(v)`. -/
def segtree.build (T : SegtreeNodeConcept N M) (s : segtree N) (v : List M) :
    Except Fault (segtree N) := do
  let t ← build_leaves T s.n v s.n.toNat s.tree s.n
  let t ← build_inner T s.n.toNat t (s.n - 1)
  pure ⟨s.n, t⟩

/-- The loop of `get(l, r)`, entered after `l += n, r += n`. -/
def get_loop (T : SegtreeNodeConcept N M) (t : List N) :
    Nat → Int → Int → N → N → Except Fault N
  | 0, _, _, _, _ => .error .outOfFuel
  | fuel + 1, l, r, left_res, right_res =>
    if l < r then do
      let p ← if l % 2 = 1 then (do
          let a ← rd t l
          pure (T.unite left_res a, l + 1))
        else pure (left_res, l)
      let q ← if r % 2 = 1 then (do
          let a ← rd t (r - 1)
          pure (T.unite a right_res, r - 1))
        else pure (right_res, r)
      get_loop T t fuel (p.2 / 2) (q.2 / 2) p.1 q.1
    else .ok (T.unite left_res right_res)

/-- The member `get(l, r)`; it has no `assert`. -/
def segtree.get (T : SegtreeNodeConcept N M) (s : segtree N) (l r : Int) : Except Fault N :=
  get_loop T s.tree ((r + s.n).toNat + 1) (l + s.n) (r + s.n) T.dflt T.dflt

/-- The member `get(p)`: `tree[p + n]`. -/
def segtree.get_point (s : segtree N) (p : Int) : Except Fault N :=
  rd s.tree (p + s.n)

/-- The loop of `modify(p, v)`, entered after `tree[p += n] = v`: `p >>= 1` is both the
update of `p` and the loop condition. -/
def modify_loop (T : SegtreeNodeConcept N M) :
    Nat → List N → Int → Except Fault (List N)
  | 0, _, _ => .error .outOfFuel
  | fuel + 1, t, p =>
    let p := p / 2
    if p ≠ 0 then do
      let a ← rd t (2 * p)
      let b ← rd t (2 * p + 1)
      let t ← wr t p (T.unite a b)
      modify_loop T fuel t p
    else .ok t

/-- The member `modify(p, v)`; it has no `assert`. -/
def segtree.modify (T : SegtreeNodeConcept N M) (s : segtree N) (p : Int) (v : N) :
    Except Fault (segtree N) := do
  let t ← wr s.tree (p + s.n) v
  let t ← modify_loop T ((p + s.n).toNat + 1) t (p + s.n)
  pure ⟨s.n, t⟩

end bottom_up

/-! ## Layout of the recursive engine's vertices

Vertex `x` over `[l, r]` has its left child at `x + 1` over `[l, y]` and its right child at
`z = x + 2 * (y - l + 1)` over `[y + 1, r]`, `y = (l + r) / 2`.  `Sub N` records the values
stored below a vertex; `Holds t a F x l r` says that the slots `x .. x + 2 * (r - l)` of
`t` hold the value `a` at `x` and the values `F` below it. -/

namespace tourist_like

variable {N M : Type}

/-- The values stored strictly below a vertex: nothing below a leaf, and below an internal
vertex the values of the two children with what is below them. -/
inductive Sub (N : Type) where
  | leaf : Sub N
  | node (la : N) (L : Sub N) (ra : N) (R : Sub N) : Sub N

/-- The slots of `t` that make up the subtree of vertex `x` over `[l, r]` hold `a` (at `x`)
and `F` (below `x`). -/
def Holds (t : List N) : N → Sub N → Int → Int → Int → Prop
  | a, .leaf, x, l, r => l = r ∧ rd t x = .ok a
  | a, .node la L ra R, x, l, r =>
    l < r ∧ rd t x = .ok a ∧ Holds t la L (x + 1) l ((l + r) / 2) ∧
      Holds t ra R (x + 2 * ((l + r) / 2 - l + 1)) ((l + r) / 2 + 1) r

/-- `u` has the length of `t` and differs from it at most on the slots `lo .. hi`. -/
def Frame (t u : List N) (lo hi : Int) : Prop :=
  u.length = t.length ∧ ∀ i : Int, i < lo ∨ hi < i → rd u i = rd t i

/-- The effect of the engine's `push` on the values of a vertex and of its two children. -/
def pushV (T : SegtreeNodeConcept N M) (l r : Int) (a la ra : N) : N × N × N :=
  match T.push with
  | none => (a, la, ra)
  | some p => p l r a la ra

/-- The effect of `get(x, l, r, ll, rr)` on the values of a subtree: the result, and the new
values at and below the vertex. -/
def getF (T : SegtreeNodeConcept N M) : N → Sub N → Int → Int → Int → Int → N × N × Sub N
  | a, .leaf, _, _, _, _ => (a, a, .leaf)
  | a, .node la L ra R, l, r, ll, rr =>
    if ll ≤ l ∧ r ≤ rr then (a, a, .node la L ra R)
    else
      let y := (l + r) / 2
      let q := pushV T l r a la ra
      if rr ≤ y then
        let g := getF T q.2.1 L l y ll rr
        (g.1, T.unite g.2.1 q.2.2, .node g.2.1 g.2.2 q.2.2 R)
      else if ll > y then
        let g := getF T q.2.2 R (y + 1) r ll rr
        (g.1, T.unite q.2.1 g.2.1, .node q.2.1 L g.2.1 g.2.2)
      else
        let g₁ := getF T q.2.1 L l y ll rr
        let g₂ := getF T q.2.2 R (y + 1) r ll rr
        (T.unite g₁.1 g₂.1, T.unite g₁.2.1 g₂.2.1, .node g₁.2.1 g₁.2.2 g₂.2.1 g₂.2.2)

/-- The effect of `modify(x, l, r, ll, rr, v)` on the values of a subtree. -/
def modifyF (T : SegtreeNodeConcept N M) : N → Sub N → Int → Int → Int → Int → M → N × Sub N
  | a, .leaf, l, r, _, _, v => (T.apply l r v a, .leaf)
  | a, .node la L ra R, l, r, ll, rr, v =>
    if ll ≤ l ∧ r ≤ rr then (T.apply l r v a, .node la L ra R)
    else
      let y := (l + r) / 2
      let q := pushV T l r a la ra
      let g₁ := if ll ≤ y then modifyF T q.2.1 L l y ll rr v else (q.2.1, L)
      let g₂ := if rr > y then modifyF T q.2.2 R (y + 1) r ll rr v else (q.2.2, R)
      (T.unite g₁.1 g₂.1, .node g₁.1 g₁.2 g₂.1 g₂.2)

/-- Every internal vertex is the `unite` of its children and the leaf of element `p` holds
`f p`: the state that `build` establishes. -/
def Built (T : SegtreeNodeConcept N M) (f : Int → N) : N → Sub N → Int → Int → Prop
  | a, .leaf, l, _ => a = f l
  | a, .node la L ra R, l, r =>
    a = T.unite la ra ∧ Built T f la L l ((l + r) / 2) ∧ Built T f ra R ((l + r) / 2 + 1) r

end tourist_like

/-! ## States reachable through the public operations, and what a tree represents -/

namespace tourist_like

variable {N M : Type}

/-- The states of the recursive engine that a program can reach: a constructor returned, and
then `get` / `modify` calls returned. -/
inductive Reachable (T : SegtreeNodeConcept N M) : segtree N → Prop
  | new {n : Int} {s : segtree N} : segtree.new T n = .ok s → Reachable T s
  | new_values {v : List M} {s : segtree N} : segtree.new_values T v = .ok s → Reachable T s
  | get {s s' : segtree N} {ll rr : Int} {a : N} :
      Reachable T s → segtree.get T s ll rr = .ok a s' → Reachable T s'
  | get_point {s s' : segtree N} {p : Int} {a : N} :
      Reachable T s → segtree.get_point T s p = .ok a s' → Reachable T s'
  | modify {s s' : segtree N} {ll rr : Int} {v : M} :
      Reachable T s → segtree.modify T s ll rr v = .ok () s' → Reachable T s'

/-- The `2 * n - 1` slots of a state are laid out as the tree over `[0, n - 1]`. -/
def Laid (s : segtree N) : Prop :=
  0 < s.n ∧ ∃ a F, Holds s.tree a F 0 0 (s.n - 1)

/-- The shape of the values below a vertex over `[l, r]`: a leaf exactly when `l = r`. -/
def Shape : Sub N → Int → Int → Prop
  | .leaf, l, r => l = r
  | .node _ L _ R, l, r => l < r ∧ Shape L l ((l + r) / 2) ∧ Shape R ((l + r) / 2 + 1) r

/-- `f lo + f (lo + 1) + ... + f (lo + k - 1)`. -/
def rsum (f : Int → Int) : Int → Nat → Int
  | _, 0 => 0
  | lo, k + 1 => f lo + rsum f (lo + 1) k

/-- `f lo + ... + f hi`, zero when `hi < lo`. -/
def isum (f : Int → Int) (lo hi : Int) : Int :=
  rsum f lo (hi + 1 - lo).toNat

/-- What the theory of the sum node uses of the function `w` that the results of the
arithmetic are passed through; `wrap64` and the identity have these properties. -/
structure Reduction (w : Int → Int) : Prop where
  zero : w 0 = 0
  add : ∀ a b : Int, w (w a + w b) = w (a + b)
  mul : ∀ a k : Int, w (w a * k) = w (a * k)

/-- The element `p` that a `sum_segtree_node` subtree over `[l, r]` represents: the pending
assignment of the topmost vertex above `p` that has one, as `apply` will store it in the
leaf, and the leaf's `data` when there is none. -/
def elem (w : Int → Int) : sum_segtree_node → Sub sum_segtree_node → Int → Int → Int → Int
  | a, .leaf, _, _, _ => a.data
  | a, .node la L ra R, l, r, p =>
    if a.set_value ≠ NO_LAZY then w a.set_value
    else if p ≤ (l + r) / 2 then elem w la L l ((l + r) / 2) p
    else elem w ra R ((l + r) / 2 + 1) r p

/-- The invariant of the `sum_segtree_node` tree: an internal vertex with a pending
assignment `v` over `[l, r]` has `data = w (v * (r - l + 1))`; one without has
`data = w (left.data + right.data)`, and its children satisfy the invariant; the `data` of a
leaf is a value of `w`. -/
def Good (w : Int → Int) : sum_segtree_node → Sub sum_segtree_node → Int → Int → Prop
  | a, .leaf, _, _ => w a.data = a.data
  | a, .node la L ra R, l, r =>
    if a.set_value ≠ NO_LAZY then a.data = w (a.set_value * (r - l + 1))
    else a.data = w (la.data + ra.data) ∧ Good w la L l ((l + r) / 2) ∧
      Good w ra R ((l + r) / 2 + 1) r

/-- The right-nested fold `unite (f lo) (unite (f (lo + 1)) (... (f (lo + k))))`. -/
def foldr_unite (T : SegtreeNodeConcept N M) (f : Int → N) : Int → Nat → N
  | lo, 0 => f lo
  | lo, k + 1 => T.unite (f lo) (foldr_unite T f (lo + 1) k)

end tourist_like

/-! ## The plain array of the stress test (src/test/segtree_tests.cpp) -/

/-- An operation of the stress test. -/
inductive Op where
  /-- The call `seg.modify(l, r, v)`, replayed as `naive[i] = v` for `i` in `[l, r]`. -/
  | modify (l r : Int) (v : Int)
  /-- The call `seg.get(l, r)`, compared with the sum of `naive[l..r]`. -/
  | get (l r : Int)
  deriving DecidableEq, Repr

/-- The loop `for (int i = l; i <= r; i++) naive[i] = newValue`. -/
def naive_assign (naive : List Int) (l r : Int) (v : Int) : List Int :=
  (List.range' l.toNat (r + 1 - l).toNat).foldl (fun acc i => acc.set i v) naive

/-- The loop `for (int i = l; i <= r; i++) expectedSum += naive[i]`. -/
def naive_sum (naive : List Int) (l r : Int) : Int :=
  (List.range' l.toNat (r + 1 - l).toNat).foldl (fun acc i => acc + naive.getD i 0) 0

/-- The expected sums of the stress test: the operations replayed on the plain array. -/
def naive_run : List Int → List Op → List Int
  | _, [] => []
  | naive, .modify l r v :: ops => naive_run (naive_assign naive l r v) ops
  | naive, .get l r :: ops => naive_sum naive l r :: naive_run naive ops

/-- The `data` of the results of the `get` calls of the stress test run on the engine with
the node type `T`; `none` when a call does not return. -/
def engine_run (T : SegtreeNodeConcept sum_segtree_node Int)
    (s : tourist_like.segtree sum_segtree_node) : List Op → Option (List Int)
  | [] => some []
  | .modify l r v :: ops =>
    match tourist_like.segtree.modify T s l r v with
    | .ok _ s' => engine_run T s' ops
    | _ => none
  | .get l r :: ops =>
    match tourist_like.segtree.get T s l r with
    | .ok a s' => (engine_run T s' ops).map (a.data :: ·)
    | _ => none

/-- The preconditions of the operations of the stress test on an array of size `n`, with
32-bit values. -/
def Op.valid (n : Int) : Op → Prop
  | .modify l r v => 0 ≤ l ∧ l ≤ r ∧ r ≤ n - 1 ∧ -2147483648 ≤ v ∧ v ≤ 2147483647
  | .get l r => 0 ≤ l ∧ l ≤ r ∧ r ≤ n - 1

namespace tourist_like

variable {N M : Type}

/-- The leaf that `build(x, l, r, v)` makes for element `p`: the default node after
`apply(p, p, v[p])`. -/
def leaf_of (T : SegtreeNodeConcept N M) (v : List M) (p : Int) : N :=
  match rd v p with
  | .ok m => T.apply p p m T.dflt
  | .error _ => T.dflt

/-- The state `s` of the `sum_segtree_node` engine is laid out, satisfies the sum invariant
and represents the plain array `arr`, each element as `apply` stores it. -/
def Represents (w : Int → Int) (s : segtree sum_segtree_node) (arr : List Int) : Prop :=
  s.n = arr.length ∧ 0 < s.n ∧
    ∃ a F, Holds s.tree a F 0 0 (s.n - 1) ∧ Good w a F 0 (s.n - 1) ∧
      ∀ p : Int, 0 ≤ p → p ≤ s.n - 1 → elem w a F 0 (s.n - 1) p = w (arr.getD p.toNat 0)

/-- The state `s` is laid out, its leaves hold the nodes `f 0, ..., f (n - 1)` and every
internal vertex holds the `unite` of its children. -/
def Eager (T : SegtreeNodeConcept N M) (s : segtree N) (f : Int → N) : Prop :=
  0 < s.n ∧ ∃ a F, Holds s.tree a F 0 0 (s.n - 1) ∧ Built T f a F 0 (s.n - 1)

end tourist_like

/-! ## Two node types without `push`, used as examples -/

/-- A node type whose `unite` is not commutative: the node is the list of the elements of its
range, `apply` stores one element and `unite` concatenates. -/
def concat_node : SegtreeNodeConcept (List Int) Int :=
  ⟨[], fun _ _ v _ => [v], fun a b => a ++ b, none⟩

/-- The sum with range assignment as a node type without `push`: `apply(l, r, v)` stores
`v * (r - l + 1)` and `unite` adds. -/
def plain_sum_node : SegtreeNodeConcept Int Int :=
  ⟨0, fun l r v _ => v * (r - l + 1), fun a b => a + b, none⟩

/-! ## What the iterative engine's tree holds -/

namespace bottom_up

variable {N M : Type}

/-- Every internal vertex `i` in `[1, n)` whose two children are allocated holds
`unite(tree[2 * i], tree[2 * i + 1])`. -/
def Inner (T : SegtreeNodeConcept N M) (s : segtree N) : Prop :=
  ∀ i : Int, 1 ≤ i → i < s.n → 2 * i + 1 < s.tree.length →
    ∃ a b, rd s.tree (2 * i) = .ok a ∧ rd s.tree (2 * i + 1) = .ok b ∧
      rd s.tree i = .ok (T.unite a b)

/-- The left-to-right fold of the leaves of the half-open range `[l, r)`: the slots
`n + l, ..., n + r - 1`. -/
def leaves_fold (T : SegtreeNodeConcept N M) (s : segtree N) (l r : Int) : N :=
  List.foldr T.unite T.dflt ((s.tree.drop (l + s.n).toNat).take (r - l).toNat)

/-- The slot `i` of `t`, and the default node when there is no such slot. -/
def slot (T : SegtreeNodeConcept N M) (t : List N) (i : Int) : N :=
  match rd t i with
  | .ok a => a
  | .error _ => T.dflt

/-- The fold `unite(t[a], unite(t[a + 1], ... unite(t[a + k - 1], default)))`. -/
def seg (T : SegtreeNodeConcept N M) (t : List N) : Int → Nat → N
  | _, 0 => T.dflt
  | a, k + 1 => T.unite (slot T t a) (seg T t (a + 1) k)

end bottom_up

/-! ## The vertices of the recursive engine's tree -/

namespace tourist_like

/-- The integers `x, x + 1, ..., x + k - 1`. -/
def irange : Int → Nat → List Int
  | _, 0 => []
  | x, k + 1 => x :: irange (x + 1) k

/-- The vertices of the subtree of the vertex `x` over `[l, r]`, each with its index and its
range, in the order in which `build(x, l, r)` visits them: the vertex, its left subtree from
`x + 1` over `[l, y]`, its right subtree from `z = x + 2 * (y - l + 1)` over `[y + 1, r]`,
`y = (l + r) / 2`. -/
def vertices : Nat → Int → Int → Int → List (Int × Int × Int)
  | 0, _, _, _ => []
  | fuel + 1, x, l, r =>
    if l = r then [(x, l, r)]
    else
      (x, l, r) :: (vertices fuel (x + 1) l ((l + r) / 2) ++
        vertices fuel (x + 2 * ((l + r) / 2 - l + 1)) ((l + r) / 2 + 1) r)

/-- The products `value * (r - l + 1)` that `modify(x, l, r, ll, rr, value)` computes in
`apply` at the vertices that it covers are representable: the recursion of `modify`, with the
test in place of the update. -/
def apply_fits : Nat → Int → Int → Int → Int → Int → Bool
  | 0, _, _, _, _, _ => true
  | fuel + 1, l, r, ll, rr, value =>
    if ll ≤ l ∧ r ≤ rr then decide (int64 (value * 1 * (r - l + 1)))
    else
      (if ll ≤ (l + r) / 2 then apply_fits fuel l ((l + r) / 2) ll rr value else true) &&
      (if rr > (l + r) / 2 then apply_fits fuel ((l + r) / 2 + 1) r ll rr value else true)

/-- The call `modify(ll, rr, value)` on a tree of size `n` computes no product in `apply` at
a covered vertex that overflows `long long`. -/
def modify_fits (n ll rr value : Int) : Prop :=
  apply_fits n.toNat 0 (n - 1) ll rr value = true

instance modify_fits.decidable (n ll rr value : Int) : Decidable (modify_fits n ll rr value) := by
  unfold modify_fits
  infer_instance

/-- The call `modify(ll, rr, value)` on a tree of size `n` does not store the sentinel as a
pending assignment: `value` is not `NO_LAZY`, or the call computes no overflowing product in
`apply` (`NO_LAZY * (r - l + 1)` overflows at every vertex with `l < r`, so the call then
applies `NO_LAZY` to leaves only, where `push` is never called). -/
def sentinel_free (n ll rr value : Int) : Prop :=
  value ≠ NO_LAZY ∨ modify_fits n ll rr value

instance sentinel_free.decidable (n ll rr value : Int) :
    Decidable (sentinel_free n ll rr value) := by
  unfold sentinel_free
  infer_instance

end tourist_like

/-! ## The invariant of `pull` at every internal vertex, and restricted reachability -/

namespace tourist_like

variable {N M : Type}

end tourist_like

/-! ## The recursive `modify` with the indices it passes to `operator[]` -/

namespace tourist_like

variable {N M : Type}

/-- `pull(x, z)` together with the indices it accesses, in order: the reads of `tree[x + 1]`
and `tree[z]` and the write of `tree[x]`. -/
def pull_log (T : SegtreeNodeConcept N M) (t : List N) (x z : Int) :
    Except Fault (List N × List Int) := do
  let a ← rd t (x + 1)
  let b ← rd t z
  let t ← wr t x (T.unite a b)
  pure (t, [x + 1, z, x])

/-- `push(x, l, r)` together with the indices it accesses: none for a node type without
`push`; `tree[x]`, `tree[x + 1]` and `tree[z]`, read and then written, for one with. -/
def push_log (T : SegtreeNodeConcept N M) (t : List N) (x l r : Int) :
    Except Fault (List N × List Int) :=
  match T.push with
  | none => .ok (t, [])
  | some p => do
    let y := (l + r) / 2
    let z := x + 2 * (y - l + 1)
    let nd ← rd t x
    let a ← rd t (x + 1)
    let b ← rd t z
    let q := p l r nd a b
    let t ← wr t x q.1
    let t ← wr t (x + 1) q.2.1
    let t ← wr t z q.2.2
    pure (t, [x, x + 1, z, x, x + 1, z])

/-- `modify(x, l, r, ll, rr, v)` together with the indices it accesses, in order. -/
def modify_at_log (T : SegtreeNodeConcept N M) :
    Nat → List N → Int → Int → Int → Int → Int → M → Except Fault (List N × List Int)
  | 0, _, _, _, _, _, _, _ => .error .outOfFuel
  | fuel + 1, t, x, l, r, ll, rr, v =>
    if ll ≤ l ∧ r ≤ rr then do
      let nd ← rd t x
      let t ← wr t x (T.apply l r v nd)
      pure (t, [x, x])
    else do
      let y := (l + r) / 2
      let z := x + 2 * (y - l + 1)
      let p ← push_log T t x l r
      let m₁ ← if ll ≤ y then modify_at_log T fuel p.1 (x + 1) l y ll rr v else pure (p.1, [])
      let m₂ ← if rr > y then modify_at_log T fuel m₁.1 z (y + 1) r ll rr v
        else pure (m₁.1, [])
      let q ← pull_log T m₂.1 x z
      pure (q.1, p.2 ++ m₁.2 ++ m₂.2 ++ q.2)

end tourist_like

/-! ## Reading and writing slots -/

section slots

variable {α : Type}

lemma rd_ok_bounds {t : List α} {i : Int} {a : α} (h : rd t i = .ok a) :
    0 ≤ i ∧ i.toNat < t.length := by
  unfold rd at h
  split at h
  · rename_i h0
    refine ⟨h0, ?_⟩
    by_contra hlt
    rw [List.getElem?_eq_none (by omega)] at h
    simp at h
  · simp at h

lemma rd_of_bounds {t : List α} {i : Int} (h0 : 0 ≤ i) (h1 : i.toNat < t.length) :
    ∃ a, rd t i = .ok a := by
  refine ⟨t[i.toNat], ?_⟩
  unfold rd
  rw [if_pos h0, List.getElem?_eq_getElem h1]

lemma wr_spec {t : List α} {i : Int} (a : α) (h0 : 0 ≤ i) (h1 : i.toNat < t.length) :
    ∃ u, wr t i a = .ok u ∧ u.length = t.length ∧ rd u i = .ok a ∧
      ∀ j : Int, j ≠ i → rd u j = rd t j := by
  refine ⟨t.set i.toNat a, ?_, ?_, ?_, ?_⟩
  · unfold wr
    rw [if_pos ⟨h0, h1⟩]
  · simp
  · unfold rd
    rw [if_pos h0, List.getElem?_set_self h1]
  · intro j hj
    unfold rd
    by_cases hj0 : 0 ≤ j
    · rw [if_pos hj0, if_pos hj0, List.getElem?_set_ne (by omega)]
    · rw [if_neg hj0, if_neg hj0]

lemma rd_replicate {n : Nat} {a : α} {i : Int} (h0 : 0 ≤ i) (h1 : i.toNat < n) :
    rd (List.replicate n a) i = .ok a := by
  unfold rd
  rw [if_pos h0, List.getElem?_replicate, if_pos h1]

end slots

/-! ## Layout lemmas of the recursive engine -/

namespace tourist_like

variable {N M : Type}

lemma Frame.refl (t : List N) (lo hi : Int) : Frame t t lo hi :=
  ⟨rfl, fun _ _ => rfl⟩

lemma Frame.trans {t u w : List N} {lo hi lo₁ hi₁ lo₂ hi₂ : Int}
    (h₁ : Frame t u lo₁ hi₁) (h₂ : Frame u w lo₂ hi₂)
    (a₁ : lo ≤ lo₁) (b₁ : hi₁ ≤ hi) (a₂ : lo ≤ lo₂) (b₂ : hi₂ ≤ hi) :
    Frame t w lo hi := by
  refine ⟨h₂.1.trans h₁.1, fun i hi => ?_⟩
  rw [h₂.2 i (by omega), h₁.2 i (by omega)]

lemma Frame.mono {t u : List N} {lo hi lo₁ hi₁ : Int} (h : Frame t u lo₁ hi₁)
    (a : lo ≤ lo₁) (b : hi₁ ≤ hi) : Frame t u lo hi :=
  ⟨h.1, fun i hi => h.2 i (by omega)⟩

lemma Holds.root {t : List N} {a : N} {F : Sub N} {x l r : Int} (h : Holds t a F x l r) :
    rd t x = .ok a := by
  cases F with
  | leaf => exact h.2
  | node la L ra R => exact h.2.1

lemma Holds.lo_le_hi {t : List N} {a : N} {F : Sub N} {x l r : Int} (h : Holds t a F x l r) :
    l ≤ r := by
  cases F with
  | leaf => exact le_of_eq h.1
  | node la L ra R => exact le_of_lt h.1

/-- `Holds` only looks at the slots `x .. x + 2 * (r - l)`. -/
lemma Holds.congr {t u : List N} {F : Sub N} : ∀ {a : N} {x l r : Int},
    Holds t a F x l r → (∀ i : Int, x ≤ i → i ≤ x + 2 * (r - l) → rd u i = rd t i) →
    Holds u a F x l r := by
  induction F with
  | leaf =>
    intro a x l r h hw
    refine ⟨h.1, ?_⟩
    rw [hw x le_rfl (by have := h.1; omega)]
    exact h.2
  | node la L ra R ihL ihR =>
    intro a x l r h hw
    obtain ⟨hlt, hx, hL, hR⟩ := h
    refine ⟨hlt, ?_, ihL hL ?_, ihR hR ?_⟩
    · rw [hw x le_rfl (by omega)]
      exact hx
    · intro i h1 h2
      exact hw i (by omega) (by omega)
    · intro i h1 h2
      exact hw i (by omega) (by omega)

lemma Holds.frame {t u : List N} {a : N} {F : Sub N} {x l r lo hi : Int}
    (h : Holds t a F x l r) (hf : Frame t u lo hi)
    (hd : hi < x ∨ x + 2 * (r - l) < lo) : Holds u a F x l r :=
  h.congr fun i h1 h2 => hf.2 i (by omega)

/-- Every slot of the subtree is allocated. -/
lemma Holds.bounds {t : List N} {F : Sub N} : ∀ {a : N} {x l r : Int},
    Holds t a F x l r → ∀ i : Int, x ≤ i → i ≤ x + 2 * (r - l) →
      0 ≤ i ∧ i.toNat < t.length := by
  induction F with
  | leaf =>
    intro a x l r h i h1 h2
    have hb := rd_ok_bounds h.2
    have := h.1
    have : i = x := by omega
    subst this
    exact hb
  | node la L ra R ihL ihR =>
    intro a x l r h i h1 h2
    obtain ⟨hlt, hx, hL, hR⟩ := h
    by_cases hi : i = x
    · subst hi
      exact rd_ok_bounds hx
    · by_cases hz : i < x + 2 * ((l + r) / 2 - l + 1)
      · exact ihL hL i (by omega) (by omega)
      · exact ihR hR i (by omega) (by omega)

/-- Overwriting the root slot. -/
lemma Holds.set_root {t : List N} {a : N} {F : Sub N} {x l r : Int} (b : N)
    (h : Holds t a F x l r) :
    ∃ u, wr t x b = .ok u ∧ Holds u b F x l r ∧ Frame t u x x := by
  have hb := rd_ok_bounds h.root
  obtain ⟨u, hu, hlen, hx, hne⟩ := wr_spec b hb.1 hb.2
  refine ⟨u, hu, ?_, hlen, fun i hi => hne i (by omega)⟩
  cases F with
  | leaf => exact ⟨h.1, hx⟩
  | node la L ra R =>
    obtain ⟨hlt, _, hL, hR⟩ := h
    refine ⟨hlt, hx, hL.congr ?_, hR.congr ?_⟩
    · intro i h1 h2
      exact hne i (by omega)
    · intro i h1 h2
      exact hne i (by omega)

lemma pull_spec (T : SegtreeNodeConcept N M) {t : List N} {a la ra : N} {L R : Sub N}
    {x l r : Int} (h : Holds t a (.node la L ra R) x l r) :
    ∃ u, pull T t x (x + 2 * ((l + r) / 2 - l + 1)) = .ok u ∧
      Holds u (T.unite la ra) (.node la L ra R) x l r ∧ Frame t u x x := by
  obtain ⟨u, hu, hH, hF⟩ := h.set_root (T.unite la ra)
  refine ⟨u, ?_, hH, hF⟩
  obtain ⟨_, _, hL, hR⟩ := h
  simp only [pull, hL.root, hR.root, bind, Except.bind, hu]

lemma push_spec (T : SegtreeNodeConcept N M) {t : List N} {a la ra : N} {L R : Sub N}
    {x l r : Int} (h : Holds t a (.node la L ra R) x l r) :
    ∃ u, push T t x l r = .ok u ∧
      Holds u (pushV T l r a la ra).1
        (.node (pushV T l r a la ra).2.1 L (pushV T l r a la ra).2.2 R) x l r ∧
      Frame t u x (x + 2 * (r - l)) := by
  unfold push pushV
  cases hp : T.push with
  | none => exact ⟨t, rfl, h, Frame.refl _ _ _⟩
  | some p =>
    obtain ⟨hlt, hx, hL, hR⟩ := h
    simp only [hx, hL.root, hR.root, bind, Except.bind]
    generalize p l r a la ra = q
    have hLb := hL.bounds
    have hRb := hR.bounds
    have hxb := rd_ok_bounds hx
    obtain ⟨u₁, e₁, len₁, x₁, ne₁⟩ := wr_spec q.1 hxb.1 hxb.2
    have b₂ := hLb (x + 1) le_rfl (by omega)
    obtain ⟨u₂, e₂, len₂, x₂, ne₂⟩ :=
      wr_spec (t := u₁) q.2.1 b₂.1 (by rw [len₁]; exact b₂.2)
    have b₃ := hRb (x + 2 * ((l + r) / 2 - l + 1)) le_rfl (by omega)
    obtain ⟨u₃, e₃, len₃, x₃, ne₃⟩ :=
      wr_spec (t := u₂) q.2.2 b₃.1 (by rw [len₂, len₁]; exact b₃.2)
    refine ⟨u₃, ?_, ⟨hlt, ?_, ?_, ?_⟩, ?_, ?_⟩
    · simp only [e₁, e₂, e₃]
    · rw [ne₃ _ (by omega), ne₂ _ (by omega)]
      exact x₁
    · have hL' : Holds u₁ la L (x + 1) l ((l + r) / 2) :=
        hL.congr fun i h1 h2 => ne₁ i (by omega)
      obtain ⟨w, ew, hw, fw⟩ := hL'.set_root q.2.1
      rw [e₂] at ew
      cases ew
      exact hw.congr fun i h1 h2 => ne₃ i (by omega)
    · have hR' : Holds u₂ ra R (x + 2 * ((l + r) / 2 - l + 1)) ((l + r) / 2 + 1) r :=
        hR.congr fun i h1 h2 => by rw [ne₂ i (by omega), ne₁ i (by omega)]
      obtain ⟨w, ew, hw, fw⟩ := hR'.set_root q.2.2
      rw [e₃] at ew
      cases ew
      exact hw
    · rw [len₃, len₂, len₁]
    · intro i hi
      rw [ne₃ i (by omega), ne₂ i (by omega), ne₁ i (by omega)]

end tourist_like

/-! ## `get`, `modify` and `build` act on the layout as `getF`, `modifyF` and `Built` say -/

namespace tourist_like

variable {N M : Type}

lemma Holds.node_intro {t : List N} {a la ra : N} {L R : Sub N} {x l r : Int}
    (hlt : l < r) (hx : rd t x = .ok a) (hL : Holds t la L (x + 1) l ((l + r) / 2))
    (hR : Holds t ra R (x + 2 * ((l + r) / 2 - l + 1)) ((l + r) / 2 + 1) r) :
    Holds t a (.node la L ra R) x l r :=
  ⟨hlt, hx, hL, hR⟩

/-- On a laid-out subtree whose range meets `[ll, rr]`, `get(x, l, r, ll, rr)` returns, and
its result and its effect on the slots are those of `getF`; slots outside the subtree are
not changed. -/
lemma get_at_spec (T : SegtreeNodeConcept N M) {F : Sub N} :
    ∀ {t : List N} {a : N} {x l r : Int} (ll rr : Int) (fuel : Nat),
      Holds t a F x l r → ll ≤ r → l ≤ rr → ll ≤ rr → r - l < fuel →
      ∃ u, get_at T fuel t x l r ll rr = .ok ((getF T a F l r ll rr).1, u) ∧
        Holds u (getF T a F l r ll rr).2.1 (getF T a F l r ll rr).2.2 x l r ∧
        Frame t u x (x + 2 * (r - l)) := by
  induction F with
  | leaf =>
    intro t a x l r ll rr fuel h h1 h2 h3 hf
    obtain ⟨k, rfl⟩ : ∃ k, fuel = k + 1 := ⟨fuel - 1, by have := h.lo_le_hi; omega⟩
    have hlr := h.1
    have hcov : ll ≤ l ∧ r ≤ rr := by omega
    refine ⟨t, ?_, h, Frame.refl _ _ _⟩
    simp only [get_at, if_pos hcov, h.2, bind, Except.bind, pure, Except.pure, getF]
  | node la L ra R ihL ihR =>
    intro t a x l r ll rr fuel h h1 h2 h3 hf
    obtain ⟨k, rfl⟩ : ∃ k, fuel = k + 1 := ⟨fuel - 1, by have := h.lo_le_hi; omega⟩
    by_cases hcov : ll ≤ l ∧ r ≤ rr
    · refine ⟨t, ?_, ?_, Frame.refl _ _ _⟩
      · simp only [get_at, if_pos hcov, h.root, bind, Except.bind, pure, Except.pure, getF]
      · simp only [getF, if_pos hcov]
        exact h
    · have hlt := h.1
      obtain ⟨u₁, e₁, H₁, F₁⟩ := push_spec T h
      obtain ⟨_, hx₁, hL₁, hR₁⟩ := H₁
      simp only [get_at, getF, if_neg hcov, e₁, bind, Except.bind]
      by_cases hA : rr ≤ (l + r) / 2
      · simp only [if_pos hA]
        obtain ⟨u₂, e₂, H₂, F₂⟩ := ihL ll rr k hL₁ (by omega) h2 h3 (by push_cast at hf ⊢; omega)
        have hR₂ := hR₁.frame F₂ (Or.inl (by omega))
        have hx₂ : rd u₂ x = _ := (F₂.2 x (Or.inl (by omega))).trans hx₁
        obtain ⟨u₃, e₃, H₃, F₃⟩ := pull_spec T (Holds.node_intro hlt hx₂ H₂ hR₂)
        refine ⟨u₃, ?_, H₃, ?_⟩
        · simp only [e₂, e₃, pure, Except.pure]
        · exact (F₁.trans F₂ le_rfl le_rfl (by omega) (by omega)).trans F₃
            le_rfl le_rfl le_rfl (by omega)
      · simp only [if_neg hA]
        by_cases hB : ll > (l + r) / 2
        · simp only [if_pos hB]
          obtain ⟨u₂, e₂, H₂, F₂⟩ :=
            ihR ll rr k hR₁ h1 (by omega) h3 (by push_cast at hf ⊢; omega)
          have hL₂ := hL₁.frame F₂ (Or.inr (by omega))
          have hx₂ : rd u₂ x = _ := (F₂.2 x (Or.inl (by omega))).trans hx₁
          obtain ⟨u₃, e₃, H₃, F₃⟩ := pull_spec T (Holds.node_intro hlt hx₂ hL₂ H₂)
          refine ⟨u₃, ?_, H₃, ?_⟩
          · simp only [e₂, e₃, pure, Except.pure]
          · exact (F₁.trans F₂ le_rfl le_rfl (by omega) (by omega)).trans F₃
              le_rfl le_rfl le_rfl (by omega)
        · simp only [if_neg hB]
          obtain ⟨u₂, e₂, H₂, F₂⟩ :=
            ihL ll rr k hL₁ (by omega) h2 h3 (by push_cast at hf ⊢; omega)
          have hR₂ := hR₁.frame F₂ (Or.inl (by omega))
          obtain ⟨u₃, e₃, H₃, F₃⟩ :=
            ihR ll rr k hR₂ h1 (by omega) h3 (by push_cast at hf ⊢; omega)
          have hL₃ := H₂.frame F₃ (Or.inr (by omega))
          have hx₃ : rd u₃ x = _ :=
            ((F₃.2 x (Or.inl (by omega))).trans (F₂.2 x (Or.inl (by omega)))).trans hx₁
          obtain ⟨u₄, e₄, H₄, F₄⟩ := pull_spec T (Holds.node_intro hlt hx₃ hL₃ H₃)
          refine ⟨u₄, ?_, H₄, ?_⟩
          · simp only [e₂, e₃, e₄, pure, Except.pure]
          · exact ((F₁.trans F₂ le_rfl le_rfl (by omega) (by omega)).trans F₃
              le_rfl le_rfl (by omega) (by omega)).trans F₄ le_rfl le_rfl le_rfl (by omega)

/-- The same for the other order of evaluation of the two recursive calls. -/
lemma get_at_right_first_spec (T : SegtreeNodeConcept N M) {F : Sub N} :
    ∀ {t : List N} {a : N} {x l r : Int} (ll rr : Int) (fuel : Nat),
      Holds t a F x l r → ll ≤ r → l ≤ rr → ll ≤ rr → r - l < fuel →
      ∃ u, get_at_right_first T fuel t x l r ll rr = .ok ((getF T a F l r ll rr).1, u) ∧
        Holds u (getF T a F l r ll rr).2.1 (getF T a F l r ll rr).2.2 x l r ∧
        Frame t u x (x + 2 * (r - l)) := by
  induction F with
  | leaf =>
    intro t a x l r ll rr fuel h h1 h2 h3 hf
    obtain ⟨k, rfl⟩ : ∃ k, fuel = k + 1 := ⟨fuel - 1, by have := h.lo_le_hi; omega⟩
    have hlr := h.1
    have hcov : ll ≤ l ∧ r ≤ rr := by omega
    refine ⟨t, ?_, h, Frame.refl _ _ _⟩
    simp only [get_at_right_first, if_pos hcov, h.2, bind, Except.bind, pure, Except.pure, getF]
  | node la L ra R ihL ihR =>
    intro t a x l r ll rr fuel h h1 h2 h3 hf
    obtain ⟨k, rfl⟩ : ∃ k, fuel = k + 1 := ⟨fuel - 1, by have := h.lo_le_hi; omega⟩
    by_cases hcov : ll ≤ l ∧ r ≤ rr
    · refine ⟨t, ?_, ?_, Frame.refl _ _ _⟩
      · simp only [get_at_right_first, if_pos hcov, h.root, bind, Except.bind, pure, Except.pure, getF]
      · simp only [getF, if_pos hcov]
        exact h
    · have hlt := h.1
      obtain ⟨u₁, e₁, H₁, F₁⟩ := push_spec T h
      obtain ⟨_, hx₁, hL₁, hR₁⟩ := H₁
      simp only [get_at_right_first, getF, if_neg hcov, e₁, bind, Except.bind]
      by_cases hA : rr ≤ (l + r) / 2
      · simp only [if_pos hA]
        obtain ⟨u₂, e₂, H₂, F₂⟩ := ihL ll rr k hL₁ (by omega) h2 h3 (by push_cast at hf ⊢; omega)
        have hR₂ := hR₁.frame F₂ (Or.inl (by omega))
        have hx₂ : rd u₂ x = _ := (F₂.2 x (Or.inl (by omega))).trans hx₁
        obtain ⟨u₃, e₃, H₃, F₃⟩ := pull_spec T (Holds.node_intro hlt hx₂ H₂ hR₂)
        refine ⟨u₃, ?_, H₃, ?_⟩
        · simp only [e₂, e₃, pure, Except.pure]
        · exact (F₁.trans F₂ le_rfl le_rfl (by omega) (by omega)).trans F₃
            le_rfl le_rfl le_rfl (by omega)
      · simp only [if_neg hA]
        by_cases hB : ll > (l + r) / 2
        · simp only [if_pos hB]
          obtain ⟨u₂, e₂, H₂, F₂⟩ :=
            ihR ll rr k hR₁ h1 (by omega) h3 (by push_cast at hf ⊢; omega)
          have hL₂ := hL₁.frame F₂ (Or.inr (by omega))
          have hx₂ : rd u₂ x = _ := (F₂.2 x (Or.inl (by omega))).trans hx₁
          obtain ⟨u₃, e₃, H₃, F₃⟩ := pull_spec T (Holds.node_intro hlt hx₂ hL₂ H₂)
          refine ⟨u₃, ?_, H₃, ?_⟩
          · simp only [e₂, e₃, pure, Except.pure]
          · exact (F₁.trans F₂ le_rfl le_rfl (by omega) (by omega)).trans F₃
              le_rfl le_rfl le_rfl (by omega)
        · simp only [if_neg hB]
          obtain ⟨u₂, e₂, H₂, F₂⟩ :=
            ihR ll rr k hR₁ h1 (by omega) h3 (by push_cast at hf ⊢; omega)
          have hL₂ := hL₁.frame F₂ (Or.inr (by omega))
          obtain ⟨u₃, e₃, H₃, F₃⟩ :=
            ihL ll rr k hL₂ (by omega) h2 h3 (by push_cast at hf ⊢; omega)
          have hR₃ := H₂.frame F₃ (Or.inl (by omega))
          have hx₃ : rd u₃ x = _ :=
            ((F₃.2 x (Or.inl (by omega))).trans (F₂.2 x (Or.inl (by omega)))).trans hx₁
          obtain ⟨u₄, e₄, H₄, F₄⟩ := pull_spec T (Holds.node_intro hlt hx₃ H₃ hR₃)
          refine ⟨u₄, ?_, H₄, ?_⟩
          · simp only [e₂, e₃, e₄, pure, Except.pure]
          · exact ((F₁.trans F₂ le_rfl le_rfl (by omega) (by omega)).trans F₃
              le_rfl le_rfl (by omega) (by omega)).trans F₄ le_rfl le_rfl le_rfl (by omega)

/-- Two lists that hold the same subtree agree on its slots. -/
lemma Holds.same_slots {t u : List N} {F : Sub N} : ∀ {a : N} {x l r : Int},
    Holds t a F x l r → Holds u a F x l r →
    ∀ i : Int, x ≤ i → i ≤ x + 2 * (r - l) → rd u i = rd t i := by
  induction F with
  | leaf =>
    intro a x l r h h' i h1 h2
    have := h.1
    have hi : i = x := by omega
    subst hi
    rw [h.2, h'.2]
  | node la L ra R ihL ihR =>
    intro a x l r h h' i h1 h2
    obtain ⟨hlt, hx, hL, hR⟩ := h
    obtain ⟨_, hx', hL', hR'⟩ := h'
    by_cases hi : i = x
    · subst hi
      rw [hx, hx']
    · by_cases hz : i < x + 2 * ((l + r) / 2 - l + 1)
      · exact ihL hL hL' i (by omega) (by omega)
      · exact ihR hR hR' i (by omega) (by omega)

lemma rd_ext {α : Type} {t u : List α} (hlen : u.length = t.length)
    (h : ∀ i : Int, rd u i = rd t i) : u = t := by
  apply List.ext_getElem hlen
  intro n h1 h2
  have := h (n : Int)
  unfold rd at this
  rw [if_pos (by omega), if_pos (by omega), Int.toNat_ofNat, List.getElem?_eq_getElem h1,
    List.getElem?_eq_getElem h2] at this
  exact Except.ok.inj this

/-- The order in which `unite(get(..), get(..))` evaluates its two arguments makes no
difference: on a laid-out subtree both orders return the same node and leave the same
tree. -/
lemma get_at_order (T : SegtreeNodeConcept N M) {F : Sub N} {t : List N} {a : N}
    {x l r : Int} (ll rr : Int) (fuel : Nat) (h : Holds t a F x l r) (h1 : ll ≤ r)
    (h2 : l ≤ rr) (h3 : ll ≤ rr) (hf : r - l < fuel) :
    get_at_right_first T fuel t x l r ll rr = get_at T fuel t x l r ll rr := by
  obtain ⟨u, e, H, Fr⟩ := get_at_spec T ll rr fuel h h1 h2 h3 hf
  obtain ⟨u', e', H', Fr'⟩ := get_at_right_first_spec T ll rr fuel h h1 h2 h3 hf
  have : u' = u := by
    apply rd_ext (Fr'.1.trans Fr.1.symm)
    intro i
    by_cases hi : x ≤ i ∧ i ≤ x + 2 * (r - l)
    · exact Holds.same_slots H H' i hi.1 hi.2
    · rw [Fr'.2 i (by omega), Fr.2 i (by omega)]
  rw [e, e', this]

end tourist_like

namespace tourist_like

variable {N M : Type}

/-- On a laid-out subtree whose range meets `[ll, rr]`, `modify(x, l, r, ll, rr, v)` returns
and its effect on the slots is that of `modifyF`; slots outside the subtree are not
changed. -/
lemma modify_at_spec (T : SegtreeNodeConcept N M) {F : Sub N} :
    ∀ {t : List N} {a : N} {x l r : Int} (ll rr : Int) (v : M) (fuel : Nat),
      Holds t a F x l r → ll ≤ r → l ≤ rr → ll ≤ rr → r - l < fuel →
      ∃ u, modify_at T fuel t x l r ll rr v = .ok u ∧
        Holds u (modifyF T a F l r ll rr v).1 (modifyF T a F l r ll rr v).2 x l r ∧
        Frame t u x (x + 2 * (r - l)) := by
  induction F with
  | leaf =>
    intro t a x l r ll rr v fuel h h1 h2 h3 hf
    obtain ⟨k, rfl⟩ : ∃ k, fuel = k + 1 := ⟨fuel - 1, by have := h.lo_le_hi; omega⟩
    have hlr := h.1
    have hcov : ll ≤ l ∧ r ≤ rr := by omega
    obtain ⟨u, e, H, Fr⟩ := h.set_root (T.apply l r v a)
    refine ⟨u, ?_, H, ?_⟩
    · simp only [modify_at, if_pos hcov, h.2, bind, Except.bind, e]
    · exact (Frame.refl t x x).trans Fr le_rfl (by omega) le_rfl (by omega)
  | node la L ra R ihL ihR =>
    intro t a x l r ll rr v fuel h h1 h2 h3 hf
    obtain ⟨k, rfl⟩ : ∃ k, fuel = k + 1 := ⟨fuel - 1, by have := h.lo_le_hi; omega⟩
    have hlt := h.1
    by_cases hcov : ll ≤ l ∧ r ≤ rr
    · obtain ⟨u, e, H, Fr⟩ := h.set_root (T.apply l r v a)
      refine ⟨u, ?_, ?_, ?_⟩
      · simp only [modify_at, if_pos hcov, h.root, bind, Except.bind, e]
      · simp only [modifyF, if_pos hcov]
        exact H
      · exact (Frame.refl t x x).trans Fr le_rfl (by omega) le_rfl (by omega)
    · obtain ⟨u₁, e₁, H₁, F₁⟩ := push_spec T h
      obtain ⟨_, hx₁, hL₁, hR₁⟩ := H₁
      -- the left child
      obtain ⟨u₂, e₂, H₂, F₂⟩ : ∃ u₂,
          (if ll ≤ (l + r) / 2 then
              modify_at T k u₁ (x + 1) l ((l + r) / 2) ll rr v else pure u₁) = .ok u₂ ∧
            Holds u₂
              (if ll ≤ (l + r) / 2 then
                modifyF T (pushV T l r a la ra).2.1 L l ((l + r) / 2) ll rr v
                else ((pushV T l r a la ra).2.1, L)).1
              (if ll ≤ (l + r) / 2 then
                modifyF T (pushV T l r a la ra).2.1 L l ((l + r) / 2) ll rr v
                else ((pushV T l r a la ra).2.1, L)).2 (x + 1) l ((l + r) / 2) ∧
            Frame u₁ u₂ (x + 1) (x + 1 + 2 * ((l + r) / 2 - l)) := by
        by_cases hA : ll ≤ (l + r) / 2
        · simp only [if_pos hA]
          exact ihL ll rr v k hL₁ hA h2 h3 (by push_cast at hf ⊢; omega)
        · simp only [if_neg hA]
          exact ⟨u₁, rfl, hL₁, Frame.refl _ _ _⟩
      have hR₂ := hR₁.frame F₂ (Or.inl (by omega))
      -- the right child
      obtain ⟨u₃, e₃, H₃, F₃⟩ : ∃ u₃,
          (if rr > (l + r) / 2 then
              modify_at T k u₂ (x + 2 * ((l + r) / 2 - l + 1)) ((l + r) / 2 + 1) r ll rr v
              else pure u₂) = .ok u₃ ∧
            Holds u₃
              (if rr > (l + r) / 2 then
                modifyF T (pushV T l r a la ra).2.2 R ((l + r) / 2 + 1) r ll rr v
                else ((pushV T l r a la ra).2.2, R)).1
              (if rr > (l + r) / 2 then
                modifyF T (pushV T l r a la ra).2.2 R ((l + r) / 2 + 1) r ll rr v
                else ((pushV T l r a la ra).2.2, R)).2
              (x + 2 * ((l + r) / 2 - l + 1)) ((l + r) / 2 + 1) r ∧
            Frame u₂ u₃ (x + 2 * ((l + r) / 2 - l + 1)) (x + 2 * (r - l)) := by
        by_cases hB : rr > (l + r) / 2
        · simp only [if_pos hB]
          obtain ⟨w, ew, Hw, Fw⟩ := ihR ll rr v k hR₂ h1 (by omega) h3
            (by push_cast at hf ⊢; omega)
          exact ⟨w, ew, Hw, Fw.mono le_rfl (by omega)⟩
        · simp only [if_neg hB]
          exact ⟨u₂, rfl, hR₂, Frame.refl _ _ _⟩
      have hL₃ := H₂.frame F₃ (Or.inr (by omega))
      have hx₃ : rd u₃ x = _ :=
        ((F₃.2 x (Or.inl (by omega))).trans (F₂.2 x (Or.inl (by omega)))).trans hx₁
      obtain ⟨u₄, e₄, H₄, F₄⟩ := pull_spec T (Holds.node_intro hlt hx₃ hL₃ H₃)
      refine ⟨u₄, ?_, ?_, ?_⟩
      · simp only [modify_at, if_neg hcov, e₁, bind, Except.bind]
        by_cases hA : ll ≤ (l + r) / 2
        · rw [if_pos hA] at e₂
          by_cases hB : rr > (l + r) / 2
          · rw [if_pos hB] at e₃
            simp only [if_pos hA, if_pos hB, e₂, e₃, e₄]
          · rw [if_neg hB] at e₃
            cases e₃
            simp only [if_pos hA, if_neg hB, e₂, e₄, pure, Except.pure]
        · rw [if_neg hA] at e₂
          cases e₂
          by_cases hB : rr > (l + r) / 2
          · rw [if_pos hB] at e₃
            simp only [if_neg hA, if_pos hB, e₃, e₄, pure, Except.pure]
          · rw [if_neg hB] at e₃
            cases e₃
            simp only [if_neg hA, if_neg hB, e₄, pure, Except.pure]
      · simp only [modifyF, if_neg hcov]
        exact H₄
      · exact ((F₁.trans F₂ le_rfl le_rfl (by omega) (by omega)).trans F₃
          le_rfl le_rfl (by omega) (by omega)).trans F₄ le_rfl le_rfl le_rfl (by omega)

/-- `build(x, l, r, v)` on default-valued slots returns and leaves a laid-out subtree in
which every leaf holds the applied value and every internal vertex the `unite` of its
children. -/
lemma build_values_spec (T : SegtreeNodeConcept N M) (v : List M) (f : Int → N) :
    ∀ (fuel : Nat) {t : List N} {x l r : Int},
      l ≤ r → r - l < fuel → 0 ≤ x → x + 2 * (r - l) < t.length →
      (∀ i : Int, x ≤ i → i ≤ x + 2 * (r - l) → rd t i = .ok T.dflt) →
      (∀ p : Int, l ≤ p → p ≤ r → ∃ m, rd v p = .ok m ∧ f p = T.apply p p m T.dflt) →
      ∃ u a F, build_values T v fuel t x l r = .ok u ∧ Holds u a F x l r ∧
        Built T f a F l r ∧ Frame t u x (x + 2 * (r - l)) := by
  intro fuel
  induction fuel with
  | zero =>
    intro t x l r h1 h2
    omega
  | succ k ih =>
    intro t x l r h1 h2 hx0 hxb hd hv
    by_cases hlr : l = r
    · subst hlr
      obtain ⟨m, hm, hfm⟩ := hv l le_rfl le_rfl
      have hrx := hd x le_rfl (by omega)
      obtain ⟨u, e, len, hu, ne⟩ := wr_spec (t := t) (T.apply l l m T.dflt) hx0 (by omega)
      refine ⟨u, T.apply l l m T.dflt, .leaf, ?_, ⟨rfl, hu⟩, hfm.symm, len, ?_⟩
      · simp only [build_values, if_true, hrx, hm, bind, Except.bind, e]
      · intro i hi
        exact ne i (by omega)
    · have hlt : l < r := lt_of_le_of_ne h1 hlr
      simp only [build_values, if_neg hlr, bind, Except.bind]
      obtain ⟨u₁, a₁, G₁, e₁, H₁, B₁, F₁⟩ :=
        ih (t := t) (x := x + 1) (l := l) (r := (l + r) / 2) (by omega)
          (by push_cast at h2 ⊢; omega) (by omega) (by omega)
          (fun i h1 h2 => hd i (by omega) (by omega))
          (fun p h1 h2 => hv p h1 (by omega))
      obtain ⟨u₂, a₂, G₂, e₂, H₂, B₂, F₂⟩ :=
        ih (t := u₁) (x := x + 2 * ((l + r) / 2 - l + 1)) (l := (l + r) / 2 + 1) (r := r)
          (by omega) (by push_cast at h2 ⊢; omega) (by omega) (by rw [F₁.1]; omega)
          (fun i h1 h2 => by
            rw [F₁.2 i (Or.inr (by omega))]
            exact hd i (by omega) (by omega))
          (fun p h1 h2 => hv p (by omega) h2)
      have hL₂ := H₁.frame F₂ (Or.inr (by omega))
      have hx₂ : rd u₂ x = .ok T.dflt := by
        rw [F₂.2 x (Or.inl (by omega)), F₁.2 x (Or.inl (by omega))]
        exact hd x le_rfl (by omega)
      obtain ⟨u₃, e₃, H₃, F₃⟩ := pull_spec T (Holds.node_intro hlt hx₂ hL₂ H₂)
      refine ⟨u₃, T.unite a₁ a₂, .node a₁ G₁ a₂ G₂, ?_, H₃, ⟨rfl, B₁, B₂⟩, ?_⟩
      · simp only [e₁, e₂, e₃]
      · exact ((F₁.trans F₂ (by omega) (by omega) (by omega) (by omega) :
          Frame t u₂ x (x + 2 * (r - l))).trans F₃ le_rfl le_rfl le_rfl (by omega))

/-- `build(x, l, r)` on default-valued slots returns and leaves a laid-out subtree whose
leaves are default nodes and whose internal vertices are the `unite` of their children. -/
lemma build_spec (T : SegtreeNodeConcept N M) :
    ∀ (fuel : Nat) {t : List N} {x l r : Int},
      l ≤ r → r - l < fuel → 0 ≤ x → x + 2 * (r - l) < t.length →
      (∀ i : Int, x ≤ i → i ≤ x + 2 * (r - l) → rd t i = .ok T.dflt) →
      ∃ u a F, build T fuel t x l r = .ok u ∧ Holds u a F x l r ∧
        Built T (fun _ => T.dflt) a F l r ∧ Frame t u x (x + 2 * (r - l)) := by
  intro fuel
  induction fuel with
  | zero =>
    intro t x l r h1 h2
    omega
  | succ k ih =>
    intro t x l r h1 h2 hx0 hxb hd
    by_cases hlr : l = r
    · subst hlr
      have hrx := hd x le_rfl (by omega)
      refine ⟨t, T.dflt, .leaf, ?_, ⟨rfl, hrx⟩, rfl, Frame.refl _ _ _⟩
      simp only [build, if_true]
    · have hlt : l < r := lt_of_le_of_ne h1 hlr
      simp only [build, if_neg hlr, bind, Except.bind]
      obtain ⟨u₁, a₁, G₁, e₁, H₁, B₁, F₁⟩ :=
        ih (t := t) (x := x + 1) (l := l) (r := (l + r) / 2) (by omega)
          (by push_cast at h2 ⊢; omega) (by omega) (by omega)
          (fun i h1 h2 => hd i (by omega) (by omega))
      obtain ⟨u₂, a₂, G₂, e₂, H₂, B₂, F₂⟩ :=
        ih (t := u₁) (x := x + 2 * ((l + r) / 2 - l + 1)) (l := (l + r) / 2 + 1) (r := r)
          (by omega) (by push_cast at h2 ⊢; omega) (by omega) (by rw [F₁.1]; omega)
          (fun i h1 h2 => by
            rw [F₁.2 i (Or.inr (by omega))]
            exact hd i (by omega) (by omega))
      have hL₂ := H₁.frame F₂ (Or.inr (by omega))
      have hx₂ : rd u₂ x = .ok T.dflt := by
        rw [F₂.2 x (Or.inl (by omega)), F₁.2 x (Or.inl (by omega))]
        exact hd x le_rfl (by omega)
      obtain ⟨u₃, e₃, H₃, F₃⟩ := pull_spec T (Holds.node_intro hlt hx₂ hL₂ H₂)
      refine ⟨u₃, T.unite a₁ a₂, .node a₁ G₁ a₂ G₂, ?_, H₃, ⟨rfl, B₁, B₂⟩, ?_⟩
      · simp only [e₁, e₂, e₃]
      · exact ((F₁.trans F₂ (by omega) (by omega) (by omega) (by omega) :
          Frame t u₂ x (x + 2 * (r - l))).trans F₃ le_rfl le_rfl le_rfl (by omega))

end tourist_like

/-! ## Sums over ranges -/

namespace tourist_like

lemma rsum_congr {f g : Int → Int} : ∀ (k : Nat) (lo : Int),
    (∀ p : Int, lo ≤ p → p < lo + k → f p = g p) → rsum f lo k = rsum g lo k := by
  intro k
  induction k with
  | zero => intro lo _; rfl
  | succ k ih =>
    intro lo h
    simp only [rsum]
    rw [h lo le_rfl (by push_cast; omega), ih (lo + 1) fun p h1 h2 => h p (by omega)
      (by push_cast; omega)]

lemma rsum_add (f : Int → Int) : ∀ (k₁ k₂ : Nat) (lo : Int),
    rsum f lo (k₁ + k₂) = rsum f lo k₁ + rsum f (lo + k₁) k₂ := by
  intro k₁
  induction k₁ with
  | zero => intro k₂ lo; simp [rsum]
  | succ k ih =>
    intro k₂ lo
    rw [show k + 1 + k₂ = (k + k₂) + 1 by omega]
    simp only [rsum]
    rw [ih k₂ (lo + 1), show lo + 1 + (k : Int) = lo + ((k + 1 : Nat) : Int) by push_cast; ring]
    ring

lemma rsum_const (v : Int) : ∀ (k : Nat) (lo : Int), rsum (fun _ => v) lo k = v * k := by
  intro k
  induction k with
  | zero => intro lo; simp [rsum]
  | succ k ih =>
    intro lo
    simp only [rsum]
    rw [ih (lo + 1)]
    push_cast
    ring

lemma isum_congr {f g : Int → Int} {lo hi : Int}
    (h : ∀ p : Int, lo ≤ p → p ≤ hi → f p = g p) : isum f lo hi = isum g lo hi :=
  rsum_congr _ _ fun p h1 h2 => h p h1 (by omega)

lemma isum_split (f : Int → Int) (lo m hi : Int) (h1 : lo ≤ m + 1) (h2 : m ≤ hi) :
    isum f lo hi = isum f lo m + isum f (m + 1) hi := by
  unfold isum
  rw [show (hi + 1 - lo).toNat = (m + 1 - lo).toNat + (hi + 1 - (m + 1)).toNat by omega,
    rsum_add, show lo + ((m + 1 - lo).toNat : Int) = m + 1 by omega]

lemma isum_const {f : Int → Int} {lo hi : Int} (v : Int) (h0 : lo ≤ hi + 1)
    (h : ∀ p : Int, lo ≤ p → p ≤ hi → f p = v) : isum f lo hi = v * (hi - lo + 1) := by
  rw [isum_congr (g := fun _ => v) h]
  unfold isum
  rw [rsum_const, show ((hi + 1 - lo).toNat : Int) = hi - lo + 1 by omega]

lemma isum_single (f : Int → Int) (p : Int) : isum f p p = f p := by
  unfold isum
  rw [show (p + 1 - p).toNat = 1 by omega]
  simp [rsum]

/-! ## The arithmetic of `long long` -/

lemma wrap64_of_int64 {x : Int} (h : int64 x) : wrap64 x = x := by
  unfold int64 at h
  unfold wrap64
  omega

lemma int64_wrap64 (x : Int) : int64 (wrap64 x) := by
  unfold int64 wrap64
  omega

lemma wrap64_add_mul (x m : Int) : wrap64 (x + 18446744073709551616 * m) = wrap64 x := by
  unfold wrap64
  rw [show x + 18446744073709551616 * m + 9223372036854775808
    = x + 9223372036854775808 + 18446744073709551616 * m by ring, Int.add_mul_emod_self_left]

lemma wrap64_eq_sub (x : Int) : ∃ c : Int, wrap64 x = x - 18446744073709551616 * c :=
  ⟨(x + 9223372036854775808) / 18446744073709551616, by unfold wrap64; omega⟩

lemma reduction_wrap64 : Reduction wrap64 where
  zero := by decide
  add a b := by
    unfold wrap64
    omega
  mul a k := by
    obtain ⟨c, hc⟩ := wrap64_eq_sub a
    rw [hc, show (a - 18446744073709551616 * c) * k
      = a * k + 18446744073709551616 * (-(c * k)) by ring, wrap64_add_mul]

lemma reduction_id : Reduction id where
  zero := rfl
  add _ _ := rfl
  mul _ _ := rfl

lemma Reduction.idem {w : Int → Int} (hw : Reduction w) (a : Int) :
    w (w a) = w a := by
  have := hw.mul a 1
  rwa [mul_one, mul_one] at this

lemma Reduction.add_left {w : Int → Int} (hw : Reduction w)
    (a b : Int) : w (w a + b) = w (a + b) := by
  rw [← hw.add (w a) b, hw.idem, hw.add]

lemma Reduction.add_right {w : Int → Int} (hw : Reduction w)
    (a b : Int) : w (a + w b) = w (a + b) := by
  rw [← hw.add a (w b), hw.idem, hw.add]

lemma concept_eq : sum_segtree_node.concept = sum_segtree_node.concept_with wrap64 := rfl

/-- The sum of reduced terms reduces to the reduced sum. -/
lemma rsum_reduce {w : Int → Int} (hw : Reduction w) (g : Int → Int) : ∀ (k : Nat) (lo : Int),
    w (rsum (fun p => w (g p)) lo k) = w (rsum g lo k) := by
  intro k
  induction k with
  | zero => intro lo; rfl
  | succ k ih =>
    intro lo
    simp only [rsum]
    rw [← hw.add_right (w (g lo)), ih (lo + 1), hw.add]

lemma isum_reduce {w : Int → Int} (hw : Reduction w) (g : Int → Int) (lo hi : Int) :
    w (isum (fun p => w (g p)) lo hi) = w (isum g lo hi) :=
  rsum_reduce hw g _ _

/-! ## The `sum_segtree_node` tree: represented elements and the sum invariant -/

open sum_segtree_node in
lemma pushV_sum (w : Int → Int) (l r : Int) (a la ra : sum_segtree_node) :
    pushV (concept_with w) l r a la ra = sum_segtree_node.push_with w l r a la ra := rfl

lemma Holds.shape {N : Type} {t : List N} {F : Sub N} : ∀ {a : N} {x l r : Int},
    Holds t a F x l r → Shape F l r := by
  induction F with
  | leaf => intro a x l r h; exact h.1
  | node la L ra R ihL ihR => intro a x l r h; exact ⟨h.1, ihL h.2.2.1, ihR h.2.2.2⟩

lemma Shape.l_le_r {N : Type} {F : Sub N} {l r : Int} (h : Shape F l r) : l ≤ r := by
  cases F with
  | leaf => exact le_of_eq h
  | node la L ra R => exact le_of_lt h.1

/-- After `apply(l, r, v)` every element of the vertex is `v`, as `apply` stores it in a
leaf. -/
lemma elem_apply (w : Int → Int) {F : Sub sum_segtree_node} {l r : Int} (v : Int)
    (b : sum_segtree_node) (hs : Shape F l r) (hv : v ≠ NO_LAZY ∨ l = r) (p : Int) :
    elem w (sum_segtree_node.apply_with w l r v b) F l r p = w v := by
  cases F with
  | leaf =>
    have : l = r := hs
    subst this
    simp [elem, sum_segtree_node.apply_with]
  | node la L ra R =>
    have hlt : l < r := hs.1
    have hv' : v ≠ NO_LAZY := by
      rcases hv with h | h
      · exact h
      · omega
    simp [elem, sum_segtree_node.apply_with, hv']

lemma good_apply {w : Int → Int} (hw : Reduction w) {F : Sub sum_segtree_node} {l r : Int}
    (v : Int) (b : sum_segtree_node) (hs : Shape F l r) (hv : v ≠ NO_LAZY ∨ l = r) :
    Good w (sum_segtree_node.apply_with w l r v b) F l r := by
  cases F with
  | leaf => exact hw.idem _
  | node la L ra R =>
    have hlt : l < r := hs.1
    have hv' : v ≠ NO_LAZY := by
      rcases hv with h | h
      · exact h
      · omega
    simp [Good, sum_segtree_node.apply_with, hv']

/-- What `push` does to the elements and to the invariant of the two children. -/
lemma push_facts (w : Int → Int) {a la ra : sum_segtree_node} {L R : Sub sum_segtree_node}
    {l r : Int} (hs : Shape (.node la L ra R) l r) :
    (∀ p : Int, p ≤ (l + r) / 2 →
      elem w (pushV (sum_segtree_node.concept_with w) l r a la ra).2.1 L l ((l + r) / 2) p =
        elem w a (.node la L ra R) l r p) ∧
    (∀ p : Int, (l + r) / 2 < p →
      elem w (pushV (sum_segtree_node.concept_with w) l r a la ra).2.2 R ((l + r) / 2 + 1) r p =
        elem w a (.node la L ra R) l r p) ∧
    (Reduction w → Good w a (.node la L ra R) l r →
      Good w (pushV (sum_segtree_node.concept_with w) l r a la ra).2.1 L l ((l + r) / 2) ∧
      Good w (pushV (sum_segtree_node.concept_with w) l r a la ra).2.2 R
        ((l + r) / 2 + 1) r) := by
  obtain ⟨hlt, hL, hR⟩ := hs
  rw [pushV_sum]
  by_cases hz : a.set_value = NO_LAZY
  · simp only [sum_segtree_node.push_with, hz, ne_eq, not_true_eq_false, if_false, elem, Good]
    refine ⟨fun p hp => by rw [if_pos hp], fun p hp => by rw [if_neg (by omega)],
      fun _ h => h.2⟩
  · simp only [sum_segtree_node.push_with, ne_eq, hz, not_false_eq_true, if_true, elem, Good]
    refine ⟨fun p _ => elem_apply w _ _ hL (Or.inl hz) p,
      fun p _ => elem_apply w _ _ hR (Or.inl hz) p,
      fun hw _ => ⟨good_apply hw _ _ hL (Or.inl hz), good_apply hw _ _ hR (Or.inl hz)⟩⟩

/-- Under the invariant a vertex holds the reduced sum of the elements of its range. -/
lemma Good.data_eq {w : Int → Int} (hw : Reduction w) {F : Sub sum_segtree_node} :
    ∀ {a : sum_segtree_node} {l r : Int},
    Shape F l r → Good w a F l r → a.data = w (isum (elem w a F l r) l r) := by
  induction F with
  | leaf =>
    intro a l r hs hg
    have : l = r := hs
    subst this
    rw [isum_single]
    exact hg.symm
  | node la L ra R ihL ihR =>
    intro a l r hs hg
    obtain ⟨hlt, hL, hR⟩ := hs
    by_cases hz : a.set_value = NO_LAZY
    · simp only [Good, hz, ne_eq, not_true_eq_false, if_false] at hg
      rw [isum_split _ l ((l + r) / 2) r (by omega) (by omega), hg.1, ihL hL hg.2.1,
        ihR hR hg.2.2, hw.add]
      congr 2
      · exact isum_congr fun p h1 h2 => by simp [elem, hz, h2]
      · exact isum_congr fun p h1 h2 => by
          simp only [elem, hz, ne_eq, not_true_eq_false, if_false]
          rw [if_neg (by omega)]
    · simp only [Good, ne_eq, hz, not_false_eq_true, if_true] at hg
      rw [hg, isum_const (w a.set_value) (by omega) fun p _ _ => by simp [elem, hz], hw.mul]

/-- What `apply_fits` says at a covered internal vertex and for the two children of a vertex
that is not covered. -/
lemma apply_fits_facts {fuel : Nat} {l r ll rr v : Int}
    (h : apply_fits (fuel + 1) l r ll rr v = true) :
    (ll ≤ l ∧ r ≤ rr → l < r → v ≠ NO_LAZY) ∧
    (¬ (ll ≤ l ∧ r ≤ rr) → ll ≤ (l + r) / 2 →
      apply_fits fuel l ((l + r) / 2) ll rr v = true) ∧
    (¬ (ll ≤ l ∧ r ≤ rr) → rr > (l + r) / 2 →
      apply_fits fuel ((l + r) / 2 + 1) r ll rr v = true) := by
  refine ⟨fun hcov hlt hv => ?_, fun hcov h1 => ?_, fun hcov h2 => ?_⟩
  · simp only [apply_fits, if_pos hcov, decide_eq_true_eq] at h
    subst hv
    unfold int64 NO_LAZY at h
    omega
  · simp only [apply_fits, if_neg hcov, if_pos h1, Bool.and_eq_true] at h
    exact h.1
  · simp only [apply_fits, if_neg hcov, if_pos h2, Bool.and_eq_true] at h
    exact h.2

end tourist_like
namespace tourist_like

open sum_segtree_node (concept_with)

lemma elem_unite_node (w : Int → Int) (la ra : sum_segtree_node) (L R : Sub sum_segtree_node) (l r p : Int) :
    elem w ((concept_with w).unite la ra) (.node la L ra R) l r p =
      if p ≤ (l + r) / 2 then elem w la L l ((l + r) / 2) p
      else elem w ra R ((l + r) / 2 + 1) r p := by
  simp [elem, concept_with, sum_segtree_node.unite_with, sum_segtree_node.dflt]

lemma good_unite_node {w : Int → Int} {la ra : sum_segtree_node} {L R : Sub sum_segtree_node} {l r : Int}
    (hL : Good w la L l ((l + r) / 2)) (hR : Good w ra R ((l + r) / 2 + 1) r) :
    Good w ((concept_with w).unite la ra) (.node la L ra R) l r := by
  simp only [Good, concept_with, sum_segtree_node.unite_with, sum_segtree_node.dflt, ne_eq,
    not_true_eq_false, if_false]
  exact ⟨trivial, hL, hR⟩

lemma data_unite (w : Int → Int) (a b : sum_segtree_node) :
    ((concept_with w).unite a b).data = w (a.data + b.data) := rfl

/-- `get` on a `sum_segtree_node` subtree: the represented elements do not change, a point
query returns the represented element, and under the sum invariant the result is the reduced
sum of the represented elements of the queried part and the invariant is kept. -/
lemma getF_sum (w : Int → Int) {F : Sub sum_segtree_node} :
    ∀ {a : sum_segtree_node} {l r : Int} (ll rr : Int),
      Shape F l r → ll ≤ r → l ≤ rr → ll ≤ rr →
      (∀ p : Int, l ≤ p → p ≤ r →
        elem w (getF (concept_with w) a F l r ll rr).2.1
          (getF (concept_with w) a F l r ll rr).2.2 l r p = elem w a F l r p) ∧
      (ll = rr → (getF (concept_with w) a F l r ll rr).1.data = elem w a F l r ll) ∧
      (Reduction w → Good w a F l r →
        Good w (getF (concept_with w) a F l r ll rr).2.1
          (getF (concept_with w) a F l r ll rr).2.2 l r ∧
        (getF (concept_with w) a F l r ll rr).1.data
          = w (isum (elem w a F l r) (max l ll) (min r rr))) := by
  induction F with
  | leaf =>
    intro a l r ll rr hs h1 h2 h3
    have hlr : l = r := hs
    subst hlr
    refine ⟨fun p _ _ => rfl, fun _ => rfl, fun _ hg => ⟨hg, ?_⟩⟩
    rw [show max l ll = l by omega, show min l rr = l by omega, isum_single]
    exact hg.symm
  | node la L ra R ihL ihR =>
    intro a l r ll rr hs h1 h2 h3
    have hlt := hs.1
    by_cases hcov : ll ≤ l ∧ r ≤ rr
    · simp only [getF, if_pos hcov]
      refine ⟨fun p _ _ => trivial, fun h => by omega, fun hw hg => ⟨hg, ?_⟩⟩
      rw [show max l ll = l by omega, show min r rr = r by omega]
      exact Good.data_eq hw hs hg
    · obtain ⟨pf₁, pf₂, pf₃⟩ := push_facts w (a := a) hs
      obtain ⟨_, hL, hR⟩ := hs
      by_cases hA : rr ≤ (l + r) / 2
      · simp only [getF, if_neg hcov, if_pos hA]
        obtain ⟨i₁, i₂, i₃⟩ := ihL (a := (pushV (concept_with w) l r a la ra).2.1) ll rr hL
          (by omega) h2 h3
        refine ⟨fun p hp₁ hp₂ => ?_, fun h => ?_, fun hw hg => ?_⟩
        · rw [elem_unite_node]
          by_cases hp : p ≤ (l + r) / 2
          · rw [if_pos hp, i₁ p hp₁ hp, pf₁ p hp]
          · rw [if_neg hp, pf₂ p (by omega)]
        · rw [i₂ h, pf₁ ll (by omega)]
        · obtain ⟨gL, gR⟩ := pf₃ hw hg
          obtain ⟨j₁, j₂⟩ := i₃ hw gL
          refine ⟨good_unite_node j₁ gR, ?_⟩
          rw [j₂, show min r rr = min ((l + r) / 2) rr by omega]
          congr 1
          exact isum_congr fun p hp₁ hp₂ => pf₁ p (by omega)
      · by_cases hB : ll > (l + r) / 2
        · simp only [getF, if_neg hcov, if_neg hA, if_pos hB]
          obtain ⟨i₁, i₂, i₃⟩ := ihR (a := (pushV (concept_with w) l r a la ra).2.2) ll rr hR
            h1 (by omega) h3
          refine ⟨fun p hp₁ hp₂ => ?_, fun h => ?_, fun hw hg => ?_⟩
          · rw [elem_unite_node]
            by_cases hp : p ≤ (l + r) / 2
            · rw [if_pos hp, pf₁ p hp]
            · rw [if_neg hp, i₁ p (by omega) hp₂, pf₂ p (by omega)]
          · rw [i₂ h, pf₂ ll (by omega)]
          · obtain ⟨gL, gR⟩ := pf₃ hw hg
            obtain ⟨j₁, j₂⟩ := i₃ hw gR
            refine ⟨good_unite_node gL j₁, ?_⟩
            rw [j₂, show max l ll = max ((l + r) / 2 + 1) ll by omega]
            congr 1
            exact isum_congr fun p hp₁ hp₂ => pf₂ p (by omega)
        · simp only [getF, if_neg hcov, if_neg hA, if_neg hB]
          obtain ⟨i₁, _, i₃⟩ := ihL (a := (pushV (concept_with w) l r a la ra).2.1) ll rr hL
            (by omega) h2 h3
          obtain ⟨k₁, _, k₃⟩ := ihR (a := (pushV (concept_with w) l r a la ra).2.2) ll rr hR
            h1 (by omega) h3
          refine ⟨fun p hp₁ hp₂ => ?_, fun h => by omega, fun hw hg => ?_⟩
          · rw [elem_unite_node]
            by_cases hp : p ≤ (l + r) / 2
            · rw [if_pos hp, i₁ p hp₁ hp, pf₁ p hp]
            · rw [if_neg hp, k₁ p (by omega) hp₂, pf₂ p (by omega)]
          · obtain ⟨gL, gR⟩ := pf₃ hw hg
            obtain ⟨j₁, j₂⟩ := i₃ hw gL
            obtain ⟨m₁, m₂⟩ := k₃ hw gR
            refine ⟨good_unite_node j₁ m₁, ?_⟩
            rw [data_unite, j₂, m₂, hw.add,
              isum_split (elem w a (.node la L ra R) l r) (max l ll)
                ((l + r) / 2) (min r rr) (by omega) (by omega),
              show min ((l + r) / 2) rr = (l + r) / 2 by omega,
              show max ((l + r) / 2 + 1) ll = (l + r) / 2 + 1 by omega]
            congr 2
            · exact isum_congr fun p hp₁ hp₂ => pf₁ p (by omega)
            · exact isum_congr fun p hp₁ hp₂ => pf₂ p (by omega)

/-- `modify` on a `sum_segtree_node` subtree: elements outside `[ll, rr]` keep their value,
and when the value is not the sentinel, or the products that `apply` computes at the covered
vertices are representable, the elements inside become `v`, as `apply` stores it, and the sum
invariant is kept. -/
lemma modifyF_sum (w : Int → Int) {F : Sub sum_segtree_node} :
    ∀ {a : sum_segtree_node} {l r : Int} (ll rr v : Int) (fuel : Nat),
      Shape F l r → ll ≤ r → l ≤ rr → ll ≤ rr → r - l < fuel →
      (∀ p : Int, l ≤ p → p ≤ r → p < ll ∨ rr < p →
        elem w (modifyF (concept_with w) a F l r ll rr v).1
          (modifyF (concept_with w) a F l r ll rr v).2 l r p = elem w a F l r p) ∧
      (v ≠ NO_LAZY ∨ apply_fits fuel l r ll rr v = true →
        ∀ p : Int, l ≤ p → p ≤ r → ll ≤ p → p ≤ rr →
        elem w (modifyF (concept_with w) a F l r ll rr v).1
          (modifyF (concept_with w) a F l r ll rr v).2 l r p = w v) ∧
      (v ≠ NO_LAZY ∨ apply_fits fuel l r ll rr v = true → Reduction w → Good w a F l r →
        Good w (modifyF (concept_with w) a F l r ll rr v).1
          (modifyF (concept_with w) a F l r ll rr v).2 l r) := by
  induction F with
  | leaf =>
    intro a l r ll rr v fuel hs h1 h2 h3 hf
    have hlr : l = r := hs
    subst hlr
    refine ⟨fun p hp₁ hp₂ hp₃ => by omega, fun _ p _ _ _ _ => ?_,
      fun _ hw _ => good_apply hw v a hs (Or.inr rfl)⟩
    exact elem_apply w v a hs (Or.inr rfl) p
  | node la L ra R ihL ihR =>
    intro a l r ll rr v fuel hs h1 h2 h3 hf
    have hlt := hs.1
    obtain ⟨k, rfl⟩ : ∃ k, fuel = k + 1 := ⟨fuel - 1, by omega⟩
    by_cases hcov : ll ≤ l ∧ r ≤ rr
    · have hv' : v ≠ NO_LAZY ∨ apply_fits (k + 1) l r ll rr v = true → v ≠ NO_LAZY ∨ l = r := by
        rintro (h | h)
        · exact Or.inl h
        · exact Or.inl ((apply_fits_facts h).1 hcov hlt)
      simp only [modifyF, if_pos hcov]
      refine ⟨fun p hp₁ hp₂ hp₃ => by omega,
        fun hv p _ _ _ _ => elem_apply w v a hs (hv' hv) p,
        fun hv hw _ => good_apply hw v a hs (hv' hv)⟩
    · have hvL : v ≠ NO_LAZY ∨ apply_fits (k + 1) l r ll rr v = true → ll ≤ (l + r) / 2 →
          v ≠ NO_LAZY ∨ apply_fits k l ((l + r) / 2) ll rr v = true := by
        rintro (h | h) hA
        · exact Or.inl h
        · exact Or.inr ((apply_fits_facts h).2.1 hcov hA)
      have hvR : v ≠ NO_LAZY ∨ apply_fits (k + 1) l r ll rr v = true → rr > (l + r) / 2 →
          v ≠ NO_LAZY ∨ apply_fits k ((l + r) / 2 + 1) r ll rr v = true := by
        rintro (h | h) hB
        · exact Or.inl h
        · exact Or.inr ((apply_fits_facts h).2.2 hcov hB)
      obtain ⟨pf₁, pf₂, pf₃⟩ := push_facts w (a := a) hs
      obtain ⟨_, hL, hR⟩ := hs
      simp only [modifyF, if_neg hcov]
      -- the left child
      have left : (∀ p : Int, l ≤ p → p ≤ (l + r) / 2 → p < ll ∨ rr < p →
            elem w (if ll ≤ (l + r) / 2 then
                modifyF (concept_with w) (pushV (concept_with w) l r a la ra).2.1 L l
                  ((l + r) / 2) ll rr v
                else ((pushV (concept_with w) l r a la ra).2.1, L)).1
              (if ll ≤ (l + r) / 2 then
                modifyF (concept_with w) (pushV (concept_with w) l r a la ra).2.1 L l
                  ((l + r) / 2) ll rr v
                else ((pushV (concept_with w) l r a la ra).2.1, L)).2 l ((l + r) / 2) p =
              elem w a (.node la L ra R) l r p) ∧
          (v ≠ NO_LAZY ∨ apply_fits (k + 1) l r ll rr v = true →
            ∀ p : Int, l ≤ p → p ≤ (l + r) / 2 → ll ≤ p → p ≤ rr →
            elem w (if ll ≤ (l + r) / 2 then
                modifyF (concept_with w) (pushV (concept_with w) l r a la ra).2.1 L l
                  ((l + r) / 2) ll rr v
                else ((pushV (concept_with w) l r a la ra).2.1, L)).1
              (if ll ≤ (l + r) / 2 then
                modifyF (concept_with w) (pushV (concept_with w) l r a la ra).2.1 L l
                  ((l + r) / 2) ll rr v
                else ((pushV (concept_with w) l r a la ra).2.1, L)).2 l ((l + r) / 2) p
              = w v) ∧
          (v ≠ NO_LAZY ∨ apply_fits (k + 1) l r ll rr v = true → Reduction w →
            Good w a (.node la L ra R) l r →
            Good w (if ll ≤ (l + r) / 2 then
                modifyF (concept_with w) (pushV (concept_with w) l r a la ra).2.1 L l
                  ((l + r) / 2) ll rr v
                else ((pushV (concept_with w) l r a la ra).2.1, L)).1
              (if ll ≤ (l + r) / 2 then
                modifyF (concept_with w) (pushV (concept_with w) l r a la ra).2.1 L l
                  ((l + r) / 2) ll rr v
                else ((pushV (concept_with w) l r a la ra).2.1, L)).2 l ((l + r) / 2)) := by
        by_cases hA : ll ≤ (l + r) / 2
        · simp only [if_pos hA]
          obtain ⟨i₁, i₂, i₃⟩ := ihL (a := (pushV (concept_with w) l r a la ra).2.1) ll rr v k
            hL hA h2 h3 (by omega)
          exact ⟨fun p hp₁ hp₂ hp₃ => by rw [i₁ p hp₁ hp₂ hp₃, pf₁ p hp₂],
            fun hv => i₂ (hvL hv hA),
            fun hv hw hg => i₃ (hvL hv hA) hw (pf₃ hw hg).1⟩
        · simp only [if_neg hA]
          exact ⟨fun p _ hp₂ _ => pf₁ p hp₂, fun _ p _ _ _ _ => by omega,
            fun _ hw hg => (pf₃ hw hg).1⟩
      -- the right child
      have right : (∀ p : Int, (l + r) / 2 < p → p ≤ r → p < ll ∨ rr < p →
            elem w (if rr > (l + r) / 2 then
                modifyF (concept_with w) (pushV (concept_with w) l r a la ra).2.2 R
                  ((l + r) / 2 + 1) r ll rr v
                else ((pushV (concept_with w) l r a la ra).2.2, R)).1
              (if rr > (l + r) / 2 then
                modifyF (concept_with w) (pushV (concept_with w) l r a la ra).2.2 R
                  ((l + r) / 2 + 1) r ll rr v
                else ((pushV (concept_with w) l r a la ra).2.2, R)).2 ((l + r) / 2 + 1) r p =
              elem w a (.node la L ra R) l r p) ∧
          (v ≠ NO_LAZY ∨ apply_fits (k + 1) l r ll rr v = true →
            ∀ p : Int, (l + r) / 2 < p → p ≤ r → ll ≤ p → p ≤ rr →
            elem w (if rr > (l + r) / 2 then
                modifyF (concept_with w) (pushV (concept_with w) l r a la ra).2.2 R
                  ((l + r) / 2 + 1) r ll rr v
                else ((pushV (concept_with w) l r a la ra).2.2, R)).1
              (if rr > (l + r) / 2 then
                modifyF (concept_with w) (pushV (concept_with w) l r a la ra).2.2 R
                  ((l + r) / 2 + 1) r ll rr v
                else ((pushV (concept_with w) l r a la ra).2.2, R)).2 ((l + r) / 2 + 1) r p
              = w v) ∧
          (v ≠ NO_LAZY ∨ apply_fits (k + 1) l r ll rr v = true → Reduction w →
            Good w a (.node la L ra R) l r →
            Good w (if rr > (l + r) / 2 then
                modifyF (concept_with w) (pushV (concept_with w) l r a la ra).2.2 R
                  ((l + r) / 2 + 1) r ll rr v
                else ((pushV (concept_with w) l r a la ra).2.2, R)).1
              (if rr > (l + r) / 2 then
                modifyF (concept_with w) (pushV (concept_with w) l r a la ra).2.2 R
                  ((l + r) / 2 + 1) r ll rr v
                else ((pushV (concept_with w) l r a la ra).2.2, R)).2
              ((l + r) / 2 + 1) r) := by
        by_cases hB : rr > (l + r) / 2
        · simp only [if_pos hB]
          obtain ⟨i₁, i₂, i₃⟩ := ihR (a := (pushV (concept_with w) l r a la ra).2.2) ll rr v k
            hR h1 (by omega) h3 (by omega)
          exact ⟨fun p hp₁ hp₂ hp₃ => by rw [i₁ p (by omega) hp₂ hp₃, pf₂ p hp₁],
            fun hv p hp₁ hp₂ hp₃ hp₄ => i₂ (hvR hv hB) p (by omega) hp₂ hp₃ hp₄,
            fun hv hw hg => i₃ (hvR hv hB) hw (pf₃ hw hg).2⟩
        · simp only [if_neg hB]
          exact ⟨fun p hp₁ _ _ => pf₂ p hp₁, fun _ p _ _ _ _ => by omega,
            fun _ hw hg => (pf₃ hw hg).2⟩
      obtain ⟨l₁, l₂, l₃⟩ := left
      obtain ⟨r₁, r₂, r₃⟩ := right
      refine ⟨fun p hp₁ hp₂ hp₃ => ?_, fun hv p hp₁ hp₂ hp₃ hp₄ => ?_, fun hv hw hg => ?_⟩
      · rw [elem_unite_node]
        by_cases hp : p ≤ (l + r) / 2
        · rw [if_pos hp, l₁ p hp₁ hp hp₃]
        · rw [if_neg hp, r₁ p (by omega) hp₂ hp₃]
      · rw [elem_unite_node]
        by_cases hp : p ≤ (l + r) / 2
        · rw [if_pos hp, l₂ hv p hp₁ hp hp₃ hp₄]
        · rw [if_neg hp, r₂ hv p (by omega) hp₂ hp₃ hp₄]
      · exact good_unite_node (l₃ hv hw hg) (r₃ hv hw hg)

end tourist_like
/-! ## The public operations of the recursive engine -/

namespace tourist_like

variable {N M : Type}

lemma new_values_spec (T : SegtreeNodeConcept N M) {v : List M} (hv : v ≠ []) :
    ∃ t a F, segtree.new_values T v = .ok ⟨v.length, t⟩ ∧
      Holds t a F 0 0 ((v.length : Int) - 1) ∧
      Built T (leaf_of T v) a F 0 ((v.length : Int) - 1) := by
  have hpos : 0 < (v.length : Int) := by
    have := List.length_pos.mpr hv
    omega
  obtain ⟨u, a, F, e, H, B, _⟩ := build_values_spec T v (leaf_of T v) (v.length : Int).toNat
    (t := List.replicate (2 * (v.length : Int) - 1).toNat T.dflt) (x := 0) (l := 0)
    (r := (v.length : Int) - 1) (by omega) (by omega) le_rfl
    (by rw [List.length_replicate]; omega)
    (fun i h1 h2 => rd_replicate h1 (by omega))
    (fun p h1 h2 => by
      obtain ⟨m, hm⟩ := rd_of_bounds (t := v) h1 (by omega)
      exact ⟨m, hm, by simp only [leaf_of, hm]⟩)
  refine ⟨u, a, F, ?_, H, B⟩
  simp only [segtree.new_values, if_pos hpos, e, bind, Except.bind, pure, Except.pure]

lemma new_spec (T : SegtreeNodeConcept N M) {n : Int} (hn : 0 < n) :
    ∃ t a F, segtree.new T n = .ok ⟨n, t⟩ ∧ Holds t a F 0 0 (n - 1) ∧
      Built T (fun _ => T.dflt) a F 0 (n - 1) := by
  obtain ⟨u, a, F, e, H, B, _⟩ := build_spec T n.toNat
    (t := List.replicate (2 * n - 1).toNat T.dflt) (x := 0) (l := 0)
    (r := n - 1) (by omega) (by omega) le_rfl
    (by rw [List.length_replicate]; omega)
    (fun i h1 h2 => rd_replicate h1 (by omega))
  refine ⟨u, a, F, ?_, H, B⟩
  simp only [segtree.new, if_pos hn, e, bind, Except.bind, pure, Except.pure]

lemma get_spec (T : SegtreeNodeConcept N M) {s : segtree N} {a : N} {F : Sub N}
    (hn : 0 < s.n) (H : Holds s.tree a F 0 0 (s.n - 1)) (ll rr : Int)
    (hp : 0 ≤ ll ∧ ll ≤ rr ∧ rr ≤ s.n - 1) :
    ∃ u, segtree.get T s ll rr = .ok (getF T a F 0 (s.n - 1) ll rr).1 ⟨s.n, u⟩ ∧
      Holds u (getF T a F 0 (s.n - 1) ll rr).2.1 (getF T a F 0 (s.n - 1) ll rr).2.2
        0 0 (s.n - 1) := by
  obtain ⟨u, e, H', _⟩ := get_at_spec T ll rr s.n.toNat H (by omega) (by omega) hp.2.1
    (by omega)
  exact ⟨u, by simp only [segtree.get, if_pos hp, e], H'⟩

lemma get_point_spec (T : SegtreeNodeConcept N M) {s : segtree N} {a : N} {F : Sub N}
    (hn : 0 < s.n) (H : Holds s.tree a F 0 0 (s.n - 1)) (p : Int)
    (hp : 0 ≤ p ∧ p ≤ s.n - 1) :
    ∃ u, segtree.get_point T s p = .ok (getF T a F 0 (s.n - 1) p p).1 ⟨s.n, u⟩ ∧
      Holds u (getF T a F 0 (s.n - 1) p p).2.1 (getF T a F 0 (s.n - 1) p p).2.2
        0 0 (s.n - 1) := by
  obtain ⟨u, e, H', _⟩ := get_at_spec T p p s.n.toNat H (by omega) (by omega) le_rfl
    (by omega)
  exact ⟨u, by simp only [segtree.get_point, if_pos hp, e], H'⟩

lemma modify_spec (T : SegtreeNodeConcept N M) {s : segtree N} {a : N} {F : Sub N}
    (hn : 0 < s.n) (H : Holds s.tree a F 0 0 (s.n - 1)) (ll rr : Int) (v : M)
    (hp : 0 ≤ ll ∧ ll ≤ rr ∧ rr ≤ s.n - 1) :
    ∃ u, segtree.modify T s ll rr v = .ok () ⟨s.n, u⟩ ∧
      Holds u (modifyF T a F 0 (s.n - 1) ll rr v).1 (modifyF T a F 0 (s.n - 1) ll rr v).2
        0 0 (s.n - 1) := by
  obtain ⟨u, e, H', _⟩ := modify_at_spec T ll rr v s.n.toNat H (by omega) (by omega) hp.2.1
    (by omega)
  exact ⟨u, by simp only [segtree.modify, if_pos hp, e], H'⟩

/-- Every reachable state is laid out. -/
lemma Reachable.laid {T : SegtreeNodeConcept N M} {s : segtree N} (h : Reachable T s) :
    Laid s := by
  induction h with
  | @new n s e =>
    by_cases hn : 0 < n
    · obtain ⟨t, a, F, e', H, _⟩ := new_spec T hn
      rw [e'] at e
      cases e
      exact ⟨hn, a, F, H⟩
    · simp [segtree.new, hn] at e
  | @new_values v s e =>
    by_cases hv : v = []
    · subst hv
      simp [segtree.new_values] at e
    · obtain ⟨t, a, F, e', H, _⟩ := new_values_spec T hv
      rw [e'] at e
      cases e
      have := List.length_pos.mpr hv
      exact ⟨by show (0 : Int) < (v.length : Int); omega, a, F, H⟩
  | @get s s' ll rr b _ e ih =>
    obtain ⟨hn, a, F, H⟩ := ih
    by_cases hp : 0 ≤ ll ∧ ll ≤ rr ∧ rr ≤ s.n - 1
    · obtain ⟨u, e', H'⟩ := get_spec T hn H ll rr hp
      rw [e'] at e
      cases e
      exact ⟨hn, _, _, H'⟩
    · simp [segtree.get, hp] at e
  | @get_point s s' p b _ e ih =>
    obtain ⟨hn, a, F, H⟩ := ih
    by_cases hp : 0 ≤ p ∧ p ≤ s.n - 1
    · obtain ⟨u, e', H'⟩ := get_point_spec T hn H p hp
      rw [e'] at e
      cases e
      exact ⟨hn, _, _, H'⟩
    · simp [segtree.get_point, hp] at e
  | @modify s s' ll rr v _ e ih =>
    obtain ⟨hn, a, F, H⟩ := ih
    by_cases hp : 0 ≤ ll ∧ ll ≤ rr ∧ rr ≤ s.n - 1
    · obtain ⟨u, e', H'⟩ := modify_spec T hn H ll rr v hp
      rw [e'] at e
      cases e
      exact ⟨hn, _, _, H'⟩
    · simp [segtree.modify, hp] at e

end tourist_like

/-! ## The plain array -/

lemma foldl_set_length (v : Int) : ∀ (k s : Nat) (a : List Int),
    ((List.range' s k).foldl (fun acc i => acc.set i v) a).length = a.length := by
  intro k
  induction k with
  | zero => intro s a; rfl
  | succ k ih =>
    intro s a
    rw [List.range'_succ, List.foldl_cons, ih, List.length_set]

lemma foldl_set_getD (v : Int) : ∀ (k s : Nat) (a : List Int) (j : Nat),
    ((List.range' s k).foldl (fun acc i => acc.set i v) a).getD j 0 =
      if s ≤ j ∧ j < s + k ∧ j < a.length then v else a.getD j 0 := by
  intro k
  induction k with
  | zero =>
    intro s a j
    rw [if_neg (by omega)]
    rfl
  | succ k ih =>
    intro s a j
    rw [List.range'_succ, List.foldl_cons, ih, List.length_set]
    by_cases h1 : s + 1 ≤ j ∧ j < s + 1 + k ∧ j < a.length
    · rw [if_pos h1, if_pos (by omega)]
    · rw [if_neg h1]
      by_cases h2 : s = j ∧ j < a.length
      · rw [if_pos (by omega)]
        obtain ⟨rfl, h3⟩ := h2
        simp [List.getD_eq_getElem?_getD, List.getElem?_set, h3]
      · rw [if_neg (by omega)]
        simp only [List.getD_eq_getElem?_getD, List.getElem?_set]
        by_cases h3 : s = j
        · have : ¬ j < a.length := by omega
          subst h3
          simp [this, List.getElem?_eq_none (show a.length ≤ s by omega)]
        · simp [h3]

lemma naive_assign_length (a : List Int) (l r v : Int) :
    (naive_assign a l r v).length = a.length :=
  foldl_set_length v _ _ a

lemma naive_assign_getD (a : List Int) {l r : Int} (v : Int) (h0 : 0 ≤ l)
    (h1 : r < a.length) {p : Int} (hp : 0 ≤ p) :
    (naive_assign a l r v).getD p.toNat 0 =
      if l ≤ p ∧ p ≤ r then v else a.getD p.toNat 0 := by
  unfold naive_assign
  rw [foldl_set_getD]
  by_cases h : l ≤ p ∧ p ≤ r
  · rw [if_pos h, if_pos (by omega)]
  · rw [if_neg h, if_neg (by omega)]

lemma foldl_add_rsum (g : List Int) : ∀ (k s : Nat) (init : Int),
    (List.range' s k).foldl (fun acc i => acc + g.getD i 0) init =
      init + tourist_like.rsum (fun p => g.getD p.toNat 0) (s : Int) k := by
  intro k
  induction k with
  | zero => intro s init; simp [tourist_like.rsum]
  | succ k ih =>
    intro s init
    rw [List.range'_succ, List.foldl_cons, ih]
    simp only [tourist_like.rsum, Int.toNat_ofNat]
    push_cast
    ring

lemma naive_sum_eq (g : List Int) {l : Int} (r : Int) (h0 : 0 ≤ l) :
    naive_sum g l r = tourist_like.isum (fun p => g.getD p.toNat 0) l r := by
  unfold naive_sum tourist_like.isum
  rw [foldl_add_rsum, Int.toNat_of_nonneg h0, zero_add]

/-! ## The `sum_segtree_node` engine represents a plain array -/

namespace tourist_like

open sum_segtree_node (concept_with)

lemma built_sum {w : Int → Int} {f : Int → sum_segtree_node}
    {F : Sub sum_segtree_node} :
    ∀ {a : sum_segtree_node} {l r : Int}, Shape F l r → Built (concept_with w) f a F l r →
      (∀ p : Int, l ≤ p → p ≤ r → w (f p).data = (f p).data) →
      Good w a F l r ∧ ∀ p : Int, l ≤ p → p ≤ r → elem w a F l r p = (f p).data := by
  induction F with
  | leaf =>
    intro a l r hs hb hf
    have hlr : l = r := hs
    have ha : a = f l := hb
    subst hlr
    refine ⟨by rw [ha]; exact hf l le_rfl le_rfl, fun p h1 h2 => ?_⟩
    have : p = l := by omega
    subst this
    rw [ha]
    rfl
  | node la L ra R ihL ihR =>
    intro a l r hs hb hf
    obtain ⟨hlt, hL, hR⟩ := hs
    obtain ⟨ha, bL, bR⟩ := hb
    obtain ⟨gL, eL⟩ := ihL hL bL fun p h1 h2 => hf p h1 (by omega)
    obtain ⟨gR, eR⟩ := ihR hR bR fun p h1 h2 => hf p (by omega) h2
    subst ha
    refine ⟨good_unite_node gL gR, fun p h1 h2 => ?_⟩
    rw [elem_unite_node]
    by_cases hp : p ≤ (l + r) / 2
    · rw [if_pos hp, eL p h1 hp]
    · rw [if_neg hp, eR p (by omega) h2]

lemma leaf_of_sum_data (w : Int → Int) (v : List Int) {p : Int} (h0 : 0 ≤ p)
    (h1 : p < v.length) :
    (leaf_of (concept_with w) v p).data = w (v.getD p.toNat 0) := by
  obtain ⟨m, hm⟩ := rd_of_bounds (t := v) h0 (by omega)
  have hm' := hm
  unfold rd at hm'
  rw [if_pos h0, List.getElem?_eq_getElem (by omega)] at hm'
  cases hm'
  simp [leaf_of, hm, concept_with, sum_segtree_node.apply_with, List.getD_eq_getElem?_getD,
    List.getElem?_eq_getElem (show p.toNat < v.length by omega)]

lemma represents_new_values {w : Int → Int} (hw : Reduction w) {values : List Int}
    (hne : values ≠ []) :
    ∃ s, segtree.new_values (concept_with w) values = .ok s ∧ Represents w s values := by
  obtain ⟨t, a, F, e, H, B⟩ := new_values_spec (concept_with w) hne
  have hpos : 0 < (values.length : Int) := by
    have := List.length_pos.mpr hne
    omega
  obtain ⟨g, el⟩ := built_sum H.shape B fun p h1 h2 => by
    rw [leaf_of_sum_data w values h1 (by omega), hw.idem]
  refine ⟨_, e, rfl, hpos, a, F, H, g, fun p h1 h2 => ?_⟩
  have h2' : p ≤ (values.length : Int) - 1 := h2
  rw [el p h1 h2']
  exact leaf_of_sum_data w values h1 (by omega)

lemma represents_get {w : Int → Int} (hw : Reduction w) {s : segtree sum_segtree_node}
    {arr : List Int} (h : Represents w s arr)
    {l r : Int} (hp : 0 ≤ l ∧ l ≤ r ∧ r ≤ s.n - 1) :
    ∃ res s', segtree.get (concept_with w) s l r = .ok res s' ∧
      res.data = w (naive_sum arr l r) ∧ Represents w s' arr := by
  obtain ⟨hlen, hn, a, F, H, G, E⟩ := h
  obtain ⟨u, e, H'⟩ := get_spec (concept_with w) hn H l r hp
  obtain ⟨i₁, _, i₃⟩ := getF_sum w (a := a) l r H.shape (by omega) (by omega) hp.2.1
  obtain ⟨G', D⟩ := i₃ hw G
  refine ⟨_, _, e, ?_, hlen, hn, _, _, H', G', fun p h1 h2 => by rw [i₁ p h1 h2, E p h1 h2]⟩
  rw [D, naive_sum_eq arr r hp.1, show max 0 l = l by omega,
    show min (s.n - 1) r = r by omega,
    ← isum_reduce hw (fun p => arr.getD p.toNat 0)]
  congr 1
  exact isum_congr fun p h1 h2 => E p (by omega) (by omega)

lemma represents_modify {w : Int → Int} (hw : Reduction w) {s : segtree sum_segtree_node}
    {arr : List Int} (h : Represents w s arr) {l r v : Int}
    (hp : 0 ≤ l ∧ l ≤ r ∧ r ≤ s.n - 1)
    (hv : v ≠ NO_LAZY ∨ modify_fits s.n l r v) :
    ∃ s', segtree.modify (concept_with w) s l r v = .ok () s' ∧
      Represents w s' (naive_assign arr l r v) := by
  obtain ⟨hlen, hn, a, F, H, G, E⟩ := h
  obtain ⟨u, e, H'⟩ := modify_spec (concept_with w) hn H l r v hp
  obtain ⟨i₁, i₂, i₃⟩ := modifyF_sum w (a := a) l r v s.n.toNat H.shape (by omega)
    (by omega) hp.2.1 (by omega)
  refine ⟨_, e, ?_, hn, _, _, H', i₃ hv hw G, fun p h1 h2 => ?_⟩
  · rw [naive_assign_length]
    exact hlen
  · rw [naive_assign_getD arr v hp.1 (by omega) h1]
    by_cases hin : l ≤ p ∧ p ≤ r
    · rw [if_pos hin]
      exact i₂ hv p h1 h2 hin.1 hin.2
    · rw [if_neg hin, ← E p h1 h2]
      exact i₁ p h1 h2 (by omega)

end tourist_like
/-! ## The recursive engine for a node type without `push` -/

namespace tourist_like

variable {N M : Type}

lemma pushV_none {T : SegtreeNodeConcept N M} (hp : T.push = none) (l r : Int) (a la ra : N) :
    pushV T l r a la ra = (a, la, ra) := by
  simp only [pushV, hp]

lemma foldr_unite_join (T : SegtreeNodeConcept N M)
    (hassoc : ∀ a b c : N, T.unite (T.unite a b) c = T.unite a (T.unite b c)) (f : Int → N) :
    ∀ (k₁ k₂ : Nat) (lo : Int),
      T.unite (foldr_unite T f lo k₁) (foldr_unite T f (lo + k₁ + 1) k₂) =
        foldr_unite T f lo (k₁ + k₂ + 1) := by
  intro k₁
  induction k₁ with
  | zero =>
    intro k₂ lo
    simp only [foldr_unite, Nat.cast_zero, add_zero, zero_add]
  | succ k ih =>
    intro k₂ lo
    have e : foldr_unite T f lo (k + 1 + k₂ + 1) =
        T.unite (f lo) (foldr_unite T f (lo + 1) (k + k₂ + 1)) := by
      rw [show k + 1 + k₂ + 1 = (k + k₂ + 1) + 1 by omega]
      rfl
    have e₂ : foldr_unite T f lo (k + 1) = T.unite (f lo) (foldr_unite T f (lo + 1) k) := rfl
    rw [e, ← ih k₂ (lo + 1), e₂, hassoc,
      show lo + ((k + 1 : Nat) : Int) + 1 = lo + 1 + (k : Int) + 1 by push_cast; ring]

lemma Built.congr_leaves {T : SegtreeNodeConcept N M} {f g : Int → N} {F : Sub N} :
    ∀ {a : N} {l r : Int}, Shape F l r → Built T f a F l r →
      (∀ p : Int, l ≤ p → p ≤ r → g p = f p) → Built T g a F l r := by
  induction F with
  | leaf =>
    intro a l r hs hb h
    have hlr : l = r := hs
    have ha : a = f l := hb
    show a = g l
    rw [ha, h l le_rfl (by omega)]
  | node la L ra R ihL ihR =>
    intro a l r hs hb h
    obtain ⟨hlt, hL, hR⟩ := hs
    obtain ⟨ha, bL, bR⟩ := hb
    exact ⟨ha, ihL hL bL fun p h1 h2 => h p h1 (by omega),
      ihR hR bR fun p h1 h2 => h p (by omega) h2⟩

/-- In a built subtree a vertex holds the right-nested fold of the leaves of its range. -/
lemma Built.value {T : SegtreeNodeConcept N M}
    (hassoc : ∀ a b c : N, T.unite (T.unite a b) c = T.unite a (T.unite b c))
    {f : Int → N} {F : Sub N} :
    ∀ {a : N} {l r : Int}, Shape F l r → Built T f a F l r →
      a = foldr_unite T f l (r - l).toNat := by
  induction F with
  | leaf =>
    intro a l r hs hb
    have hlr : l = r := hs
    have ha : a = f l := hb
    subst hlr
    rw [show (l - l).toNat = 0 by omega, ha]
    rfl
  | node la L ra R ihL ihR =>
    intro a l r hs hb
    obtain ⟨hlt, hL, hR⟩ := hs
    obtain ⟨ha, bL, bR⟩ := hb
    have j := foldr_unite_join T hassoc f ((l + r) / 2 - l).toNat
      (r - ((l + r) / 2 + 1)).toNat l
    rw [show l + (((l + r) / 2 - l).toNat : Int) + 1 = (l + r) / 2 + 1 by omega,
      show ((l + r) / 2 - l).toNat + (r - ((l + r) / 2 + 1)).toNat + 1 = (r - l).toNat
        by omega, ← ihL hL bL, ← ihR hR bR, ← ha] at j
    exact j

/-- Without `push`, `get` on a built subtree leaves it as it is and returns the right-nested
fold of the leaves of the queried part. -/
lemma getF_nopush (T : SegtreeNodeConcept N M) (hp : T.push = none)
    (hassoc : ∀ a b c : N, T.unite (T.unite a b) c = T.unite a (T.unite b c))
    {f : Int → N} {F : Sub N} :
    ∀ {a : N} {l r : Int} (ll rr : Int), Shape F l r → Built T f a F l r →
      ll ≤ r → l ≤ rr → ll ≤ rr →
      getF T a F l r ll rr =
        (foldr_unite T f (max l ll) (min r rr - max l ll).toNat, a, F) := by
  induction F with
  | leaf =>
    intro a l r ll rr hs hb h1 h2 h3
    have hlr : l = r := hs
    have ha : a = f l := hb
    subst hlr
    rw [show max l ll = l by omega, show (min l rr - l).toNat = 0 by omega]
    simp only [getF, foldr_unite, ha]
  | node la L ra R ihL ihR =>
    intro a l r ll rr hs hb h1 h2 h3
    obtain ⟨hlt, hL, hR⟩ := hs
    obtain ⟨ha, bL, bR⟩ := hb
    have fL := foldr_unite_join T hassoc f
    by_cases hcov : ll ≤ l ∧ r ≤ rr
    · simp only [getF, if_pos hcov]
      rw [show max l ll = l by omega, show min r rr = r by omega,
        ← Built.value hassoc (F := .node la L ra R) ⟨hlt, hL, hR⟩ ⟨ha, bL, bR⟩]
    · by_cases hA : rr ≤ (l + r) / 2
      · simp only [getF, if_neg hcov, if_pos hA, pushV_none hp,
          ihL ll rr hL bL (by omega) h2 h3, ← ha]
        rw [show min ((l + r) / 2) rr = min r rr by omega]
      · by_cases hB : ll > (l + r) / 2
        · simp only [getF, if_neg hcov, if_neg hA, if_pos hB, pushV_none hp,
            ihR ll rr hR bR h1 (by omega) h3, ← ha]
          rw [show max ((l + r) / 2 + 1) ll = max l ll by omega]
        · simp only [getF, if_neg hcov, if_neg hA, if_neg hB, pushV_none hp,
            ihL ll rr hL bL (by omega) h2 h3, ihR ll rr hR bR h1 (by omega) h3, ← ha]
          have j := fL ((l + r) / 2 - max l ll).toNat (min r rr - ((l + r) / 2 + 1)).toNat
            (max l ll)
          rw [show max l ll + (((l + r) / 2 - max l ll).toNat : Int) + 1 = (l + r) / 2 + 1
              by omega,
            show ((l + r) / 2 - max l ll).toNat + (min r rr - ((l + r) / 2 + 1)).toNat + 1
              = (min r rr - max l ll).toNat by omega] at j
          rw [show min ((l + r) / 2) rr = (l + r) / 2 by omega,
            show max ((l + r) / 2 + 1) ll = (l + r) / 2 + 1 by omega, j]

/-- Without `push`, a point `modify` on a built subtree replaces the leaf of `p` by the
applied value and leaves a built subtree. -/
lemma modifyF_point_nopush (T : SegtreeNodeConcept N M) (hp : T.push = none)
    {f : Int → N} {F : Sub N} (p : Int) (v : M) :
    ∀ {a : N} {l r : Int}, Shape F l r → Built T f a F l r → l ≤ p → p ≤ r →
      Built T (Function.update f p (T.apply p p v (f p)))
        (modifyF T a F l r p p v).1 (modifyF T a F l r p p v).2 l r := by
  induction F with
  | leaf =>
    intro a l r hs hb h1 h2
    have hlr : l = r := hs
    have ha : a = f l := hb
    subst hlr
    have : p = l := by omega
    subst this
    simp only [modifyF, Built, Function.update_same, ha]
  | node la L ra R ihL ihR =>
    intro a l r hs hb h1 h2
    obtain ⟨hlt, hL, hR⟩ := hs
    obtain ⟨ha, bL, bR⟩ := hb
    have hcov : ¬ (p ≤ l ∧ r ≤ p) := by omega
    by_cases hA : p ≤ (l + r) / 2
    · simp only [modifyF, if_neg hcov, if_pos hA, if_neg (show ¬ p > (l + r) / 2 by omega),
        pushV_none hp]
      exact ⟨rfl, ihL hL bL h1 hA, bR.congr_leaves hR fun q h1 h2 =>
        Function.update_noteq (by omega) _ _⟩
    · simp only [modifyF, if_neg hcov, if_neg hA, if_pos (show p > (l + r) / 2 by omega),
        pushV_none hp]
      exact ⟨rfl, bL.congr_leaves hL fun q h1 h2 => Function.update_noteq (by omega) _ _,
        ihR hR bR (by omega) h2⟩

lemma eager_new_values (T : SegtreeNodeConcept N M) {v : List M} (hv : v ≠ []) :
    ∃ s, segtree.new_values T v = .ok s ∧ s.n = v.length ∧ Eager T s (leaf_of T v) := by
  obtain ⟨t, a, F, e, H, B⟩ := new_values_spec T hv
  have := List.length_pos.mpr hv
  exact ⟨_, e, rfl, by show (0 : Int) < (v.length : Int); omega, a, F, H, B⟩

lemma eager_get (T : SegtreeNodeConcept N M) (hp : T.push = none)
    (hassoc : ∀ a b c : N, T.unite (T.unite a b) c = T.unite a (T.unite b c))
    {s : segtree N} {f : Int → N} (h : Eager T s f) (l r : Int)
    (hr : 0 ≤ l ∧ l ≤ r ∧ r ≤ s.n - 1) :
    ∃ s', segtree.get T s l r = .ok (foldr_unite T f l (r - l).toNat) s' ∧
      s'.n = s.n ∧ Eager T s' f := by
  obtain ⟨hn, a, F, H, B⟩ := h
  obtain ⟨u, e, H'⟩ := get_spec T hn H l r hr
  rw [getF_nopush T hp hassoc l r H.shape B (by omega) (by omega) hr.2.1] at e H'
  rw [show max 0 l = l by omega, show min (s.n - 1) r = r by omega] at e
  exact ⟨_, e, rfl, hn, a, F, H', B⟩

lemma eager_modify_point (T : SegtreeNodeConcept N M) (hp : T.push = none)
    {s : segtree N} {f : Int → N} (h : Eager T s f) (p : Int) (v : M)
    (hr : 0 ≤ p ∧ p ≤ s.n - 1) :
    ∃ s', segtree.modify T s p p v = .ok () s' ∧ s'.n = s.n ∧
      Eager T s' (Function.update f p (T.apply p p v (f p))) := by
  obtain ⟨hn, a, F, H, B⟩ := h
  obtain ⟨u, e, H'⟩ := modify_spec T hn H p p v (by omega)
  exact ⟨_, e, rfl, hn, _, _, H', modifyF_point_nopush T hp p v H.shape B hr.1 hr.2⟩

end tourist_like

/-! ## The iterative engine -/

lemma rd_out_of_range {α : Type} {t : List α} {i : Int} (h : (t.length : Int) ≤ i) :
    rd t i = .error .outOfRange := by
  unfold rd
  rw [if_pos (by omega), List.getElem?_eq_none (by omega)]

namespace bottom_up

variable {N M : Type}

lemma rd_slot (T : SegtreeNodeConcept N M) {t : List N} {i : Int} (h0 : 0 ≤ i)
    (h1 : i < t.length) : rd t i = .ok (slot T t i) := by
  obtain ⟨a, ha⟩ := rd_of_bounds (t := t) h0 (by omega)
  simp only [slot, ha]

lemma seg_snoc (T : SegtreeNodeConcept N M)
    (hassoc : ∀ a b c : N, T.unite (T.unite a b) c = T.unite a (T.unite b c))
    (hleft : ∀ a : N, T.unite T.dflt a = a) (hright : ∀ a : N, T.unite a T.dflt = a)
    (t : List N) : ∀ (k : Nat) (a : Int),
      seg T t a (k + 1) = T.unite (seg T t a k) (slot T t (a + k)) := by
  intro k
  induction k with
  | zero =>
    intro a
    simp only [seg, hleft, hright, Nat.cast_zero, add_zero]
  | succ k ih =>
    intro a
    have e : seg T t a (k + 1 + 1) = T.unite (slot T t a) (seg T t (a + 1) (k + 1)) := rfl
    have e₂ : seg T t a (k + 1) = T.unite (slot T t a) (seg T t (a + 1) k) := rfl
    rw [e, ih (a + 1), e₂, hassoc,
      show a + 1 + (k : Int) = a + ((k + 1 : Nat) : Int) by push_cast; ring]

/-- One level up: the fold of the slots `2a, ..., 2a + 2k - 1` is the fold of their parents
`a, ..., a + k - 1`. -/
lemma seg_halve (T : SegtreeNodeConcept N M)
    (hassoc : ∀ a b c : N, T.unite (T.unite a b) c = T.unite a (T.unite b c))
    (t : List N) : ∀ (k : Nat) (a : Int),
      (∀ i : Int, a ≤ i → i < a + k → ∃ x y, rd t (2 * i) = .ok x ∧
        rd t (2 * i + 1) = .ok y ∧ rd t i = .ok (T.unite x y)) →
      seg T t (2 * a) (2 * k) = seg T t a k := by
  intro k
  induction k with
  | zero => intro a _; rfl
  | succ k ih =>
    intro a h
    obtain ⟨x, y, hx, hy, hxy⟩ := h a le_rfl (by push_cast; omega)
    have e : seg T t (2 * a) (2 * (k + 1)) =
        T.unite (slot T t (2 * a)) (T.unite (slot T t (2 * a + 1))
          (seg T t (2 * a + 1 + 1) (2 * k))) := rfl
    have e₂ : seg T t a (k + 1) = T.unite (slot T t a) (seg T t (a + 1) k) := rfl
    rw [e, e₂, ← hassoc, show 2 * a + 1 + 1 = 2 * (a + 1) by ring,
      ih (a + 1) fun i h1 h2 => h i (by omega) (by push_cast; omega)]
    simp only [slot, hx, hy, hxy]

/-- The loop of `get` returns `unite(left_res · t[l] · ... · t[r - 1], right_res)`. -/
lemma get_loop_spec (T : SegtreeNodeConcept N M)
    (hassoc : ∀ a b c : N, T.unite (T.unite a b) c = T.unite a (T.unite b c))
    (hleft : ∀ a : N, T.unite T.dflt a = a) (hright : ∀ a : N, T.unite a T.dflt = a)
    (t : List N) : ∀ (fuel : Nat) (l r : Int) (L R : N),
      1 ≤ l → l ≤ r → r ≤ t.length → r < fuel →
      (∀ i : Int, 1 ≤ i → 2 * i + 1 < r → ∃ x y, rd t (2 * i) = .ok x ∧
        rd t (2 * i + 1) = .ok y ∧ rd t i = .ok (T.unite x y)) →
      get_loop T t fuel l r L R = .ok (T.unite (T.unite L (seg T t l (r - l).toNat)) R) := by
  intro fuel
  induction fuel with
  | zero =>
    intro l r L R h1 h2 h3 h4
    omega
  | succ k ih =>
    intro l r L R h1 h2 h3 h4 hI
    by_cases hlt : l < r
    · -- the values after the two conditional steps
      have hrl := rd_slot T (t := t) (i := l) (by omega) (by omega)
      have hrr := rd_slot T (t := t) (i := r - 1) (by omega) (by omega)
      have key : ∀ (l₁ r₁ : Int) (L₁ R₁ : N), l ≤ l₁ → l₁ ≤ r₁ → r₁ ≤ r → l₁ % 2 = 0 →
          r₁ % 2 = 0 →
          T.unite (T.unite L₁ (seg T t l₁ (r₁ - l₁).toNat)) R₁ =
            T.unite (T.unite L (seg T t l (r - l).toNat)) R →
          get_loop T t k (l₁ / 2) (r₁ / 2) L₁ R₁ =
            .ok (T.unite (T.unite L (seg T t l (r - l).toNat)) R) := by
        intro l₁ r₁ L₁ R₁ a₁ a₂ a₃ a₄ a₅ a₆
        rw [ih (l₁ / 2) (r₁ / 2) L₁ R₁ (by omega) (by omega) (by omega)
          (by push_cast at h4 ⊢; omega) fun i b₁ b₂ => hI i b₁ (by omega), ← a₆]
        have hh := seg_halve T hassoc t (r₁ / 2 - l₁ / 2).toNat (l₁ / 2)
          fun i b₁ b₂ => hI i (by omega) (by omega)
        rw [show 2 * (l₁ / 2) = l₁ by omega,
          show 2 * (r₁ / 2 - l₁ / 2).toNat = (r₁ - l₁).toNat by omega] at hh
        rw [hh]
      by_cases hlo : l % 2 = 1
      · by_cases hro : r % 2 = 1
        · simp only [get_loop, if_pos hlt, if_pos hlo, if_pos hro, hrl, hrr, bind,
            Except.bind, pure, Except.pure]
          apply key (l + 1) (r - 1) _ _ (by omega) (by omega) (by omega) (by omega)
            (by omega)
          have c₁ : (r - l).toNat = ((r - 1 - (l + 1)).toNat + 1) + 1 := by omega
          have c₂ := seg_snoc T hassoc hleft hright t (r - 1 - (l + 1)).toNat (l + 1)
          rw [show l + 1 + ((r - 1 - (l + 1)).toNat : Int) = r - 1 by omega] at c₂
          rw [c₁]
          have e : seg T t l ((r - 1 - (l + 1)).toNat + 1 + 1) =
            T.unite (slot T t l) (seg T t (l + 1) ((r - 1 - (l + 1)).toNat + 1)) := rfl
          rw [e, c₂]
          simp only [hassoc]
        · simp only [get_loop, if_pos hlt, if_pos hlo, if_neg hro, hrl, bind,
            Except.bind, pure, Except.pure]
          apply key (l + 1) r _ _ (by omega) (by omega) (by omega) (by omega) (by omega)
          have c₁ : (r - l).toNat = (r - (l + 1)).toNat + 1 := by omega
          rw [c₁]
          have e : seg T t l ((r - (l + 1)).toNat + 1) =
            T.unite (slot T t l) (seg T t (l + 1) (r - (l + 1)).toNat) := rfl
          rw [e]
          simp only [hassoc]
      · by_cases hro : r % 2 = 1
        · simp only [get_loop, if_pos hlt, if_neg hlo, if_pos hro, hrr, bind,
            Except.bind, pure, Except.pure]
          apply key l (r - 1) _ _ (by omega) (by omega) (by omega) (by omega) (by omega)
          have c₁ : (r - l).toNat = (r - 1 - l).toNat + 1 := by omega
          have c₂ := seg_snoc T hassoc hleft hright t (r - 1 - l).toNat l
          rw [show l + ((r - 1 - l).toNat : Int) = r - 1 by omega] at c₂
          rw [c₁, c₂]
          simp only [hassoc]
        · simp only [get_loop, if_pos hlt, if_neg hlo, if_neg hro, bind,
            Except.bind, pure, Except.pure]
          exact key l r _ _ (by omega) (by omega) (by omega) (by omega) (by omega) rfl
    · have hk : (r - l).toNat = 0 := by omega
      simp only [get_loop, if_neg hlt, hk, seg, hright]

lemma seg_eq_foldr (T : SegtreeNodeConcept N M) (t : List N) : ∀ (k a : Nat),
    a + k ≤ t.length →
    seg T t (a : Int) k = List.foldr T.unite T.dflt ((t.drop a).take k) := by
  intro k
  induction k with
  | zero => intro a _; simp [seg]
  | succ k ih =>
    intro a h
    have ha : a < t.length := by omega
    have e : seg T t (a : Int) (k + 1) =
      T.unite (slot T t a) (seg T t ((a : Int) + 1) k) := rfl
    have hs : slot T t (a : Int) = t[a] := by
      have hr : rd t (a : Int) = .ok t[a] := by
        unfold rd
        rw [if_pos (by omega), Int.toNat_ofNat, List.getElem?_eq_getElem ha]
      simp only [slot, hr]
    rw [e, hs, List.drop_eq_getElem_cons ha, List.take_succ_cons, List.foldr_cons,
      ← ih (a + 1) (by omega)]
    rfl

end bottom_up

namespace bottom_up

variable {N M : Type}

/-- The first loop of `build` stays inside the `2 * n - 1` slots. -/
lemma build_leaves_ok (T : SegtreeNodeConcept N M) (n : Int) (v : List M)
    (hv : (v.length : Int) = n) : ∀ (fuel : Nat) (t : List N) (i : Int),
      (t.length : Int) = 2 * n - 1 → n ≤ i → i ≤ 2 * n - 1 → 2 * n - 1 - i < fuel →
      ∃ u, build_leaves T n v fuel t i = .ok u ∧ u.length = t.length := by
  intro fuel
  induction fuel with
  | zero =>
    intro t i h1 h2 h2' h3
    exact absurd h3 (by push_cast; omega)
  | succ k ih =>
    intro t i h1 h2 h2' h3
    by_cases hi : i < 2 * n - 1
    · obtain ⟨a, ha⟩ := rd_of_bounds (t := t) (i := i) (by omega) (by omega)
      obtain ⟨m, hm⟩ := rd_of_bounds (t := v) (i := i - n) (by omega) (by omega)
      obtain ⟨u, hu, len, _, _⟩ := wr_spec (t := t) (i := i) (T.apply i i m a) (by omega)
        (by omega)
      obtain ⟨w, hw, len'⟩ := ih u (i + 1) (by rw [len]; exact h1) (by omega) (by omega)
        (by push_cast at h3 ⊢; omega)
      refine ⟨w, ?_, by rw [len', len]⟩
      simp only [build_leaves, if_pos hi, ha, hm, hu, hw, bind, Except.bind]
    · exact ⟨t, by simp only [build_leaves, if_neg hi], rfl⟩

end bottom_up

/-- The state used to illustrate the iterative `get`: it is reached by `new(5)`,
`modify(0, [1])`, `modify(1, [2])`, `modify(2, [3])` on list concatenation. -/
lemma bottom_up_example_reached :
    bottom_up.segtree.new concat_node 5 = .ok ⟨5, [[], [], [], [], [], [], [], [], []]⟩ ∧
      bottom_up.segtree.modify concat_node ⟨5, [[], [], [], [], [], [], [], [], []]⟩ 0 [1] =
        .ok ⟨5, [[], [1], [1], [], [], [1], [], [], []]⟩ ∧
      bottom_up.segtree.modify concat_node ⟨5, [[], [1], [1], [], [], [1], [], [], []]⟩ 1 [2] =
        .ok ⟨5, [[], [1, 2], [1], [2], [], [1], [2], [], []]⟩ ∧
      bottom_up.segtree.modify concat_node
          ⟨5, [[], [1, 2], [1], [2], [], [1], [2], [], []]⟩ 2 [3] =
        .ok ⟨5, [[], [1, 2, 3], [1], [2, 3], [], [1], [2], [3], []]⟩ ∧
      bottom_up.segtree.get concat_node
          ⟨5, [[], [1, 2, 3], [1], [2, 3], [], [1], [2], [3], []]⟩ 0 3 = .ok [1, 2, 3] := by
  decide

/-- The scenario of the tests on the recursive engine: on `[1, 2, 3, 4, 5]`, `get(0, 4)` is
`15`, and after `modify(1, 3, 10)`, `get(1, 3)` is `30` and `get(0, 4)` is `36`. -/
lemma tourist_like_example_run :
    (match tourist_like.segtree.new_values sum_segtree_node.concept [1, 2, 3, 4, 5] with
      | .ok s => engine_run sum_segtree_node.concept s
          [.get 0 4, .modify 1 3 10, .get 1 3, .get 0 4]
      | .error _ => none) = some [15, 30, 36] := by
  decide

namespace tourist_like

variable {N M : Type}

/-- A second `get` of the same range finds the subtree as the first one left it and returns
the same node, for a node type whose `push` leaves a freshly pulled vertex alone. -/
lemma getF_idem (T : SegtreeNodeConcept N M)
    (hpp : ∀ (l r : Int) (la ra : N),
      pushV T l r (T.unite la ra) la ra = (T.unite la ra, la, ra)) {F : Sub N} :
    ∀ {a : N} {l r : Int} (ll rr : Int), Shape F l r → ll ≤ r → l ≤ rr → ll ≤ rr →
      getF T (getF T a F l r ll rr).2.1 (getF T a F l r ll rr).2.2 l r ll rr =
        getF T a F l r ll rr := by
  induction F with
  | leaf => intro a l r ll rr _ _ _ _; rfl
  | node la L ra R ihL ihR =>
    intro a l r ll rr hs h1 h2 h3
    obtain ⟨hlt, hL, hR⟩ := hs
    by_cases hcov : ll ≤ l ∧ r ≤ rr
    · simp only [getF, if_pos hcov]
    · by_cases hA : rr ≤ (l + r) / 2
      · simp only [getF, if_neg hcov, if_pos hA, hpp]
        rw [ihL ll rr hL (by omega) h2 h3]
      · by_cases hB : ll > (l + r) / 2
        · simp only [getF, if_neg hcov, if_neg hA, if_pos hB, hpp]
          rw [ihR ll rr hR h1 (by omega) h3]
        · simp only [getF, if_neg hcov, if_neg hA, if_neg hB, hpp]
          rw [ihL ll rr hL (by omega) h2 h3, ihR ll rr hR h1 (by omega) h3]

lemma push_after_pull_sum (w : Int → Int) (l r : Int) (la ra : sum_segtree_node) :
    pushV (sum_segtree_node.concept_with w) l r
        ((sum_segtree_node.concept_with w).unite la ra) la ra =
      ((sum_segtree_node.concept_with w).unite la ra, la, ra) := by
  rw [pushV_sum]
  simp [sum_segtree_node.push_with, sum_segtree_node.concept_with,
    sum_segtree_node.unite_with, sum_segtree_node.dflt]

lemma rsum_eq_slice_sum (g : List Int) : ∀ (k s : Nat), s + k ≤ g.length →
    rsum (fun p => g.getD p.toNat 0) (s : Int) k = ((g.drop s).take k).sum := by
  intro k
  induction k with
  | zero => intro s _; simp [rsum]
  | succ k ih =>
    intro s h
    have hs : s < g.length := by omega
    rw [List.drop_eq_getElem_cons hs, List.take_succ_cons, List.sum_cons, ← ih (s + 1) (by omega)]
    simp only [rsum, Int.toNat_ofNat, List.getD_eq_getElem?_getD, List.getElem?_eq_getElem hs,
      Option.getD_some]
    push_cast
    rfl

lemma naive_sum_eq_slice (g : List Int) {l r : Int} (h0 : 0 ≤ l) (h1 : l ≤ r)
    (h2 : r < g.length) :
    naive_sum g l r = ((g.drop l.toNat).take (r + 1 - l).toNat).sum := by
  rw [naive_sum_eq g r h0]
  unfold isum
  rw [← rsum_eq_slice_sum g _ _ (by omega), Int.toNat_of_nonneg h0]

lemma run_represents {w : Int → Int} (hw : Reduction w) :
    ∀ (ops : List Op) (s : segtree sum_segtree_node) (arr : List Int),
    Represents w s arr → (∀ op ∈ ops, op.valid s.n) →
    engine_run (sum_segtree_node.concept_with w) s ops
      = some ((naive_run arr ops).map w) := by
  intro ops
  induction ops with
  | nil => intro s arr _ _; rfl
  | cons op ops ih =>
    intro s arr hr hv
    have hop := hv op (List.mem_cons_self _ _)
    have hrest : ∀ o ∈ ops, o.valid s.n := fun o ho => hv o (List.mem_cons_of_mem _ ho)
    cases op with
    | modify l r v =>
      obtain ⟨h0, h1, h2, h3, h4⟩ := hop
      have hv' : v ≠ NO_LAZY := by unfold NO_LAZY; omega
      obtain ⟨s', e, hr'⟩ := represents_modify hw hr ⟨h0, h1, h2⟩ (Or.inl hv')
      have hn : s'.n = s.n := by rw [hr'.1, naive_assign_length, hr.1]
      simp only [engine_run, naive_run, e]
      exact ih s' _ hr' (by rw [hn]; exact hrest)
    | get l r =>
      obtain ⟨res, s', e, hd, hr'⟩ := represents_get hw hr hop
      have hn : s'.n = s.n := by rw [hr'.1, hr.1]
      simp only [engine_run, naive_run, e, ih s' _ hr' (by rw [hn]; exact hrest), hd,
        Option.map_some', List.map_cons]

lemma rsum_bound (f : Int → Int) : ∀ (k : Nat) (lo : Int),
    (∀ p : Int, lo ≤ p → -2147483648 ≤ f p ∧ f p ≤ 2147483647) →
    -(2147483648 * (k : Int)) ≤ rsum f lo k ∧ rsum f lo k ≤ 2147483648 * (k : Int) := by
  intro k
  induction k with
  | zero => intro lo _; simp [rsum]
  | succ k ih =>
    intro lo h
    have h1 := h lo le_rfl
    have h2 := ih (lo + 1) fun p hp => h p (by omega)
    simp only [rsum]
    push_cast
    omega

/-- The sums of the stress test fit in `long long` when the plain array holds 32-bit integers
and has at most `INT_MAX` elements. -/
lemma naive_run_fits : ∀ (ops : List Op) (arr : List Int),
    (∀ p : Int, 0 ≤ p → -2147483648 ≤ arr.getD p.toNat 0 ∧ arr.getD p.toNat 0 ≤ 2147483647) →
    (arr.length : Int) ≤ 2147483647 → (∀ op ∈ ops, op.valid arr.length) →
    ∀ y ∈ naive_run arr ops, int64 y := by
  intro ops
  induction ops with
  | nil => intro arr _ _ _ y hy; simp [naive_run] at hy
  | cons op ops ih =>
    intro arr ha hlen hv
    have hop := hv op (List.mem_cons_self _ _)
    have hrest : ∀ o ∈ ops, o.valid arr.length := fun o ho => hv o (List.mem_cons_of_mem _ ho)
    cases op with
    | modify l r v =>
      obtain ⟨h0, h1, h2, h3, h4⟩ := hop
      simp only [naive_run]
      refine ih _ (fun p hp => ?_) (by rw [naive_assign_length]; exact hlen)
        (by rw [naive_assign_length]; exact hrest)
      rw [naive_assign_getD arr v h0 (by omega) hp]
      split
      · exact ⟨h3, h4⟩
      · exact ha p hp
    | get l r =>
      obtain ⟨h0, h1, h2⟩ := hop
      intro y hy
      simp only [naive_run, List.mem_cons] at hy
      rcases hy with rfl | hy
      · rw [naive_sum_eq arr r h0]
        have := rsum_bound (fun p => arr.getD p.toNat 0) (r + 1 - l).toNat l
          fun p hp => ha p (by omega)
        unfold isum int64
        have hk : ((r + 1 - l).toNat : Int) ≤ 2147483647 := by omega
        omega
      · exact ih arr ha hlen hrest y hy

end tourist_like

/-! ## The iterative engine: `modify` -/

lemma wr_out_of_range {α : Type} {t : List α} {i : Int} (a : α) (h : (t.length : Int) ≤ i) :
    wr t i a = .error .outOfRange := by
  unfold wr
  rw [if_neg (by omega)]

namespace bottom_up

variable {N M : Type}

/-- The loop of `modify`, entered with the slot `c` just overwritten: if every internal
vertex other than the parent of `c` is the `unite` of its children, and the children of the
parent of `c` are allocated, the loop returns, writes only slots up to `c / 2`, and leaves
every internal vertex the `unite` of its children. -/
lemma modify_loop_spec (T : SegtreeNodeConcept N M) (n : Int) :
    ∀ (fuel : Nat) (t : List N) (c : Int),
      0 ≤ c → c < fuel → c ≤ 2 * n - 1 → 2 * (c / 2) + 1 < t.length →
      (∀ i : Int, 1 ≤ i → i < n → 2 * i + 1 < t.length → i ≠ c / 2 →
        ∃ a b, rd t (2 * i) = .ok a ∧ rd t (2 * i + 1) = .ok b ∧
          rd t i = .ok (T.unite a b)) →
      ∃ u, modify_loop T fuel t c = .ok u ∧ u.length = t.length ∧
        (∀ i : Int, c / 2 < i → rd u i = rd t i) ∧
        (∀ i : Int, 1 ≤ i → i < n → 2 * i + 1 < t.length →
          ∃ a b, rd u (2 * i) = .ok a ∧ rd u (2 * i + 1) = .ok b ∧
            rd u i = .ok (T.unite a b)) := by
  intro fuel
  induction fuel with
  | zero =>
    intro t c h0 h1
    exact absurd h1 (by push_cast; omega)
  | succ k ih =>
    intro t c h0 h1 h2 h3 hI
    by_cases hp : c / 2 ≠ 0
    · obtain ⟨a, ha⟩ := rd_of_bounds (t := t) (i := 2 * (c / 2)) (by omega) (by omega)
      obtain ⟨b, hb⟩ := rd_of_bounds (t := t) (i := 2 * (c / 2) + 1) (by omega) (by omega)
      obtain ⟨t', e, len, hx, hne⟩ := wr_spec (t := t) (i := c / 2) (T.unite a b)
        (by omega) (by omega)
      obtain ⟨u, eu, lenu, hfr, hin⟩ := ih t' (c / 2) (by omega)
        (by push_cast at h1 ⊢; omega) (by omega) (by rw [len]; omega) (by
          intro i i1 i2 i3 i4
          rw [len] at i3
          by_cases hi : i = c / 2
          · subst hi
            exact ⟨a, b, by rw [hne _ (by omega)]; exact ha,
              by rw [hne _ (by omega)]; exact hb, hx⟩
          · obtain ⟨a', b', e₁, e₂, e₃⟩ := hI i i1 i2 i3 hi
            exact ⟨a', b', by rw [hne _ (by omega)]; exact e₁,
              by rw [hne _ (by omega)]; exact e₂, by rw [hne _ hi]; exact e₃⟩)
      refine ⟨u, ?_, by rw [lenu, len], fun i hi => ?_, fun i i1 i2 i3 => ?_⟩
      · simp only [modify_loop, if_pos hp, ha, hb, e, eu, bind, Except.bind]
      · rw [hfr i (by omega), hne i (by omega)]
      · exact hin i i1 i2 (by rw [len]; exact i3)
    · have hz : c / 2 = 0 := by omega
      refine ⟨t, ?_, rfl, fun _ _ => rfl, fun i i1 i2 i3 => hI i i1 i2 i3 (by omega)⟩
      simp only [modify_loop, hz, ne_eq, not_true_eq_false, if_false]

/-- What `modify(p, v)` does when the slot of the leaf `p` and its sibling are allocated
(which holds for every `p` on a tree of `2 * n` slots): it returns, `get(p)` is then `v`,
no other leaf has changed, and the internal vertices are again the `unite` of their
children. -/
lemma modify_restores_inner (T : SegtreeNodeConcept N M) (s : segtree N) (p : Int) (v : N)
    (hn : 1 ≤ s.n) (hp : 0 ≤ p ∧ p ≤ s.n - 1) (hI : Inner T s)
    (hal : 2 * ((p + s.n) / 2) + 1 < s.tree.length) :
    ∃ s', segtree.modify T s p v = .ok s' ∧ s'.n = s.n ∧
      s'.tree.length = s.tree.length ∧ segtree.get_point s' p = .ok v ∧
      (∀ q : Int, 0 ≤ q → q ≠ p → segtree.get_point s' q = segtree.get_point s q) ∧
      Inner T s' := by
  obtain ⟨t', e, len, hx, hne⟩ := wr_spec (t := s.tree) (i := p + s.n) v (by omega)
    (by omega)
  obtain ⟨u, eu, lenu, hfr, hin⟩ := modify_loop_spec T s.n ((p + s.n).toNat + 1) t'
    (p + s.n) (by omega) (by push_cast; omega) (by omega) (by rw [len]; exact hal) (by
      intro i i1 i2 i3 i4
      rw [len] at i3
      obtain ⟨a', b', e₁, e₂, e₃⟩ := hI i i1 i2 i3
      exact ⟨a', b', by rw [hne _ (by omega)]; exact e₁,
        by rw [hne _ (by omega)]; exact e₂, by rw [hne _ (by omega)]; exact e₃⟩)
  refine ⟨⟨s.n, u⟩, ?_, rfl, by rw [lenu, len], ?_, fun q q0 qp => ?_, ?_⟩
  · simp only [segtree.modify, e, eu, bind, Except.bind, pure, Except.pure]
  · show rd u (p + s.n) = .ok v
    rw [hfr _ (by omega)]
    exact hx
  · show rd u (q + s.n) = rd s.tree (q + s.n)
    rw [hfr _ (by omega), hne _ (by omega)]
  · intro i i1 i2 i3
    have i3' : 2 * i + 1 < (t'.length : Int) := by
      rw [len]
      have : (u.length : Int) = s.tree.length := by rw [lenu, len]
      have i3'' : 2 * i + 1 < (u.length : Int) := i3
      omega
    exact hin i i1 i2 i3'

end bottom_up

/-- On the state that `new(5)` leaves, `modify(0, [1])` has the pair of siblings of its leaf
allocated: it returns, `get(0)` is `[1]` and the internal vertices are united again. -/
lemma modify_restores_inner_example :
    ∃ s', bottom_up.segtree.modify concat_node ⟨5, [[], [], [], [], [], [], [], [], []]⟩ 0 [1]
        = .ok s' ∧ s'.n = 5 ∧ s'.tree.length = 9 ∧
      bottom_up.segtree.get_point s' 0 = .ok [1] ∧ bottom_up.Inner concat_node s' := by
  have hI : bottom_up.Inner concat_node ⟨5, [[], [], [], [], [], [], [], [], []]⟩ := by
    intro i h1 h2 h3
    have h3' : 2 * i + 1 < 9 := h3
    have hi : i = 1 ∨ i = 2 ∨ i = 3 := by omega
    rcases hi with rfl | rfl | rfl <;> exact ⟨[], [], by decide, by decide, by decide⟩
  obtain ⟨s', e, hn, hl, hg, _, hI'⟩ := bottom_up.modify_restores_inner concat_node
    ⟨5, [[], [], [], [], [], [], [], [], []]⟩ 0 [1] (by decide) (by decide) hI (by decide)
  exact ⟨s', e, hn, hl, hg, hI'⟩

/-! ## The implicit indexing of the recursive engine -/

namespace tourist_like

variable {N M : Type}

lemma irange_append : ∀ (a b : Nat) (x : Int),
    irange x (a + b) = irange x a ++ irange (x + a) b := by
  intro a
  induction a with
  | zero => intro b x; simp [irange]
  | succ a ih =>
    intro b x
    rw [show a + 1 + b = (a + b) + 1 by omega]
    simp only [irange, List.cons_append]
    rw [ih b (x + 1), show x + 1 + (a : Int) = x + ((a + 1 : Nat) : Int) by push_cast; ring]

lemma mem_irange : ∀ (k : Nat) (x i : Int), i ∈ irange x k ↔ x ≤ i ∧ i < x + k := by
  intro k
  induction k with
  | zero => intro x i; simp [irange]
  | succ k ih =>
    intro x i
    simp only [irange, List.mem_cons, ih]
    push_cast
    omega

lemma irange_nodup : ∀ (k : Nat) (x : Int), (irange x k).Nodup := by
  intro k
  induction k with
  | zero => intro x; simp [irange]
  | succ k ih =>
    intro x
    simp only [irange, List.nodup_cons, mem_irange]
    exact ⟨by omega, ih (x + 1)⟩

/-- The subtree of the vertex `x` over `[l, r]` occupies exactly the indices
`x, ..., x + 2 * (r - l)`, in the order of the traversal. -/
lemma vertices_indices : ∀ (fuel : Nat) (x l r : Int), l ≤ r → r - l < fuel →
    (vertices fuel x l r).map (fun q => q.1) = irange x (2 * (r - l) + 1).toNat := by
  intro fuel
  induction fuel with
  | zero => intro x l r h1 h2; omega
  | succ k ih =>
    intro x l r h1 h2
    by_cases hlr : l = r
    · subst hlr
      simp only [vertices, if_true, List.map_cons, List.map_nil]
      rw [show (2 * (l - l) + 1).toNat = 0 + 1 by omega]
      rfl
    · have hlt : l < r := lt_of_le_of_ne h1 hlr
      simp only [vertices, if_neg hlr, List.map_cons, List.map_append]
      rw [ih (x + 1) l ((l + r) / 2) (by omega) (by push_cast at h2 ⊢; omega),
        ih (x + 2 * ((l + r) / 2 - l + 1)) ((l + r) / 2 + 1) r (by omega)
          (by push_cast at h2 ⊢; omega),
        show (2 * (r - l) + 1).toNat =
          ((2 * ((l + r) / 2 - l) + 1).toNat + (2 * (r - ((l + r) / 2 + 1)) + 1).toNat) + 1
          by omega]
      simp only [irange]
      rw [irange_append,
        show x + 1 + (((2 * ((l + r) / 2 - l) + 1).toNat : Nat) : Int)
          = x + 2 * ((l + r) / 2 - l + 1) by omega]

/-- A vertex of a subtree has its own subtree inside it. -/
lemma vertices_window : ∀ (fuel : Nat) (x l r : Int) (q : Int × Int × Int),
    q ∈ vertices fuel x l r → l ≤ r →
    x ≤ q.1 ∧ q.1 + 2 * (q.2.2 - q.2.1) ≤ x + 2 * (r - l) ∧ q.2.1 ≤ q.2.2 ∧
      l ≤ q.2.1 ∧ q.2.2 ≤ r := by
  intro fuel
  induction fuel with
  | zero => intro x l r q h; simp [vertices] at h
  | succ k ih =>
    intro x l r q h h1
    by_cases hlr : l = r
    · simp only [vertices, if_pos hlr, List.mem_singleton] at h
      subst h
      simp only
      omega
    · simp only [vertices, if_neg hlr, List.mem_cons, List.mem_append] at h
      rcases h with h | h | h
      · subst h
        simp only
        omega
      · have := ih _ _ _ q h (by omega)
        omega
      · have := ih _ _ _ q h (by omega)
        omega

/-- Any allocated window of the right size holds some subtree. -/
lemma holds_of_length (t : List N) : ∀ (fuel : Nat) (x l r : Int), l ≤ r → r - l < fuel →
    0 ≤ x → x + 2 * (r - l) < t.length → ∃ a F, Holds t a F x l r := by
  intro fuel
  induction fuel with
  | zero => intro x l r h1 h2; omega
  | succ k ih =>
    intro x l r h1 h2 h3 h4
    obtain ⟨a, ha⟩ := rd_of_bounds (t := t) (i := x) h3 (by omega)
    by_cases hlr : l = r
    · exact ⟨a, .leaf, hlr, ha⟩
    · have hlt : l < r := lt_of_le_of_ne h1 hlr
      obtain ⟨la, L, hL⟩ := ih (x + 1) l ((l + r) / 2) (by omega)
        (by push_cast at h2 ⊢; omega) (by omega) (by omega)
      obtain ⟨ra, R, hR⟩ := ih (x + 2 * ((l + r) / 2 - l + 1)) ((l + r) / 2 + 1) r
        (by omega) (by push_cast at h2 ⊢; omega) (by omega) (by omega)
      exact ⟨a, .node la L ra R, hlt, ha, hL, hR⟩

lemma Holds.is_node {t : List N} {a : N} {F : Sub N} {x l r : Int} (h : Holds t a F x l r)
    (hlt : l < r) : ∃ la L ra R, F = .node la L ra R := by
  cases F with
  | leaf => exact absurd h.1 (by omega)
  | node la L ra R => exact ⟨la, L, ra, R, rfl⟩

lemma new_length (T : SegtreeNodeConcept N M) {n : Int} (hn : 0 < n) :
    ∃ s, segtree.new T n = .ok s ∧ s.n = n ∧ (s.tree.length : Int) = 2 * n - 1 := by
  obtain ⟨u, a, F, e, H, B, Fr⟩ := build_spec T n.toNat
    (t := List.replicate (2 * n - 1).toNat T.dflt) (x := 0) (l := 0)
    (r := n - 1) (by omega) (by omega) le_rfl
    (by rw [List.length_replicate]; omega)
    (fun i h1 h2 => rd_replicate h1 (by omega))
  refine ⟨⟨n, u⟩, ?_, rfl, ?_⟩
  · simp only [segtree.new, if_pos hn, e, bind, Except.bind, pure, Except.pure]
  · show (u.length : Int) = 2 * n - 1
    rw [Fr.1, List.length_replicate]
    omega

lemma new_values_length (T : SegtreeNodeConcept N M) {v : List M} (hv : v ≠ []) :
    ∃ s, segtree.new_values T v = .ok s ∧ s.n = v.length ∧
      (s.tree.length : Int) = 2 * (v.length : Int) - 1 := by
  have hpos : 0 < (v.length : Int) := by
    have := List.length_pos.mpr hv
    omega
  obtain ⟨u, a, F, e, H, B, Fr⟩ := build_values_spec T v (leaf_of T v)
    (v.length : Int).toNat
    (t := List.replicate (2 * (v.length : Int) - 1).toNat T.dflt) (x := 0) (l := 0)
    (r := (v.length : Int) - 1) (by omega) (by omega) le_rfl
    (by rw [List.length_replicate]; omega)
    (fun i h1 h2 => rd_replicate h1 (by omega))
    (fun p h1 h2 => by
      obtain ⟨m, hm⟩ := rd_of_bounds (t := v) h1 (by omega)
      exact ⟨m, hm, by simp only [leaf_of, hm]⟩)
  refine ⟨⟨v.length, u⟩, ?_, rfl, ?_⟩
  · simp only [segtree.new_values, if_pos hpos, e, bind, Except.bind, pure, Except.pure]
  · show (u.length : Int) = 2 * (v.length : Int) - 1
    rw [Fr.1, List.length_replicate]
    omega

end tourist_like

/-! ## Every internal vertex of the `sum_segtree_node` tree is pulled -/

namespace tourist_like

open sum_segtree_node

end tourist_like

/-! ## States reached with values other than `NO_LAZY` represent a plain array -/

namespace tourist_like

open sum_segtree_node

end tourist_like

/-! ## What the recursive `modify` accesses -/

lemma bind_ok {α β : Type} {A : Except Fault α} {f : α → Except Fault β} {b : β}
    (h : A >>= f = .ok b) : ∃ a, A = .ok a ∧ f a = .ok b := by
  cases A with
  | error e => cases h
  | ok a => exact ⟨a, rfl, h⟩

namespace tourist_like

variable {N M : Type}

lemma pull_log_erase (T : SegtreeNodeConcept N M) (t : List N) (x z : Int) :
    Except.map Prod.fst (pull_log T t x z) = pull T t x z := by
  unfold pull_log pull
  cases rd t (x + 1) with
  | error e => rfl
  | ok a =>
    cases rd t z with
    | error e => rfl
    | ok b =>
      cases h : wr t x (T.unite a b) with
      | error e => simp [bind, Except.bind, Except.map, h]
      | ok u => simp [bind, Except.bind, Except.map, h, pure, Except.pure]

lemma push_log_erase (T : SegtreeNodeConcept N M) (t : List N) (x l r : Int) :
    Except.map Prod.fst (push_log T t x l r) = push T t x l r := by
  unfold push_log push
  cases T.push with
  | none => rfl
  | some p =>
    simp only []
    cases rd t x with
    | error e => rfl
    | ok nd =>
      cases rd t (x + 1) with
      | error e => rfl
      | ok a =>
        cases rd t (x + 2 * ((l + r) / 2 - l + 1)) with
        | error e => rfl
        | ok b =>
          simp only [bind, Except.bind]
          cases wr t x (p l r nd a b).1 with
          | error e => rfl
          | ok t₁ =>
            simp only []
            cases wr t₁ (x + 1) (p l r nd a b).2.1 with
            | error e => rfl
            | ok t₂ =>
              simp only []
              cases wr t₂ (x + 2 * ((l + r) / 2 - l + 1)) (p l r nd a b).2.2 with
              | error e => rfl
              | ok t₃ => rfl

lemma map_fst_bind {α β L : Type} (A : Except Fault (α × L))
    (f : α × L → Except Fault (β × L)) (g : α → Except Fault β)
    (hf : ∀ p, Except.map Prod.fst (f p) = g p.1) :
    Except.map Prod.fst (A >>= f) = Except.map Prod.fst A >>= g := by
  cases A with
  | error e => rfl
  | ok p => exact hf p

lemma map_fst_ite {α L : Type} (c : Prop) [Decidable c] (A : Except Fault (α × List L))
    (B : Except Fault α) (a : α) (h : Except.map Prod.fst A = B) :
    Except.map Prod.fst (if c then A else pure (a, ([] : List L)))
      = if c then B else pure a := by
  split
  · exact h
  · rfl

/-- The uncovered branch of `modify_at` as a sequence of four steps. -/
lemma modify_at_uncovered (T : SegtreeNodeConcept N M) (k : Nat) (t : List N)
    (x l r ll rr : Int) (v : M) (hcov : ¬ (ll ≤ l ∧ r ≤ rr)) :
    modify_at T (k + 1) t x l r ll rr v =
      push T t x l r >>= fun t₁ =>
        (if ll ≤ (l + r) / 2 then modify_at T k t₁ (x + 1) l ((l + r) / 2) ll rr v
          else pure t₁) >>= fun t₂ =>
        (if rr > (l + r) / 2 then
          modify_at T k t₂ (x + 2 * ((l + r) / 2 - l + 1)) ((l + r) / 2 + 1) r ll rr v
          else pure t₂) >>= fun t₃ =>
        pull T t₃ x (x + 2 * ((l + r) / 2 - l + 1)) := by
  by_cases h1 : ll ≤ (l + r) / 2 <;> by_cases h2 : rr > (l + r) / 2 <;>
    simp only [modify_at, if_neg hcov, h1, h2, if_true, if_false]

/-- The uncovered branch of `modify_at_log` as a sequence of four steps. -/
lemma modify_at_log_uncovered (T : SegtreeNodeConcept N M) (k : Nat) (t : List N)
    (x l r ll rr : Int) (v : M) (hcov : ¬ (ll ≤ l ∧ r ≤ rr)) :
    modify_at_log T (k + 1) t x l r ll rr v =
      push_log T t x l r >>= fun p =>
        (if ll ≤ (l + r) / 2 then modify_at_log T k p.1 (x + 1) l ((l + r) / 2) ll rr v
          else pure (p.1, [])) >>= fun m₁ =>
        (if rr > (l + r) / 2 then
          modify_at_log T k m₁.1 (x + 2 * ((l + r) / 2 - l + 1)) ((l + r) / 2 + 1) r ll rr v
          else pure (m₁.1, [])) >>= fun m₂ =>
        pull_log T m₂.1 x (x + 2 * ((l + r) / 2 - l + 1)) >>= fun q =>
        pure (q.1, p.2 ++ m₁.2 ++ m₂.2 ++ q.2) := by
  by_cases h1 : ll ≤ (l + r) / 2 <;> by_cases h2 : rr > (l + r) / 2 <;>
    simp only [modify_at_log, if_neg hcov, h1, h2, if_true, if_false]

/-- Dropping the list of accesses from `modify_at_log` gives `modify_at`. -/
lemma modify_at_log_erase (T : SegtreeNodeConcept N M) :
    ∀ (fuel : Nat) (t : List N) (x l r ll rr : Int) (v : M),
      Except.map Prod.fst (modify_at_log T fuel t x l r ll rr v)
        = modify_at T fuel t x l r ll rr v := by
  intro fuel
  induction fuel with
  | zero => intro t x l r ll rr v; rfl
  | succ k ih =>
    intro t x l r ll rr v
    by_cases hcov : ll ≤ l ∧ r ≤ rr
    · rw [modify_at_log, modify_at, if_pos hcov, if_pos hcov]
      cases rd t x with
      | error e => rfl
      | ok nd =>
        show Except.map Prod.fst (wr t x (T.apply l r v nd) >>= fun t => pure (t, [x, x]))
          = wr t x (T.apply l r v nd)
        cases wr t x (T.apply l r v nd) <;> rfl
    · rw [modify_at_log_uncovered T k t x l r ll rr v hcov,
        modify_at_uncovered T k t x l r ll rr v hcov]
      refine (map_fst_bind _ _
        (fun t₁ =>
          (if ll ≤ (l + r) / 2 then modify_at T k t₁ (x + 1) l ((l + r) / 2) ll rr v
            else pure t₁) >>= fun t₂ =>
          (if rr > (l + r) / 2 then
            modify_at T k t₂ (x + 2 * ((l + r) / 2 - l + 1)) ((l + r) / 2 + 1) r ll rr v
            else pure t₂) >>= fun t₃ =>
          pull T t₃ x (x + 2 * ((l + r) / 2 - l + 1))) (fun p => ?_)).trans ?_
      · refine (map_fst_bind _ _
          (fun t₂ =>
            (if rr > (l + r) / 2 then
              modify_at T k t₂ (x + 2 * ((l + r) / 2 - l + 1)) ((l + r) / 2 + 1) r ll rr v
              else pure t₂) >>= fun t₃ =>
            pull T t₃ x (x + 2 * ((l + r) / 2 - l + 1))) (fun m₁ => ?_)).trans ?_
        · refine (map_fst_bind _ _
            (fun t₃ => pull T t₃ x (x + 2 * ((l + r) / 2 - l + 1))) (fun m₂ => ?_)).trans ?_
          · refine (map_fst_bind (pull_log T m₂.1 x (x + 2 * ((l + r) / 2 - l + 1)))
              (fun q => pure (q.1, p.2 ++ m₁.2 ++ m₂.2 ++ q.2)) (fun t₄ => pure t₄)
              (fun q => rfl)).trans ?_
            rw [pull_log_erase]
            show (pull T m₂.1 x (x + 2 * ((l + r) / 2 - l + 1)) >>= fun t₄ => pure t₄)
              = pull T m₂.1 x (x + 2 * ((l + r) / 2 - l + 1))
            cases pull T m₂.1 x (x + 2 * ((l + r) / 2 - l + 1)) <;> rfl
          · rw [map_fst_ite _ _ _ _ (ih _ _ _ _ _ _ _)]
        · rw [map_fst_ite _ _ _ _ (ih _ _ _ _ _ _ _)]
      · rw [push_log_erase]

lemma pull_log_accesses (T : SegtreeNodeConcept N M) {t : List N} {x z : Int}
    {p : List N × List Int} (h : pull_log T t x z = .ok p) : p.2 = [x + 1, z, x] := by
  unfold pull_log at h
  obtain ⟨a, _, h⟩ := bind_ok h
  obtain ⟨b, _, h⟩ := bind_ok h
  obtain ⟨u, _, h⟩ := bind_ok h
  have := Except.ok.inj h
  subst this
  rfl

lemma push_log_accesses (T : SegtreeNodeConcept N M) {t : List N} {x l r : Int}
    {p : List N × List Int} (h : push_log T t x l r = .ok p) :
    ∀ i ∈ p.2, i = x ∨ i = x + 1 ∨ i = x + 2 * ((l + r) / 2 - l + 1) := by
  unfold push_log at h
  cases hp : T.push with
  | none =>
    rw [hp] at h
    have := Except.ok.inj h
    subst this
    intro i hi
    simp at hi
  | some f =>
    rw [hp] at h
    simp only [] at h
    obtain ⟨nd, _, h⟩ := bind_ok h
    obtain ⟨a, _, h⟩ := bind_ok h
    obtain ⟨b, _, h⟩ := bind_ok h
    obtain ⟨t₁, _, h⟩ := bind_ok h
    obtain ⟨t₂, _, h⟩ := bind_ok h
    obtain ⟨t₃, _, h⟩ := bind_ok h
    have := Except.ok.inj h
    subst this
    intro i hi
    simp only [List.mem_cons, List.mem_singleton, List.not_mem_nil, or_false] at hi
    omega

/-- The accesses of `modify(x, l, r, ll, rr, v)` lie in the window of the vertex, and none is
inside the subtree of a vertex whose range is contained in `[ll, rr]`, its root apart. -/
lemma modify_at_log_accesses (T : SegtreeNodeConcept N M) :
    ∀ (fuel : Nat) (t : List N) (x l r ll rr : Int) (v : M) (p : List N × List Int),
      l ≤ r → ll ≤ r → l ≤ rr → modify_at_log T fuel t x l r ll rr v = .ok p →
      (∀ i ∈ p.2, x ≤ i ∧ i ≤ x + 2 * (r - l)) ∧
      ∀ (g : Nat) (q : Int × Int × Int), q ∈ vertices g x l r → ll ≤ q.2.1 → q.2.2 ≤ rr →
        ∀ i ∈ p.2, ¬ (q.1 < i ∧ i ≤ q.1 + 2 * (q.2.2 - q.2.1)) := by
  intro fuel
  induction fuel with
  | zero => intro t x l r ll rr v p _ _ _ h; cases h
  | succ k ih =>
    intro t x l r ll rr v p hlr h1 h2 h
    by_cases hcov : ll ≤ l ∧ r ≤ rr
    · rw [modify_at_log, if_pos hcov] at h
      obtain ⟨nd, _, h⟩ := bind_ok h
      obtain ⟨u, _, h⟩ := bind_ok h
      have := Except.ok.inj h
      subst this
      refine ⟨fun i hi => ?_, fun g q hq _ _ i hi => ?_⟩
      · simp only [List.mem_cons, List.mem_singleton, List.not_mem_nil, or_false] at hi
        omega
      · simp only [List.mem_cons, List.mem_singleton, List.not_mem_nil, or_false] at hi
        have := vertices_window g x l r q hq hlr
        omega
    · have hlt : l < r := by omega
      rw [modify_at_log_uncovered T k t x l r ll rr v hcov] at h
      obtain ⟨p₀, hp₀, h⟩ := bind_ok h
      obtain ⟨m₁, hm₁, h⟩ := bind_ok h
      obtain ⟨m₂, hm₂, h⟩ := bind_ok h
      obtain ⟨q₀, hq₀, h⟩ := bind_ok h
      have := Except.ok.inj h
      subst this
      have a₀ := push_log_accesses T hp₀
      have a₃ := pull_log_accesses T hq₀
      have a₁ : (∀ i ∈ m₁.2, x + 1 ≤ i ∧ i ≤ x + 1 + 2 * ((l + r) / 2 - l)) ∧
          ∀ (g : Nat) (q : Int × Int × Int), q ∈ vertices g (x + 1) l ((l + r) / 2) →
            ll ≤ q.2.1 → q.2.2 ≤ rr →
            ∀ i ∈ m₁.2, ¬ (q.1 < i ∧ i ≤ q.1 + 2 * (q.2.2 - q.2.1)) := by
        by_cases c : ll ≤ (l + r) / 2
        · rw [if_pos c] at hm₁
          exact ih _ _ _ _ _ _ _ _ (by omega) c h2 hm₁
        · rw [if_neg c] at hm₁
          have := Except.ok.inj hm₁
          subst this
          exact ⟨fun i hi => by simp at hi, fun g q _ _ _ i hi => by simp at hi⟩
      have a₂ : (∀ i ∈ m₂.2, x + 2 * ((l + r) / 2 - l + 1) ≤ i ∧
            i ≤ x + 2 * ((l + r) / 2 - l + 1) + 2 * (r - ((l + r) / 2 + 1))) ∧
          ∀ (g : Nat) (q : Int × Int × Int),
            q ∈ vertices g (x + 2 * ((l + r) / 2 - l + 1)) ((l + r) / 2 + 1) r →
            ll ≤ q.2.1 → q.2.2 ≤ rr →
            ∀ i ∈ m₂.2, ¬ (q.1 < i ∧ i ≤ q.1 + 2 * (q.2.2 - q.2.1)) := by
        by_cases c : rr > (l + r) / 2
        · rw [if_pos c] at hm₂
          exact ih _ _ _ _ _ _ _ _ (by omega) h1 (by omega) hm₂
        · rw [if_neg c] at hm₂
          have := Except.ok.inj hm₂
          subst this
          exact ⟨fun i hi => by simp at hi, fun g q _ _ _ i hi => by simp at hi⟩
      refine ⟨fun i hi => ?_, fun g q hq c1 c2 i hi => ?_⟩
      · simp only [List.mem_append] at hi
        rcases hi with ((hi | hi) | hi) | hi
        · have := a₀ i hi
          omega
        · have := a₁.1 i hi
          omega
        · have := a₂.1 i hi
          omega
        · rw [a₃] at hi
          simp only [List.mem_cons, List.mem_singleton, List.not_mem_nil, or_false] at hi
          omega
      · cases g with
        | zero => simp [vertices] at hq
        | succ g =>
          simp only [vertices, if_neg (ne_of_lt hlt), List.mem_cons, List.mem_append] at hq
          simp only [List.mem_append] at hi
          rcases hq with hq | hq | hq
          · subst hq
            exact absurd ⟨c1, c2⟩ hcov
          · have w := vertices_window g _ _ _ q hq (by omega)
            rcases hi with ((hi | hi) | hi) | hi
            · have := a₀ i hi
              omega
            · exact a₁.2 g q hq c1 c2 i hi
            · have := a₂.1 i hi
              omega
            · rw [a₃] at hi
              simp only [List.mem_cons, List.mem_singleton, List.not_mem_nil, or_false] at hi
              omega
          · have w := vertices_window g _ _ _ q hq (by omega)
            rcases hi with ((hi | hi) | hi) | hi
            · have := a₀ i hi
              omega
            · have := a₁.1 i hi
              omega
            · exact a₂.2 g q hq c1 c2 i hi
            · rw [a₃] at hi
              simp only [List.mem_cons, List.mem_singleton, List.not_mem_nil, or_false] at hi
              omega

/-- A proper descendant of a vertex has its index strictly inside the vertex's window. -/
lemma vertices_proper : ∀ (g : Nat) (x l r : Int) (d : Int × Int × Int),
    d ∈ vertices g x l r → d ≠ (x, l, r) → l ≤ r →
    x < d.1 ∧ d.1 ≤ x + 2 * (r - l) := by
  intro g x l r d hd hne hlr
  cases g with
  | zero => simp [vertices] at hd
  | succ g =>
    by_cases c : l = r
    · simp only [vertices, if_pos c, List.mem_singleton] at hd
      exact absurd hd hne
    · simp only [vertices, if_neg c, List.mem_cons, List.mem_append] at hd
      rcases hd with hd | hd | hd
      · exact absurd hd hne
      · have := vertices_window g _ _ _ d hd (by omega)
        omega
      · have := vertices_window g _ _ _ d hd (by omega)
        omega

lemma wr_ok_frame {α : Type} {t u : List α} {i : Int} {a : α} (h : wr t i a = .ok u) :
    ∀ j : Int, j ≠ i → rd u j = rd t j := by
  by_cases hb : 0 ≤ i ∧ i.toNat < t.length
  · obtain ⟨u', e, _, _, ne⟩ := wr_spec (t := t) a hb.1 hb.2
    rw [e] at h
    have := Except.ok.inj h
    subst this
    exact ne
  · unfold wr at h
    rw [if_neg hb] at h
    cases h

lemma pull_log_unlogged (T : SegtreeNodeConcept N M) {t : List N} {x z : Int}
    {p : List N × List Int} (h : pull_log T t x z = .ok p) :
    ∀ i : Int, i ∉ p.2 → rd p.1 i = rd t i := by
  unfold pull_log at h
  obtain ⟨a, _, h⟩ := bind_ok h
  obtain ⟨b, _, h⟩ := bind_ok h
  obtain ⟨u, hu, h⟩ := bind_ok h
  have := Except.ok.inj h
  subst this
  intro i hi
  simp only [List.mem_cons, List.mem_singleton, List.not_mem_nil, or_false, not_or] at hi
  exact wr_ok_frame hu i hi.2.2

lemma push_log_unlogged (T : SegtreeNodeConcept N M) {t : List N} {x l r : Int}
    {p : List N × List Int} (h : push_log T t x l r = .ok p) :
    ∀ i : Int, i ∉ p.2 → rd p.1 i = rd t i := by
  unfold push_log at h
  cases hp : T.push with
  | none =>
    rw [hp] at h
    have := Except.ok.inj h
    subst this
    intro i _
    rfl
  | some f =>
    rw [hp] at h
    simp only [] at h
    obtain ⟨nd, _, h⟩ := bind_ok h
    obtain ⟨a, _, h⟩ := bind_ok h
    obtain ⟨b, _, h⟩ := bind_ok h
    obtain ⟨t₁, h₁, h⟩ := bind_ok h
    obtain ⟨t₂, h₂, h⟩ := bind_ok h
    obtain ⟨t₃, h₃, h⟩ := bind_ok h
    have := Except.ok.inj h
    subst this
    intro i hi
    simp only [List.mem_cons, List.mem_singleton, List.not_mem_nil, or_false, not_or] at hi
    show rd t₃ i = rd t i
    rw [wr_ok_frame h₃ i hi.2.2.1, wr_ok_frame h₂ i hi.2.1, wr_ok_frame h₁ i hi.1]

/-- A slot that `modify` does not access keeps its value. -/
lemma modify_at_log_unlogged (T : SegtreeNodeConcept N M) :
    ∀ (fuel : Nat) (t : List N) (x l r ll rr : Int) (v : M) (p : List N × List Int),
      modify_at_log T fuel t x l r ll rr v = .ok p →
      ∀ i : Int, i ∉ p.2 → rd p.1 i = rd t i := by
  intro fuel
  induction fuel with
  | zero => intro t x l r ll rr v p h; cases h
  | succ k ih =>
    intro t x l r ll rr v p h i hi
    by_cases hcov : ll ≤ l ∧ r ≤ rr
    · rw [modify_at_log, if_pos hcov] at h
      obtain ⟨nd, _, h⟩ := bind_ok h
      obtain ⟨u, hu, h⟩ := bind_ok h
      have := Except.ok.inj h
      subst this
      simp only [List.mem_cons, List.mem_singleton, List.not_mem_nil, or_false, not_or] at hi
      exact wr_ok_frame hu i hi.1
    · rw [modify_at_log_uncovered T k t x l r ll rr v hcov] at h
      obtain ⟨p₀, hp₀, h⟩ := bind_ok h
      obtain ⟨m₁, hm₁, h⟩ := bind_ok h
      obtain ⟨m₂, hm₂, h⟩ := bind_ok h
      obtain ⟨q₀, hq₀, h⟩ := bind_ok h
      have := Except.ok.inj h
      subst this
      simp only [List.mem_append, not_or] at hi
      obtain ⟨⟨⟨i₀, i₁⟩, i₂⟩, i₃⟩ := hi
      have e₁ : rd m₁.1 i = rd p₀.1 i := by
        by_cases c : ll ≤ (l + r) / 2
        · rw [if_pos c] at hm₁
          exact ih _ _ _ _ _ _ _ _ hm₁ i i₁
        · rw [if_neg c] at hm₁
          have := Except.ok.inj hm₁
          subst this
          rfl
      have e₂ : rd m₂.1 i = rd m₁.1 i := by
        by_cases c : rr > (l + r) / 2
        · rw [if_pos c] at hm₂
          exact ih _ _ _ _ _ _ _ _ hm₂ i i₂
        · rw [if_neg c] at hm₂
          have := Except.ok.inj hm₂
          subst this
          rfl
      show rd q₀.1 i = rd t i
      rw [pull_log_unlogged T hq₀ i i₃, e₂, e₁, push_log_unlogged T hp₀ i i₀]

end tourist_like

/-! ## Enough fuel: the recursions and the loops end, and more fuel changes nothing -/

namespace tourist_like

variable {N M : Type}

lemma get_at_fuel (T : SegtreeNodeConcept N M) {F : Sub N} {t : List N} {a : N}
    {x l r : Int} (ll rr : Int) (f₁ f₂ : Nat) (h : Holds t a F x l r) (h1 : ll ≤ r)
    (h2 : l ≤ rr) (h3 : ll ≤ rr) (hf₁ : r - l < f₁) (hf₂ : r - l < f₂) :
    get_at T f₁ t x l r ll rr = get_at T f₂ t x l r ll rr := by
  obtain ⟨u, e, H, Fr⟩ := get_at_spec T ll rr f₁ h h1 h2 h3 hf₁
  obtain ⟨u', e', H', Fr'⟩ := get_at_spec T ll rr f₂ h h1 h2 h3 hf₂
  have : u' = u := by
    apply rd_ext (Fr'.1.trans Fr.1.symm)
    intro i
    by_cases hi : x ≤ i ∧ i ≤ x + 2 * (r - l)
    · exact Holds.same_slots H H' i hi.1 hi.2
    · rw [Fr'.2 i (by omega), Fr.2 i (by omega)]
  rw [e, e', this]

lemma modify_at_fuel (T : SegtreeNodeConcept N M) {F : Sub N} {t : List N} {a : N}
    {x l r : Int} (ll rr : Int) (v : M) (f₁ f₂ : Nat) (h : Holds t a F x l r) (h1 : ll ≤ r)
    (h2 : l ≤ rr) (h3 : ll ≤ rr) (hf₁ : r - l < f₁) (hf₂ : r - l < f₂) :
    modify_at T f₁ t x l r ll rr v = modify_at T f₂ t x l r ll rr v := by
  obtain ⟨u, e, H, Fr⟩ := modify_at_spec T ll rr v f₁ h h1 h2 h3 hf₁
  obtain ⟨u', e', H', Fr'⟩ := modify_at_spec T ll rr v f₂ h h1 h2 h3 hf₂
  have : u' = u := by
    apply rd_ext (Fr'.1.trans Fr.1.symm)
    intro i
    by_cases hi : x ≤ i ∧ i ≤ x + 2 * (r - l)
    · exact Holds.same_slots H H' i hi.1 hi.2
    · rw [Fr'.2 i (by omega), Fr.2 i (by omega)]
  rw [e, e', this]

/-- The built values of a range are determined by the leaves. -/
lemma Built.unique (T : SegtreeNodeConcept N M) (f : Int → N) {F : Sub N} :
    ∀ {F' : Sub N} {a a' : N} {l r : Int}, Built T f a F l r → Shape F l r →
      Built T f a' F' l r → Shape F' l r → a = a' ∧ F = F' := by
  induction F with
  | leaf =>
    intro F' a a' l r b s b' s'
    have hlr : l = r := s
    cases F' with
    | leaf =>
      have e : a = f l := b
      have e' : a' = f l := b'
      exact ⟨by rw [e, e'], rfl⟩
    | node la L ra R =>
      have : l < r := s'.1
      omega
  | node la L ra R ihL ihR =>
    intro F' a a' l r b s b' s'
    have hlt : l < r := s.1
    cases F' with
    | leaf =>
      have : l = r := s'
      omega
    | node la' L' ra' R' =>
      obtain ⟨e, bL, bR⟩ := b
      obtain ⟨e', bL', bR'⟩ := b'
      obtain ⟨h1, h2⟩ := ihL bL s.2.1 bL' s'.2.1
      obtain ⟨h3, h4⟩ := ihR bR s.2.2 bR' s'.2.2
      subst h1
      subst h2
      subst h3
      subst h4
      exact ⟨by rw [e, e'], rfl⟩

lemma build_fuel (T : SegtreeNodeConcept N M) {t : List N} {x l r : Int} (f₁ f₂ : Nat)
    (h1 : l ≤ r) (hf₁ : r - l < f₁) (hf₂ : r - l < f₂) (hx : 0 ≤ x)
    (hb : x + 2 * (r - l) < t.length)
    (hd : ∀ i : Int, x ≤ i → i ≤ x + 2 * (r - l) → rd t i = .ok T.dflt) :
    ∃ u, build T f₁ t x l r = .ok u ∧ build T f₂ t x l r = .ok u ∧
      u.length = t.length := by
  obtain ⟨u, a, F, e, H, B, Fr⟩ := build_spec T f₁ h1 hf₁ hx hb hd
  obtain ⟨u', a', F', e', H', B', Fr'⟩ := build_spec T f₂ h1 hf₂ hx hb hd
  obtain ⟨ha, hF⟩ := Built.unique T _ B H.shape B' H'.shape
  subst ha
  subst hF
  have : u' = u := by
    apply rd_ext (Fr'.1.trans Fr.1.symm)
    intro i
    by_cases hi : x ≤ i ∧ i ≤ x + 2 * (r - l)
    · exact Holds.same_slots H H' i hi.1 hi.2
    · rw [Fr'.2 i (by omega), Fr.2 i (by omega)]
  exact ⟨u, e, by rw [e', this], Fr.1⟩

lemma build_values_fuel (T : SegtreeNodeConcept N M) (v : List M) {t : List N}
    {x l r : Int} (f₁ f₂ : Nat)
    (h1 : l ≤ r) (hf₁ : r - l < f₁) (hf₂ : r - l < f₂) (hx : 0 ≤ x)
    (hb : x + 2 * (r - l) < t.length)
    (hd : ∀ i : Int, x ≤ i → i ≤ x + 2 * (r - l) → rd t i = .ok T.dflt)
    (hv : ∀ p : Int, l ≤ p → p ≤ r → ∃ m, rd v p = .ok m) :
    ∃ u, build_values T v f₁ t x l r = .ok u ∧ build_values T v f₂ t x l r = .ok u ∧
      u.length = t.length := by
  have hv' : ∀ p : Int, l ≤ p → p ≤ r →
      ∃ m, rd v p = .ok m ∧ leaf_of T v p = T.apply p p m T.dflt := by
    intro p p1 p2
    obtain ⟨m, hm⟩ := hv p p1 p2
    exact ⟨m, hm, by simp only [leaf_of, hm]⟩
  obtain ⟨u, a, F, e, H, B, Fr⟩ := build_values_spec T v (leaf_of T v) f₁ h1 hf₁ hx hb hd hv'
  obtain ⟨u', a', F', e', H', B', Fr'⟩ :=
    build_values_spec T v (leaf_of T v) f₂ h1 hf₂ hx hb hd hv'
  obtain ⟨ha, hF⟩ := Built.unique T _ B H.shape B' H'.shape
  subst ha
  subst hF
  have : u' = u := by
    apply rd_ext (Fr'.1.trans Fr.1.symm)
    intro i
    by_cases hi : x ≤ i ∧ i ≤ x + 2 * (r - l)
    · exact Holds.same_slots H H' i hi.1 hi.2
    · rw [Fr'.2 i (by omega), Fr.2 i (by omega)]
  exact ⟨u, e, by rw [e', this], Fr.1⟩

end tourist_like

namespace bottom_up

variable {N M : Type}

lemma rd_error {α : Type} {t : List α} {i : Int} {f : Fault} (h : rd t i = .error f) :
    f = .outOfRange := by
  unfold rd at h
  split at h
  · split at h
    · cases h
    · cases h
      rfl
  · cases h
    rfl

/-- The loop of `get` ends: with more fuel than `r` it does not run out, more fuel changes
nothing, and it returns a node when the slots below `r` are allocated. -/
lemma get_loop_ends (T : SegtreeNodeConcept N M) (t : List N) :
    ∀ (fuel : Nat) (l r : Int) (L R : N), 0 ≤ l → 0 ≤ r → r < fuel →
      get_loop T t fuel l r L R ≠ .error .outOfFuel ∧
      (∀ fuel' : Nat, r < fuel' → get_loop T t fuel' l r L R = get_loop T t fuel l r L R) ∧
      (r ≤ t.length → ∃ a, get_loop T t fuel l r L R = .ok a) := by
  intro fuel
  induction fuel with
  | zero => intro l r L R h0 h0r hf; omega
  | succ k ih =>
    intro l r L R h0 h0r hf
    by_cases hlt : l < r
    · have hstep : ∀ j : Nat, get_loop T t (j + 1) l r L R =
          (if l % 2 = 1 then (do
              let a ← rd t l
              pure (T.unite L a, l + 1))
            else pure (L, l)) >>= fun p =>
          (if r % 2 = 1 then (do
              let a ← rd t (r - 1)
              pure (T.unite a R, r - 1))
            else pure (R, r)) >>= fun q =>
          get_loop T t j (p.2 / 2) (q.2 / 2) p.1 q.1 := by
        intro j
        rw [get_loop, if_pos hlt]
        by_cases h1 : l % 2 = 1 <;> by_cases h2 : r % 2 = 1 <;>
          simp only [h1, h2, if_true, if_false]
      have hP : (∃ p : N × Int, (if l % 2 = 1 then (do
              let a ← rd t l
              pure (T.unite L a, l + 1))
            else pure (L, l)) = Except.ok p ∧ 0 ≤ p.2) ∨
          ((if l % 2 = 1 then (do
              let a ← rd t l
              pure (T.unite L a, l + 1))
            else pure (L, l) : Except Fault (N × Int)) = .error .outOfRange ∧
            ¬ r ≤ t.length) := by
        by_cases h1 : l % 2 = 1
        · rw [if_pos h1]
          cases e : rd t l with
          | ok a => exact Or.inl ⟨(T.unite L a, l + 1), rfl, by show 0 ≤ l + 1; omega⟩
          | error f =>
            have := rd_error e
            subst this
            refine Or.inr ⟨rfl, fun hb => ?_⟩
            obtain ⟨a, ha⟩ := rd_of_bounds (t := t) (i := l) h0 (by omega)
            rw [ha] at e
            cases e
        · rw [if_neg h1]
          exact Or.inl ⟨(L, l), rfl, h0⟩
      have hQ : (∃ q : N × Int, (if r % 2 = 1 then (do
              let a ← rd t (r - 1)
              pure (T.unite a R, r - 1))
            else pure (R, r)) = Except.ok q ∧ 0 ≤ q.2 ∧ q.2 ≤ r) ∨
          ((if r % 2 = 1 then (do
              let a ← rd t (r - 1)
              pure (T.unite a R, r - 1))
            else pure (R, r) : Except Fault (N × Int)) = .error .outOfRange ∧
            ¬ r ≤ t.length) := by
        by_cases h2 : r % 2 = 1
        · rw [if_pos h2]
          cases e : rd t (r - 1) with
          | ok a =>
            exact Or.inl ⟨(T.unite a R, r - 1), rfl, by show 0 ≤ r - 1; omega,
              by show r - 1 ≤ r; omega⟩
          | error f =>
            have := rd_error e
            subst this
            refine Or.inr ⟨rfl, fun hb => ?_⟩
            obtain ⟨a, ha⟩ := rd_of_bounds (t := t) (i := r - 1) (by omega) (by omega)
            rw [ha] at e
            cases e
        · rw [if_neg h2]
          exact Or.inl ⟨(R, r), rfl, h0r, le_rfl⟩
      rcases hP with ⟨p, eP, p0⟩ | ⟨eP, nb⟩
      · rcases hQ with ⟨q, eQ, q0, q1⟩ | ⟨eQ, nb⟩
        · have e : ∀ j : Nat, get_loop T t (j + 1) l r L R
              = get_loop T t j (p.2 / 2) (q.2 / 2) p.1 q.1 := by
            intro j
            rw [hstep, eP, eQ]
            rfl
          obtain ⟨i₁, i₂, i₃⟩ := ih (p.2 / 2) (q.2 / 2) p.1 q.1 (by omega) (by omega)
            (by omega)
          refine ⟨by rw [e]; exact i₁, fun fuel' hf' => ?_,
            fun hb => by rw [e]; exact i₃ (by omega)⟩
          obtain ⟨j, rfl⟩ : ∃ j, fuel' = j + 1 := ⟨fuel' - 1, by omega⟩
          rw [e, e, i₂ j (by omega)]
        · have e : ∀ j : Nat, get_loop T t (j + 1) l r L R = .error .outOfRange := by
            intro j
            rw [hstep, eP, eQ]
            rfl
          refine ⟨?_, fun fuel' hf' => ?_, fun hb => absurd hb nb⟩
          · rw [e]
            intro h
            cases h
          · obtain ⟨j, rfl⟩ : ∃ j, fuel' = j + 1 := ⟨fuel' - 1, by omega⟩
            rw [e, e]
      · have e : ∀ j : Nat, get_loop T t (j + 1) l r L R = .error .outOfRange := by
          intro j
          rw [hstep, eP]
          rfl
        refine ⟨?_, fun fuel' hf' => ?_, fun hb => absurd hb nb⟩
        · rw [e]
          intro h
          cases h
        · obtain ⟨j, rfl⟩ : ∃ j, fuel' = j + 1 := ⟨fuel' - 1, by omega⟩
          rw [e, e]
    · have e : ∀ f : Nat, r < f → get_loop T t f l r L R = .ok (T.unite L R) := by
        intro f hf'
        obtain ⟨j, rfl⟩ : ∃ j, f = j + 1 := ⟨f - 1, by omega⟩
        rw [get_loop, if_neg hlt]
      refine ⟨?_, fun fuel' hf' => by rw [e _ hf', e _ hf], fun _ => ⟨_, e _ hf⟩⟩
      rw [e _ hf]
      intro h
      cases h

lemma wr_error {α : Type} {t : List α} {i : Int} {a : α} {f : Fault}
    (h : wr t i a = .error f) : f = .outOfRange := by
  unfold wr at h
  split at h
  · cases h
  · cases h
    rfl

/-- The loop of `modify` ends: with more fuel than `p` it does not run out, more fuel changes
nothing, and it returns when the pair of siblings of the starting slot is allocated. -/
lemma modify_loop_ends (T : SegtreeNodeConcept N M) :
    ∀ (fuel : Nat) (t : List N) (c : Int), 0 ≤ c → c < fuel →
      modify_loop T fuel t c ≠ .error .outOfFuel ∧
      (∀ fuel' : Nat, c < fuel' → modify_loop T fuel' t c = modify_loop T fuel t c) ∧
      (2 * (c / 2) + 1 < t.length →
        ∃ u, modify_loop T fuel t c = .ok u ∧ u.length = t.length) := by
  intro fuel
  induction fuel with
  | zero => intro t c h0 hf; omega
  | succ k ih =>
    intro t c h0 hf
    by_cases hp : c / 2 ≠ 0
    · have hstep : ∀ j : Nat, modify_loop T (j + 1) t c =
          (rd t (2 * (c / 2)) >>= fun a => rd t (2 * (c / 2) + 1) >>= fun b =>
            wr t (c / 2) (T.unite a b)) >>= fun t' => modify_loop T j t' (c / 2) := by
        intro j
        rw [modify_loop]
        simp only [if_pos hp]
        cases rd t (2 * (c / 2)) with
        | error f => rfl
        | ok a =>
          cases rd t (2 * (c / 2) + 1) with
          | error f => rfl
          | ok b => rfl
      have hS : (∃ t' : List N, (rd t (2 * (c / 2)) >>= fun a =>
            rd t (2 * (c / 2) + 1) >>= fun b => wr t (c / 2) (T.unite a b)) = Except.ok t' ∧
            t'.length = t.length) ∨
          ((rd t (2 * (c / 2)) >>= fun a => rd t (2 * (c / 2) + 1) >>= fun b =>
            wr t (c / 2) (T.unite a b)) = .error .outOfRange ∧
            ¬ 2 * (c / 2) + 1 < t.length) := by
        by_cases hb : 2 * (c / 2) + 1 < t.length
        · obtain ⟨a, ha⟩ := rd_of_bounds (t := t) (i := 2 * (c / 2)) (by omega) (by omega)
          obtain ⟨b, hb'⟩ := rd_of_bounds (t := t) (i := 2 * (c / 2) + 1) (by omega)
            (by omega)
          obtain ⟨u, hu, len, _, _⟩ := wr_spec (t := t) (i := c / 2) (T.unite a b)
            (by omega) (by omega)
          refine Or.inl ⟨u, ?_, len⟩
          rw [ha, hb']
          exact hu
        · refine Or.inr ⟨?_, hb⟩
          cases ea : rd t (2 * (c / 2)) with
          | error f =>
            have := rd_error ea
            subst this
            rfl
          | ok a =>
            cases eb : rd t (2 * (c / 2) + 1) with
            | error f =>
              have := rd_error eb
              subst this
              rfl
            | ok b =>
              have := (rd_ok_bounds eb).2
              omega
      rcases hS with ⟨t', eS, len⟩ | ⟨eS, nb⟩
      · have e : ∀ j : Nat, modify_loop T (j + 1) t c = modify_loop T j t' (c / 2) := by
          intro j
          rw [hstep, eS]
          rfl
        obtain ⟨i₁, i₂, i₃⟩ := ih t' (c / 2) (by omega) (by omega)
        refine ⟨?_, fun fuel' hf' => ?_, fun hb => ?_⟩
        · rw [e]
          exact i₁
        · obtain ⟨j, rfl⟩ : ∃ j, fuel' = j + 1 := ⟨fuel' - 1, by omega⟩
          rw [e, e, i₂ j (by omega)]
        · rw [e]
          obtain ⟨u, hu, hl⟩ := i₃ (by rw [len]; omega)
          exact ⟨u, hu, hl.trans len⟩
      · have e : ∀ j : Nat, modify_loop T (j + 1) t c = .error .outOfRange := by
          intro j
          rw [hstep, eS]
          rfl
        refine ⟨?_, fun fuel' hf' => ?_, fun hb => absurd hb nb⟩
        · rw [e]
          intro h
          cases h
        · obtain ⟨j, rfl⟩ : ∃ j, fuel' = j + 1 := ⟨fuel' - 1, by omega⟩
          rw [e, e]
    · have e : ∀ j : Nat, modify_loop T (j + 1) t c = .ok t := by
        intro j
        rw [modify_loop]
        simp only [if_neg hp]
      refine ⟨?_, fun fuel' hf' => ?_, fun _ => ⟨t, e k, rfl⟩⟩
      · rw [e]
        intro h
        cases h
      · obtain ⟨j, rfl⟩ : ∃ j, fuel' = j + 1 := ⟨fuel' - 1, by omega⟩
        rw [e, e]

end bottom_up

/-! ## Where the arithmetic of `long long` is not representable -/

/-- What the 64-bit arithmetic gives where a sum or a product is not representable (signed
overflow, which is undefined behaviour in C++; the values are those of two's-complement
wrap-around). Construction from `[2^62, 2^62]` stores `-2^63` in the root.  On `[1, 2]` the
call `modify(0, 1, LLONG_MAX)`, which is not `sentinel_free`, stores `data = -2` in the root
together with `set_value = NO_LAZY`, which reads as nothing pending: `get(0)` then returns
the old leaf, and `get(0, 1)` returns `-2` before that `get(0)` and `3` after it. -/
lemma overflow_examples :
    tourist_like.segtree.new_values sum_segtree_node.concept
        [4611686018427387904, 4611686018427387904] =
      .ok ⟨2, [⟨-9223372036854775808, NO_LAZY⟩,
        ⟨4611686018427387904, 4611686018427387904⟩,
        ⟨4611686018427387904, 4611686018427387904⟩]⟩ ∧
    ¬ int64 (4611686018427387904 + 4611686018427387904) ∧
    ¬ tourist_like.sentinel_free 2 0 1 NO_LAZY ∧
    tourist_like.segtree.modify sum_segtree_node.concept
        ⟨2, [⟨3, NO_LAZY⟩, ⟨1, 1⟩, ⟨2, 2⟩]⟩ 0 1 NO_LAZY =
      .ok () ⟨2, [⟨-2, NO_LAZY⟩, ⟨1, 1⟩, ⟨2, 2⟩]⟩ ∧
    tourist_like.segtree.get sum_segtree_node.concept
        ⟨2, [⟨-2, NO_LAZY⟩, ⟨1, 1⟩, ⟨2, 2⟩]⟩ 0 1 =
      .ok ⟨-2, NO_LAZY⟩ ⟨2, [⟨-2, NO_LAZY⟩, ⟨1, 1⟩, ⟨2, 2⟩]⟩ ∧
    tourist_like.segtree.get_point sum_segtree_node.concept
        ⟨2, [⟨-2, NO_LAZY⟩, ⟨1, 1⟩, ⟨2, 2⟩]⟩ 0 =
      .ok ⟨1, 1⟩ ⟨2, [⟨3, NO_LAZY⟩, ⟨1, 1⟩, ⟨2, 2⟩]⟩ ∧
    tourist_like.segtree.get sum_segtree_node.concept
        ⟨2, [⟨3, NO_LAZY⟩, ⟨1, 1⟩, ⟨2, 2⟩]⟩ 0 1 =
      .ok ⟨3, NO_LAZY⟩ ⟨2, [⟨3, NO_LAZY⟩, ⟨1, 1⟩, ⟨2, 2⟩]⟩ := by
  decide

/-! ## Claims about the recursive engine with `sum_segtree_node` -/

open tourist_like in
/-- **C1.** Recursive engine with the sum-with-range-assign node: for every non-empty initial
array `values` and every finite sequence of `modify(l, r, v)` and `get(l, r)` calls with
`0 ≤ l ≤ r ≤ n - 1` and `v` a 32-bit integer, the construction and every call return, and
(i) with the arithmetic of the node taken over unbounded integers, the `data` of the results
of the `get` calls are the sums over `[l, r]` of a plain array on which the same assignments
were replayed; (ii) with the 64-bit arithmetic of the source, they are these sums reduced to
`long long`, and the sums themselves when the initial array is one of 32-bit integers with
at most `INT_MAX` elements. -/
theorem C1_engine_matches_plain_array (values : List Int) (ops : List Op)
    (hne : values ≠ []) (hops : ∀ op ∈ ops, op.valid values.length) :
    (∃ s, segtree.new_values sum_segtree_node.concept_unbounded values = .ok s ∧
      engine_run sum_segtree_node.concept_unbounded s ops = some (naive_run values ops)) ∧
    (∃ s, segtree.new_values sum_segtree_node.concept values = .ok s ∧
      engine_run sum_segtree_node.concept s ops = some ((naive_run values ops).map wrap64) ∧
      ((∀ x ∈ values, -2147483648 ≤ x ∧ x ≤ 2147483647) → values.length ≤ 2147483647 →
        engine_run sum_segtree_node.concept s ops = some (naive_run values ops))) := by
  refine ⟨?_, ?_⟩
  · obtain ⟨s, e, hr⟩ := represents_new_values reduction_id hne
    refine ⟨s, e, ?_⟩
    have := run_represents reduction_id ops s values hr (by rw [hr.1]; exact hops)
    rw [List.map_id] at this
    exact this
  · obtain ⟨s, e, hr⟩ := represents_new_values reduction_wrap64 hne
    have hrun := run_represents reduction_wrap64 ops s values hr (by rw [hr.1]; exact hops)
    refine ⟨s, e, hrun, fun hv hlen => ?_⟩
    rw [concept_eq, hrun]
    congr 1
    have hfit := naive_run_fits ops values
      (fun p hp => by
        by_cases hlt : p.toNat < values.length
        · have := hv _ (List.getElem_mem hlt)
          rwa [List.getD_eq_getElem?_getD, List.getElem?_eq_getElem hlt, Option.getD_some]
        · rw [List.getD_eq_getElem?_getD, List.getElem?_eq_none (by omega)]
          exact ⟨by decide, by decide⟩)
      (by omega) hops
    calc (naive_run values ops).map wrap64 = (naive_run values ops).map id :=
          List.map_congr_left fun y hy => wrap64_of_int64 (hfit y hy)
      _ = naive_run values ops := List.map_id _

/-- The scenario of the tests for C1: on `[1, 2, 3, 4, 5]`, `get(0, 4)`, `modify(1, 3, 10)`,
`get(1, 3)`, `get(0, 4)`. -/
theorem C1_engine_matches_plain_array_witness :
    (∃ s, tourist_like.segtree.new_values sum_segtree_node.concept_unbounded [1, 2, 3, 4, 5]
        = .ok s ∧
      engine_run sum_segtree_node.concept_unbounded s
          [.get 0 4, .modify 1 3 10, .get 1 3, .get 0 4] =
        some (naive_run [1, 2, 3, 4, 5] [.get 0 4, .modify 1 3 10, .get 1 3, .get 0 4])) ∧
    (∃ s, tourist_like.segtree.new_values sum_segtree_node.concept [1, 2, 3, 4, 5] = .ok s ∧
      engine_run sum_segtree_node.concept s [.get 0 4, .modify 1 3 10, .get 1 3, .get 0 4] =
        some ((naive_run [1, 2, 3, 4, 5]
          [.get 0 4, .modify 1 3 10, .get 1 3, .get 0 4]).map wrap64) ∧
      ((∀ x ∈ ([1, 2, 3, 4, 5] : List Int), -2147483648 ≤ x ∧ x ≤ 2147483647) →
        ([1, 2, 3, 4, 5] : List Int).length ≤ 2147483647 →
        engine_run sum_segtree_node.concept s
            [.get 0 4, .modify 1 3 10, .get 1 3, .get 0 4] =
          some (naive_run [1, 2, 3, 4, 5]
            [.get 0 4, .modify 1 3 10, .get 1 3, .get 0 4]))) :=
  C1_engine_matches_plain_array [1, 2, 3, 4, 5] [.get 0 4, .modify 1 3 10, .get 1 3, .get 0 4]
    (by decide) (by simp [Op.valid])

open tourist_like in
/-- **C2.** Recursive engine with the sum-with-range-assign node: immediately after
construction from a non-empty sequence `values` of `long long` values, for every
`0 ≤ l ≤ r ≤ n - 1` the call `get(l, r)` returns and its `data` is `values[l] + ... +
values[r]` computed in `long long`: the sum itself whenever the sum is representable, and its
64-bit representative in general; in particular `get(i, i).data` is `values[i]`. -/
theorem C2_get_after_construction (values : List Int) (hne : values ≠ [])
    (hval : ∀ x ∈ values, int64 x) (l r : Int)
    (h : 0 ≤ l ∧ l ≤ r ∧ r ≤ (values.length : Int) - 1) :
    ∃ s res s', segtree.new_values sum_segtree_node.concept values = .ok s ∧
      segtree.get sum_segtree_node.concept s l r = .ok res s' ∧
      (int64 ((values.drop l.toNat).take (r + 1 - l).toNat).sum →
        res.data = ((values.drop l.toNat).take (r + 1 - l).toNat).sum) ∧
      res.data = wrap64 ((values.drop l.toNat).take (r + 1 - l).toNat).sum ∧
      (l = r → values[l.toNat]? = some res.data) := by
  obtain ⟨s, e, hr⟩ := represents_new_values reduction_wrap64 hne
  have hn : s.n = values.length := hr.1
  obtain ⟨res, s', e', hd, _⟩ := represents_get reduction_wrap64 hr (l := l) (r := r)
    (by omega)
  have hsl := naive_sum_eq_slice values h.1 h.2.1 (by omega)
  rw [hsl] at hd
  refine ⟨s, res, s', e, e', fun hfit => by rw [hd, wrap64_of_int64 hfit], hd, fun hlr => ?_⟩
  subst hlr
  have hlt : l.toNat < values.length := by omega
  rw [hd, show (l + 1 - l).toNat = 1 by omega, List.drop_eq_getElem_cons hlt,
    List.getElem?_eq_getElem hlt, List.take_succ_cons, List.take_zero, List.sum_cons,
    List.sum_nil, add_zero, wrap64_of_int64 (hval _ (List.getElem_mem hlt))]

/-- The test `RangeQuery` for C2: on `[1, 2, 3, 4, 5]`, `get(1, 3)`. -/
theorem C2_get_after_construction_witness :
    (∀ x ∈ ([1, 2, 3, 4, 5] : List Int), int64 x) ∧
    ∃ s res s', tourist_like.segtree.new_values sum_segtree_node.concept [1, 2, 3, 4, 5]
        = .ok s ∧
      tourist_like.segtree.get sum_segtree_node.concept s 1 3 = .ok res s' ∧
      (int64 ((([1, 2, 3, 4, 5] : List Int).drop (1 : Int).toNat).take
          ((3 : Int) + 1 - 1).toNat).sum →
        res.data = ((([1, 2, 3, 4, 5] : List Int).drop (1 : Int).toNat).take
          ((3 : Int) + 1 - 1).toNat).sum) ∧
      res.data = wrap64 ((([1, 2, 3, 4, 5] : List Int).drop (1 : Int).toNat).take
        ((3 : Int) + 1 - 1).toNat).sum ∧
      ((1 : Int) = 3 → ([1, 2, 3, 4, 5] : List Int)[(1 : Int).toNat]? = some res.data) :=
  ⟨by decide, C2_get_after_construction [1, 2, 3, 4, 5] (by decide) (by decide) 1 3
    (by decide)⟩

open tourist_like in
/-- **C4.** Recursive engine with the sum-with-range-assign node: in every state reachable
from construction, `modify(l, r, v)` with `0 ≤ l ≤ r ≤ n - 1` leaves every element outside
`[l, r]` unchanged: for `p` in `[0, n - 1]` with `p < l` or `p > r`, the `data` of
`get(p, p)` after the `modify` is the `data` of `get(p, p)` before it, both when the first
`get` is only considered (it is not part of the run) and when it is really executed before
the `modify`. -/
theorem C4_modify_keeps_outside (s : segtree sum_segtree_node)
    (hs : Reachable sum_segtree_node.concept s) (l r v p : Int)
    (h : 0 ≤ l ∧ l ≤ r ∧ r ≤ s.n - 1) (hp : 0 ≤ p ∧ p ≤ s.n - 1) (hout : p < l ∨ r < p) :
    ∃ before s₀ s₁ after s₂ s₁' after' s₂',
      segtree.get sum_segtree_node.concept s p p = .ok before s₀ ∧
      segtree.modify sum_segtree_node.concept s l r v = .ok () s₁ ∧
      segtree.get sum_segtree_node.concept s₁ p p = .ok after s₂ ∧
      after.data = before.data ∧
      segtree.modify sum_segtree_node.concept s₀ l r v = .ok () s₁' ∧
      segtree.get sum_segtree_node.concept s₁' p p = .ok after' s₂' ∧
      after'.data = before.data := by
  obtain ⟨hn, a, F, H⟩ := hs.laid
  rw [concept_eq]
  -- the first `get`
  obtain ⟨u₀, e₀, H₀⟩ := get_spec (sum_segtree_node.concept_with wrap64) hn H p p
    (by omega)
  obtain ⟨g₁, g₂, _⟩ := getF_sum wrap64 (a := a) p p H.shape (by omega) (by omega) le_rfl
  -- `modify` on the state before the first `get`
  obtain ⟨u₁, e₁, H₁⟩ := modify_spec (sum_segtree_node.concept_with wrap64) hn H l r v h
  obtain ⟨m₁, _, _⟩ := modifyF_sum wrap64 (a := a) l r v s.n.toNat H.shape (by omega) (by omega)
    (by omega) (by omega)
  obtain ⟨u₂, e₂, _⟩ := get_spec (sum_segtree_node.concept_with wrap64) (s := ⟨s.n, u₁⟩) hn H₁
    p p (by dsimp only; omega)
  obtain ⟨_, k₂, _⟩ := getF_sum wrap64
    (a := (modifyF (sum_segtree_node.concept_with wrap64) a F 0 (s.n - 1) l r v).1) (l := 0)
    (r := s.n - 1) p p H₁.shape (by omega) (by omega) le_rfl
  -- `modify` on the state after the first `get`
  obtain ⟨u₁', e₁', H₁'⟩ := modify_spec (sum_segtree_node.concept_with wrap64) (s := ⟨s.n, u₀⟩) hn H₀
    l r v h
  obtain ⟨m₁', _, _⟩ := modifyF_sum wrap64
    (a := (getF (sum_segtree_node.concept_with wrap64) a F 0 (s.n - 1) p p).2.1) (l := 0)
    (r := s.n - 1) l r v s.n.toNat H₀.shape (by omega) (by omega) (by omega) (by omega)
  obtain ⟨u₂', e₂', _⟩ := get_spec (sum_segtree_node.concept_with wrap64) (s := ⟨s.n, u₁'⟩) hn H₁'
    p p (by dsimp only; omega)
  obtain ⟨_, k₂', _⟩ := getF_sum wrap64
    (a := (modifyF (sum_segtree_node.concept_with wrap64)
      (getF (sum_segtree_node.concept_with wrap64) a F 0 (s.n - 1) p p).2.1
      (getF (sum_segtree_node.concept_with wrap64) a F 0 (s.n - 1) p p).2.2 0 (s.n - 1) l r v).1)
    (l := 0) (r := s.n - 1) p p H₁'.shape (by omega) (by omega) le_rfl
  refine ⟨_, _, _, _, _, _, _, _, e₀, e₁, e₂, ?_, e₁', e₂', ?_⟩
  · rw [k₂ rfl, g₂ rfl, m₁ p hp.1 hp.2 hout]
  · rw [k₂' rfl, g₂ rfl, m₁' p hp.1 hp.2 hout, g₁ p hp.1 hp.2]

/-- The test `RangeUpdate` for C4: on `[1, 1, 1, 1, 1, 1, 1]`, `modify(1, 5, 5)` and the
element `6`. -/
theorem C4_modify_keeps_outside_witness :
    ∃ before s₀ s₁ after s₂ s₁' after' s₂',
      tourist_like.segtree.get sum_segtree_node.concept
        ⟨7, [⟨7, NO_LAZY⟩, ⟨4, NO_LAZY⟩, ⟨2, NO_LAZY⟩, ⟨1, 1⟩, ⟨1, 1⟩, ⟨2, NO_LAZY⟩, ⟨1, 1⟩,
          ⟨1, 1⟩, ⟨3, NO_LAZY⟩, ⟨2, NO_LAZY⟩, ⟨1, 1⟩, ⟨1, 1⟩, ⟨1, 1⟩]⟩ 6 6 = .ok before s₀ ∧
      tourist_like.segtree.modify sum_segtree_node.concept
        ⟨7, [⟨7, NO_LAZY⟩, ⟨4, NO_LAZY⟩, ⟨2, NO_LAZY⟩, ⟨1, 1⟩, ⟨1, 1⟩, ⟨2, NO_LAZY⟩, ⟨1, 1⟩,
          ⟨1, 1⟩, ⟨3, NO_LAZY⟩, ⟨2, NO_LAZY⟩, ⟨1, 1⟩, ⟨1, 1⟩, ⟨1, 1⟩]⟩ 1 5 5 = .ok () s₁ ∧
      tourist_like.segtree.get sum_segtree_node.concept s₁ 6 6 = .ok after s₂ ∧
      after.data = before.data ∧
      tourist_like.segtree.modify sum_segtree_node.concept s₀ 1 5 5 = .ok () s₁' ∧
      tourist_like.segtree.get sum_segtree_node.concept s₁' 6 6 = .ok after' s₂' ∧
      after'.data = before.data :=
  C4_modify_keeps_outside _
    (tourist_like.Reachable.new_values (v := [1, 1, 1, 1, 1, 1, 1]) (by decide)) 1 5 5 6
    (by decide) (by decide) (by decide)

/-! ## Claims about the recursive engine for any node type -/

open tourist_like in
/-- **C5.** Recursive engine, node type without `push` whose `unite` is associative (and not
necessarily commutative): after construction from a non-empty sequence `values`, for every
`0 ≤ l ≤ r ≤ n - 1` the call `get(l, r)` returns the left-to-right fold
`unite(leaf_l, unite(leaf_{l+1}, ... leaf_r))`, where `leaf_i` is the default node after
`apply(i, i, values[i])`. -/
theorem C5_get_is_left_to_right_fold {N M : Type} (T : SegtreeNodeConcept N M)
    (hpush : T.push = none)
    (hassoc : ∀ a b c : N, T.unite (T.unite a b) c = T.unite a (T.unite b c))
    (values : List M) (hne : values ≠ []) (l r : Int)
    (h : 0 ≤ l ∧ l ≤ r ∧ r ≤ (values.length : Int) - 1) :
    ∃ s s', segtree.new_values T values = .ok s ∧
      segtree.get T s l r = .ok (foldr_unite T (leaf_of T values) l (r - l).toNat) s' := by
  obtain ⟨s, e, hn, he⟩ := eager_new_values T hne
  obtain ⟨s', e', _⟩ := eager_get T hpush hassoc he l r (by omega)
  exact ⟨s, s', e, e'⟩

/-- C5 for list concatenation on `[1, 2, 3, 4, 5]` and the range `[1, 3]`, which is split
over three vertices. -/
theorem C5_get_is_left_to_right_fold_witness :
    ∃ s s', tourist_like.segtree.new_values concat_node [1, 2, 3, 4, 5] = .ok s ∧
      tourist_like.segtree.get concat_node s 1 3 =
        .ok (tourist_like.foldr_unite concat_node
          (tourist_like.leaf_of concat_node [1, 2, 3, 4, 5]) 1 ((3 : Int) - 1).toNat) s' :=
  C5_get_is_left_to_right_fold concat_node rfl (fun a b c => List.append_assoc a b c)
    [1, 2, 3, 4, 5] (by decide) 1 3 (by decide)

open tourist_like in
/-- **C6 (as amended).** Recursive engine, node type without `push` whose `unite` is
associative: on a tree whose internal vertices are the `unite` of their children (as after
construction) a point update `modify(p, p, v)` with `0 ≤ p ≤ n - 1` returns; afterwards the
leaf of `p` holds `apply(p, p, v)` applied to its previous node, the other leaves are
unchanged, every internal vertex is again the `unite` of its children, and every later
`get(l, r)` returns the left-to-right fold of the updated leaves. -/
theorem C6_point_modify_without_push {N M : Type} (T : SegtreeNodeConcept N M)
    (hpush : T.push = none)
    (hassoc : ∀ a b c : N, T.unite (T.unite a b) c = T.unite a (T.unite b c))
    (s : segtree N) (f : Int → N) (h : Eager T s f) (p : Int) (v : M)
    (hp : 0 ≤ p ∧ p ≤ s.n - 1) :
    ∃ s₁, segtree.modify T s p p v = .ok () s₁ ∧
      Eager T s₁ (Function.update f p (T.apply p p v (f p))) ∧
      ∀ l r : Int, 0 ≤ l ∧ l ≤ r ∧ r ≤ s.n - 1 →
        ∃ s₂, segtree.get T s₁ l r =
          .ok (foldr_unite T (Function.update f p (T.apply p p v (f p))) l (r - l).toNat)
            s₂ := by
  obtain ⟨s₁, e, hn, he⟩ := eager_modify_point T hpush h p v hp
  refine ⟨s₁, e, he, fun l r hr => ?_⟩
  obtain ⟨s₂, e', _⟩ := eager_get T hpush hassoc he l r (by omega)
  exact ⟨s₂, e'⟩

/-- C6 as amended on the tree built from `[1, 2, 3]` with the node `plain_sum_node`, for
`modify(1, 1, 10)`. -/
theorem C6_point_modify_without_push_witness :
    ∃ s₁, tourist_like.segtree.modify plain_sum_node ⟨3, [6, 3, 1, 2, 3]⟩ 1 1 10
        = .ok () s₁ ∧
      tourist_like.Eager plain_sum_node s₁
        (Function.update (tourist_like.leaf_of plain_sum_node [1, 2, 3]) 1
          (plain_sum_node.apply 1 1 10 (tourist_like.leaf_of plain_sum_node [1, 2, 3] 1))) ∧
      ∀ l r : Int, 0 ≤ l ∧ l ≤ r ∧ r ≤ (3 : Int) - 1 →
        ∃ s₂, tourist_like.segtree.get plain_sum_node s₁ l r =
          .ok (tourist_like.foldr_unite plain_sum_node
            (Function.update (tourist_like.leaf_of plain_sum_node [1, 2, 3]) 1
              (plain_sum_node.apply 1 1 10
                (tourist_like.leaf_of plain_sum_node [1, 2, 3] 1))) l (r - l).toNat) s₂ :=
  C6_point_modify_without_push plain_sum_node rfl (fun a b c => add_assoc a b c)
    ⟨3, [6, 3, 1, 2, 3]⟩ (tourist_like.leaf_of plain_sum_node [1, 2, 3])
    (by
      obtain ⟨s, e, _, he⟩ := tourist_like.eager_new_values plain_sum_node
        (v := [1, 2, 3]) (by decide)
      have hs : s = ⟨3, [6, 3, 1, 2, 3]⟩ := Except.ok.inj (e.symm.trans (by decide))
      rw [← hs]
      exact he)
    1 10 (by decide)

/-- C6 as stated fails for a range update: with the node `plain_sum_node` (no `push`), on
the tree built from `[1, 2]`, `modify(0, 1, 5)` applies `apply(0, 1, 5)` to the root and
returns without descending; the leaves still hold `1` and `2`, not `apply(p, p, 5) = 5`,
and a later `get(0)` returns `1`. -/
theorem C6_counterexample :
    tourist_like.segtree.new_values plain_sum_node [1, 2] = .ok ⟨2, [3, 1, 2]⟩ ∧
      tourist_like.segtree.modify plain_sum_node ⟨2, [3, 1, 2]⟩ 0 1 5 =
        .ok () ⟨2, [10, 1, 2]⟩ ∧
      plain_sum_node.apply 0 0 5 1 = 5 ∧
      tourist_like.segtree.get_point plain_sum_node ⟨2, [10, 1, 2]⟩ 0 =
        .ok 1 ⟨2, [3, 1, 2]⟩ := by
  decide

open tourist_like in
/-- **C7.** Recursive engine with the sum-with-range-assign node: in every state reachable
from construction and for every `0 ≤ l ≤ r ≤ n - 1`, two calls `get(l, r)` in succession
both return, and they return the same node. -/
theorem C7_get_twice (s : segtree sum_segtree_node)
    (hs : Reachable sum_segtree_node.concept s) (l r : Int)
    (h : 0 ≤ l ∧ l ≤ r ∧ r ≤ s.n - 1) :
    ∃ res s₁ s₂, segtree.get sum_segtree_node.concept s l r = .ok res s₁ ∧
      segtree.get sum_segtree_node.concept s₁ l r = .ok res s₂ := by
  obtain ⟨hn, a, F, H⟩ := hs.laid
  obtain ⟨u₁, e₁, H₁⟩ := get_spec sum_segtree_node.concept hn H l r h
  obtain ⟨u₂, e₂, _⟩ := get_spec sum_segtree_node.concept (s := ⟨s.n, u₁⟩) hn H₁
    l r h
  rw [getF_idem sum_segtree_node.concept (push_after_pull_sum wrap64) l r H.shape (by omega)
    (by omega) h.2.1] at e₂
  exact ⟨_, _, _, e₁, e₂⟩

/-- C7 on the state reached from `[1, 2, 3]` by `modify(0, 2, 10)`, where the first
`get(1, 1)` pushes the pending assignment of the root. -/
theorem C7_get_twice_witness :
    ∃ res s₁ s₂,
      tourist_like.segtree.get sum_segtree_node.concept
        ⟨3, [⟨30, 10⟩, ⟨3, NO_LAZY⟩, ⟨1, 1⟩, ⟨2, 2⟩, ⟨3, 3⟩]⟩ 1 1 = .ok res s₁ ∧
      tourist_like.segtree.get sum_segtree_node.concept s₁ 1 1 = .ok res s₂ :=
  C7_get_twice _
    (@tourist_like.Reachable.modify _ _ sum_segtree_node.concept
      ⟨3, [⟨6, NO_LAZY⟩, ⟨3, NO_LAZY⟩, ⟨1, 1⟩, ⟨2, 2⟩, ⟨3, 3⟩]⟩ _ 0 2 10
      (tourist_like.Reachable.new_values (v := [1, 2, 3]) (by decide))
      (by decide)) 1 1 (by decide)

open tourist_like in
/-- **C8.** Recursive engine: construction fails (on its `assert`) iff the size is not
positive, which includes construction from an empty sequence; in every reachable state
`get(l, r)` and `modify(l, r, v)` fail iff not `0 ≤ l ≤ r ≤ n - 1` and `get(p)` fails iff not
`0 ≤ p ≤ n - 1`, and they return otherwise; a failing `get` / `modify` stops on the `assert`
with the state `s` it was called on, before any slot of the tree is read or written. -/
theorem C8_precondition_failures {N M : Type} (T : SegtreeNodeConcept N M) (s : segtree N)
    (hs : Reachable T s) :
    (∀ n : Int, (0 < n → ∃ s', segtree.new T n = .ok s') ∧
      (¬ 0 < n → segtree.new T n = .error .assertion)) ∧
    (∀ v : List M, (v ≠ [] → ∃ s', segtree.new_values T v = .ok s') ∧
      (v = [] → segtree.new_values T v = .error .assertion)) ∧
    (∀ ll rr : Int, (0 ≤ ll ∧ ll ≤ rr ∧ rr ≤ s.n - 1 → ∃ a s', segtree.get T s ll rr = .ok a s') ∧
      (¬ (0 ≤ ll ∧ ll ≤ rr ∧ rr ≤ s.n - 1) → segtree.get T s ll rr = .assertFail s)) ∧
    (∀ (ll rr : Int) (v : M),
      (0 ≤ ll ∧ ll ≤ rr ∧ rr ≤ s.n - 1 → ∃ s', segtree.modify T s ll rr v = .ok () s') ∧
      (¬ (0 ≤ ll ∧ ll ≤ rr ∧ rr ≤ s.n - 1) → segtree.modify T s ll rr v = .assertFail s)) ∧
    (∀ p : Int, (0 ≤ p ∧ p ≤ s.n - 1 → ∃ a s', segtree.get_point T s p = .ok a s') ∧
      (¬ (0 ≤ p ∧ p ≤ s.n - 1) → segtree.get_point T s p = .assertFail s)) := by
  obtain ⟨hn, a, F, H⟩ := hs.laid
  refine ⟨fun n => ⟨fun h => ?_, fun h => ?_⟩, fun v => ⟨fun h => ?_, fun h => ?_⟩,
    fun ll rr => ⟨fun h => ?_, fun h => ?_⟩, fun ll rr v => ⟨fun h => ?_, fun h => ?_⟩,
    fun p => ⟨fun h => ?_, fun h => ?_⟩⟩
  · obtain ⟨t, _, _, e, _⟩ := new_spec T h
    exact ⟨_, e⟩
  · simp only [segtree.new, if_neg h]
  · obtain ⟨t, _, _, e, _⟩ := new_values_spec T h
    exact ⟨_, e⟩
  · subst h
    rfl
  · obtain ⟨u, e, _⟩ := get_spec T hn H ll rr h
    exact ⟨_, _, e⟩
  · simp only [segtree.get, if_neg h]
  · obtain ⟨u, e, _⟩ := modify_spec T hn H ll rr v h
    exact ⟨_, e⟩
  · simp only [segtree.modify, if_neg h]
  · obtain ⟨u, e, _⟩ := get_point_spec T hn H p h
    exact ⟨_, _, e⟩
  · simp only [segtree.get_point, if_neg h]

/-- C8 for `sum_segtree_node` on the state built from `[1, 2, 3]`. -/
theorem C8_precondition_failures_witness :
    (∀ n : Int, (0 < n → ∃ s', tourist_like.segtree.new sum_segtree_node.concept n = .ok s') ∧
      (¬ 0 < n → tourist_like.segtree.new sum_segtree_node.concept n = .error .assertion)) ∧
    (∀ v : List Int,
      (v ≠ [] → ∃ s', tourist_like.segtree.new_values sum_segtree_node.concept v = .ok s') ∧
      (v = [] →
        tourist_like.segtree.new_values sum_segtree_node.concept v = .error .assertion)) ∧
    (∀ ll rr : Int,
      (0 ≤ ll ∧ ll ≤ rr ∧ rr ≤ (3 : Int) - 1 → ∃ a s',
        tourist_like.segtree.get sum_segtree_node.concept
          ⟨3, [⟨6, NO_LAZY⟩, ⟨3, NO_LAZY⟩, ⟨1, 1⟩, ⟨2, 2⟩, ⟨3, 3⟩]⟩ ll rr = .ok a s') ∧
      (¬ (0 ≤ ll ∧ ll ≤ rr ∧ rr ≤ (3 : Int) - 1) →
        tourist_like.segtree.get sum_segtree_node.concept
          ⟨3, [⟨6, NO_LAZY⟩, ⟨3, NO_LAZY⟩, ⟨1, 1⟩, ⟨2, 2⟩, ⟨3, 3⟩]⟩ ll rr =
          .assertFail ⟨3, [⟨6, NO_LAZY⟩, ⟨3, NO_LAZY⟩, ⟨1, 1⟩, ⟨2, 2⟩, ⟨3, 3⟩]⟩)) ∧
    (∀ (ll rr : Int) (v : Int),
      (0 ≤ ll ∧ ll ≤ rr ∧ rr ≤ (3 : Int) - 1 → ∃ s',
        tourist_like.segtree.modify sum_segtree_node.concept
          ⟨3, [⟨6, NO_LAZY⟩, ⟨3, NO_LAZY⟩, ⟨1, 1⟩, ⟨2, 2⟩, ⟨3, 3⟩]⟩ ll rr v = .ok () s') ∧
      (¬ (0 ≤ ll ∧ ll ≤ rr ∧ rr ≤ (3 : Int) - 1) →
        tourist_like.segtree.modify sum_segtree_node.concept
          ⟨3, [⟨6, NO_LAZY⟩, ⟨3, NO_LAZY⟩, ⟨1, 1⟩, ⟨2, 2⟩, ⟨3, 3⟩]⟩ ll rr v =
          .assertFail ⟨3, [⟨6, NO_LAZY⟩, ⟨3, NO_LAZY⟩, ⟨1, 1⟩, ⟨2, 2⟩, ⟨3, 3⟩]⟩)) ∧
    (∀ p : Int,
      (0 ≤ p ∧ p ≤ (3 : Int) - 1 → ∃ a s',
        tourist_like.segtree.get_point sum_segtree_node.concept
          ⟨3, [⟨6, NO_LAZY⟩, ⟨3, NO_LAZY⟩, ⟨1, 1⟩, ⟨2, 2⟩, ⟨3, 3⟩]⟩ p = .ok a s') ∧
      (¬ (0 ≤ p ∧ p ≤ (3 : Int) - 1) →
        tourist_like.segtree.get_point sum_segtree_node.concept
          ⟨3, [⟨6, NO_LAZY⟩, ⟨3, NO_LAZY⟩, ⟨1, 1⟩, ⟨2, 2⟩, ⟨3, 3⟩]⟩ p =
          .assertFail ⟨3, [⟨6, NO_LAZY⟩, ⟨3, NO_LAZY⟩, ⟨1, 1⟩, ⟨2, 2⟩, ⟨3, 3⟩]⟩)) :=
  C8_precondition_failures sum_segtree_node.concept
    ⟨3, [⟨6, NO_LAZY⟩, ⟨3, NO_LAZY⟩, ⟨1, 1⟩, ⟨2, 2⟩, ⟨3, 3⟩]⟩
    (tourist_like.Reachable.new_values (v := [1, 2, 3]) (by decide))

/-! ## Claims about the iterative engine -/

open bottom_up in
/-- **C9 (as amended).** Iterative engine, node type with associative `unite` and a default
node that is a two-sided identity of `unite`: in a state with `n ≥ 1` in which every internal
vertex `i` in `[1, n)` whose children are allocated holds `unite(tree[2i], tree[2i + 1])`,
for every `0 ≤ l ≤ r ≤ n` with the slots up to `n + r - 1` allocated, `get(l, r)` returns the
left-to-right `unite`-fold of the leaves of the half-open range `[l, r)` (element `r`
excluded), whether or not `n` is a power of two; in particular `get(p, p)` returns the
default node and `get(p, p + 1)` is `get(p)`. -/
theorem C9_get_folds_half_open_range {N M : Type} (T : SegtreeNodeConcept N M)
    (hassoc : ∀ a b c : N, T.unite (T.unite a b) c = T.unite a (T.unite b c))
    (hleft : ∀ a : N, T.unite T.dflt a = a) (hright : ∀ a : N, T.unite a T.dflt = a)
    (s : segtree N) (hn : 1 ≤ s.n) (hI : Inner T s) (l r : Int)
    (h : 0 ≤ l ∧ l ≤ r ∧ r ≤ s.n) (hlen : r + s.n ≤ s.tree.length) :
    segtree.get T s l r = .ok (leaves_fold T s l r) ∧
      (l = r → segtree.get T s l r = .ok T.dflt) ∧
      (r = l + 1 → segtree.get_point s l = segtree.get T s l r) := by
  have main : segtree.get T s l r = .ok (leaves_fold T s l r) := by
    unfold segtree.get
    rw [get_loop_spec T hassoc hleft hright s.tree _ (l + s.n) (r + s.n) T.dflt T.dflt
      (by omega) (by omega) hlen (by omega) fun i h1 h2 => hI i h1 (by omega) (by omega),
      hleft, hright, show (r + s.n - (l + s.n)).toNat = (r - l).toNat by omega]
    have := seg_eq_foldr T s.tree (r - l).toNat (l + s.n).toNat (by omega)
    rw [Int.toNat_of_nonneg (by omega)] at this
    rw [this]
    rfl
  refine ⟨main, fun hlr => ?_, fun hr => ?_⟩
  · rw [main, leaves_fold, show (r - l).toNat = 0 by omega]
    rfl
  · have hlt : (l + s.n).toNat < s.tree.length := by omega
    have hrd : rd s.tree (l + s.n) = .ok s.tree[(l + s.n).toNat] := by
      unfold rd
      rw [if_pos (by omega), List.getElem?_eq_getElem hlt]
    rw [main, leaves_fold, show (r - l).toNat = 1 by omega, List.drop_eq_getElem_cons hlt,
      List.take_succ_cons, List.take_zero, List.foldr_cons, List.foldr_nil, hright]
    exact hrd

/-- C9 as amended for list concatenation and `n = 5` (not a power of two), in the state that
`new(5)`, `modify(0, [1])`, `modify(1, [2])`, `modify(2, [3])` reach, for `get(0, 3)`. -/
theorem C9_get_folds_half_open_range_witness :
    bottom_up.segtree.get concat_node
        ⟨5, [[], [1, 2, 3], [1], [2, 3], [], [1], [2], [3], []]⟩ 0 3 =
        .ok (bottom_up.leaves_fold concat_node
          ⟨5, [[], [1, 2, 3], [1], [2, 3], [], [1], [2], [3], []]⟩ 0 3) ∧
      ((0 : Int) = 3 → bottom_up.segtree.get concat_node
        ⟨5, [[], [1, 2, 3], [1], [2, 3], [], [1], [2], [3], []]⟩ 0 3 =
        .ok concat_node.dflt) ∧
      ((3 : Int) = 0 + 1 → bottom_up.segtree.get_point
        (⟨5, [[], [1, 2, 3], [1], [2, 3], [], [1], [2], [3], []]⟩ :
          bottom_up.segtree (List Int)) 0 =
        bottom_up.segtree.get concat_node
          ⟨5, [[], [1, 2, 3], [1], [2, 3], [], [1], [2], [3], []]⟩ 0 3) :=
  C9_get_folds_half_open_range concat_node (fun a b c => List.append_assoc a b c)
    (fun a => List.nil_append a) (fun a => List.append_nil a)
    ⟨5, [[], [1, 2, 3], [1], [2, 3], [], [1], [2], [3], []]⟩ (by decide)
    (by
      intro i h1 h2 h3
      have h2' : i < 5 := h2
      have h3' : 2 * i + 1 < 9 := h3
      interval_cases i
      · exact ⟨_, _, rfl, rfl, rfl⟩
      · exact ⟨_, _, rfl, rfl, rfl⟩
      · exact ⟨_, _, rfl, rfl, rfl⟩
      · omega)
    0 3 (by decide) (by decide)

/-- C9 as stated fails.  For `n = 1`, `build([7])` runs neither loop, `get(0, 0)` returns the
default node `0` and not the leaf `apply(0, 0, 7) = 7`, and `get(0)` reads past the end.
After `new(3)` and `modify(0, 5)`, `get(0, 0)` returns the default node `0` while `get(0)`
returns `5`: the loop `l < r` treats `[l, r)` as half-open. -/
theorem C9_counterexample :
    bottom_up.segtree.new plain_sum_node 1 = .ok ⟨1, [0]⟩ ∧
      bottom_up.segtree.build plain_sum_node ⟨1, [0]⟩ [7] = .ok ⟨1, [0]⟩ ∧
      bottom_up.segtree.get plain_sum_node ⟨1, [0]⟩ 0 0 = .ok 0 ∧
      plain_sum_node.apply 0 0 7 plain_sum_node.dflt = 7 ∧
      bottom_up.segtree.get_point (⟨1, [0]⟩ : bottom_up.segtree Int) 0
        = .error .outOfRange ∧
      bottom_up.segtree.new plain_sum_node 3 = .ok ⟨3, [0, 0, 0, 0, 0]⟩ ∧
      bottom_up.segtree.modify plain_sum_node ⟨3, [0, 0, 0, 0, 0]⟩ 0 5
        = .ok ⟨3, [0, 5, 0, 5, 0]⟩ ∧
      bottom_up.segtree.get plain_sum_node ⟨3, [0, 5, 0, 5, 0]⟩ 0 0 = .ok 0 ∧
      bottom_up.segtree.get_point (⟨3, [0, 5, 0, 5, 0]⟩ : bottom_up.segtree Int) 0
        = .ok 5 := by
  decide

open bottom_up in
/-- **C10 (what the code does).** Iterative engine: `new(n)` with `n > 0` allocates
`2 * n - 1` slots, so the slot `2 * n - 1` of the leaf `n - 1` does not exist and `get(n - 1)`
reads past the end; `build(values)` with `len(values) = n ≥ 2` stops in the first iteration
of its second loop, which reads `tree[2 * n - 1]`, and with `n = 1` it runs neither loop and
leaves the only slot as it was. -/
theorem C10_build_reads_past_the_end {N M : Type} (T : SegtreeNodeConcept N M) (n : Int)
    (hn : 0 < n) (values : List M) (hlen : (values.length : Int) = n) :
    ∃ s, segtree.new T n = .ok s ∧ s.n = n ∧ (s.tree.length : Int) = 2 * n - 1 ∧
      segtree.get_point s (n - 1) = .error .outOfRange ∧
      (2 ≤ n → segtree.build T s values = .error .outOfRange) ∧
      (n = 1 → segtree.build T s values = .ok s) := by
  have hl : ((List.replicate (2 * n - 1).toNat T.dflt).length : Int) = 2 * n - 1 := by
    rw [List.length_replicate]
    omega
  refine ⟨⟨n, List.replicate (2 * n - 1).toNat T.dflt⟩, ?_, rfl, hl, ?_, fun h2 => ?_,
    fun h1 => ?_⟩
  · simp only [segtree.new, if_pos (show 0 ≤ 2 * n - 1 by omega)]
  · exact rd_out_of_range (t := List.replicate (2 * n - 1).toNat T.dflt) (i := n - 1 + n)
      (by rw [hl]; omega)
  · obtain ⟨u, hu, len⟩ := build_leaves_ok T n values hlen n.toNat
      (List.replicate (2 * n - 1).toNat T.dflt) n hl le_rfl (by omega) (by omega)
    obtain ⟨k, hk⟩ : ∃ k, n.toNat = k + 1 := ⟨n.toNat - 1, by omega⟩
    have hul : (u.length : Int) = 2 * n - 1 := by rw [len]; exact hl
    obtain ⟨a, ha⟩ := rd_of_bounds (t := u) (i := 2 * (n - 1)) (by omega) (by omega)
    have hb : rd u (2 * (n - 1) + 1) = .error .outOfRange :=
      rd_out_of_range (by rw [hul]; omega)
    simp only [segtree.build, hu, bind, Except.bind]
    rw [hk]
    simp only [build_inner, if_pos (show n - 1 > 0 by omega), ha, hb, bind, Except.bind]
  · subst h1
    rfl

/-- C10 on `n = 2` and the values `[7, 8]` with the node `plain_sum_node`. -/
theorem C10_build_reads_past_the_end_witness :
    ∃ s, bottom_up.segtree.new plain_sum_node 2 = .ok s ∧ s.n = 2 ∧
      (s.tree.length : Int) = 2 * 2 - 1 ∧
      bottom_up.segtree.get_point s (2 - 1) = .error .outOfRange ∧
      ((2 : Int) ≤ 2 → bottom_up.segtree.build plain_sum_node s [7, 8]
        = .error .outOfRange) ∧
      ((2 : Int) = 1 → bottom_up.segtree.build plain_sum_node s [7, 8] = .ok s) :=
  C10_build_reads_past_the_end plain_sum_node 2 (by decide) [7, 8] (by decide)

open bottom_up in
/-- **C11 (what the code does).** Iterative engine: in the state that `new(n)` leaves, with
`n > 0`, `modify(n - 1, v)` writes `tree[2 * n - 1]` past the end of the `2 * n - 1` slots,
and for `n ≥ 2` `modify(n - 2, v)` reads `tree[2 * n - 1]` when it recomputes the vertex
`n - 1`; for `n = 1` there is no internal vertex, so the hypothesis of the claim holds. -/
theorem C11_modify_past_the_end {N M : Type} (T : SegtreeNodeConcept N M) (n : Int)
    (hn : 0 < n) (v : N) :
    ∃ s, segtree.new T n = .ok s ∧ s.n = n ∧
      segtree.modify T s (n - 1) v = .error .outOfRange ∧
      (2 ≤ n → segtree.modify T s (n - 2) v = .error .outOfRange) ∧
      (n = 1 → Inner T s) := by
  have hl : ((List.replicate (2 * n - 1).toNat T.dflt).length : Int) = 2 * n - 1 := by
    rw [List.length_replicate]
    omega
  refine ⟨⟨n, List.replicate (2 * n - 1).toNat T.dflt⟩, ?_, rfl, ?_, fun h2 => ?_,
    fun h1 => ?_⟩
  · simp only [segtree.new, if_pos (show 0 ≤ 2 * n - 1 by omega)]
  · have e := wr_out_of_range (t := List.replicate (2 * n - 1).toNat T.dflt)
      (i := n - 1 + n) v (by rw [hl]; omega)
    simp only [segtree.modify, e, bind, Except.bind]
  · obtain ⟨t', e, len, _, _⟩ := wr_spec (t := List.replicate (2 * n - 1).toNat T.dflt)
      (i := n - 2 + n) v (by omega) (by omega)
    have hl' : (t'.length : Int) = 2 * n - 1 := by rw [len]; exact hl
    obtain ⟨a, ha⟩ := rd_of_bounds (t := t') (i := 2 * ((n - 2 + n) / 2)) (by omega)
      (by omega)
    have hb : rd t' (2 * ((n - 2 + n) / 2) + 1) = .error .outOfRange :=
      rd_out_of_range (by rw [hl']; omega)
    simp only [segtree.modify, e, bind, Except.bind, modify_loop,
      if_pos (show (n - 2 + n) / 2 ≠ 0 by omega), ha, hb]
  · intro i i1 i2
    have i2' : i < n := i2
    omega

/-- C11 on `n = 2` with the node `plain_sum_node`: both `modify(1, 5)` and `modify(0, 5)`
stop on an index past the end. -/
theorem C11_modify_past_the_end_witness :
    ∃ s, bottom_up.segtree.new plain_sum_node 2 = .ok s ∧ s.n = 2 ∧
      bottom_up.segtree.modify plain_sum_node s (2 - 1) 5 = .error .outOfRange ∧
      ((2 : Int) ≤ 2 → bottom_up.segtree.modify plain_sum_node s (2 - 2) 5
        = .error .outOfRange) ∧
      ((2 : Int) = 1 → bottom_up.Inner plain_sum_node s) :=
  C11_modify_past_the_end plain_sum_node 2 (by decide) 5

open bottom_up in
/-- **C12 (what the code does).** Iterative engine: `new(n)` with `n > 0` allocates
`2 * n - 1` slots and not `2 * n`: the index `n + (n - 1)` of the last leaf, which for
`n ≥ 2` is also the child index `2 * (n - 1) + 1` of the internal vertex `n - 1`, is out of
bounds, `get(n - 1)` reads past the end, and so does `get(n - 1, n)`, the range query that
reads the last leaf. -/
theorem C12_allocates_one_slot_less {N M : Type} (T : SegtreeNodeConcept N M) (n : Int)
    (hn : 0 < n) :
    ∃ s, segtree.new T n = .ok s ∧ s.n = n ∧ (s.tree.length : Int) + 1 = 2 * n ∧
      ¬ (n + (n - 1) < (s.tree.length : Int)) ∧
      ¬ (2 * (n - 1) + 1 < (s.tree.length : Int)) ∧
      segtree.get_point s (n - 1) = .error .outOfRange ∧
      segtree.get T s (n - 1) n = .error .outOfRange := by
  have hl : ((List.replicate (2 * n - 1).toNat T.dflt).length : Int) = 2 * n - 1 := by
    rw [List.length_replicate]
    omega
  refine ⟨⟨n, List.replicate (2 * n - 1).toNat T.dflt⟩, ?_, rfl, by rw [hl]; ring,
    by rw [hl]; omega, by rw [hl]; omega, ?_, ?_⟩
  · simp only [segtree.new, if_pos (show 0 ≤ 2 * n - 1 by omega)]
  · exact rd_out_of_range (t := List.replicate (2 * n - 1).toNat T.dflt) (i := n - 1 + n)
      (by rw [hl]; omega)
  · have hb : rd (List.replicate (2 * n - 1).toNat T.dflt) (n - 1 + n)
        = .error .outOfRange := rd_out_of_range (by rw [hl]; omega)
    simp only [segtree.get, get_loop, if_pos (show n - 1 + n < n + n by omega),
      if_pos (show (n - 1 + n) % 2 = 1 by omega), hb, bind, Except.bind]

/-- C12 on `n = 2` with the node `plain_sum_node`. -/
theorem C12_allocates_one_slot_less_witness :
    ∃ s, bottom_up.segtree.new plain_sum_node 2 = .ok s ∧ s.n = 2 ∧
      (s.tree.length : Int) + 1 = 2 * 2 ∧
      ¬ ((2 : Int) + (2 - 1) < (s.tree.length : Int)) ∧
      ¬ (2 * ((2 : Int) - 1) + 1 < (s.tree.length : Int)) ∧
      bottom_up.segtree.get_point s (2 - 1) = .error .outOfRange ∧
      bottom_up.segtree.get plain_sum_node s (2 - 1) 2 = .error .outOfRange :=
  C12_allocates_one_slot_less plain_sum_node 2 (by decide)

/-- **C13 (what the code does).** Iterative engine: the member functions have no `assert`.
On the state `new(3)` of the node `plain_sum_node`, the inverted `get(2, 1)` and the
out-of-bounds `get(0, 7)` return the default node, `get(-1)` returns the internal vertex
`tree[2]`, and `modify(-1, 5)` returns after overwriting the internal vertices `tree[2]` and
`tree[1]`; `get(-1, 1)` then returns `5`.  Only construction with a non-positive size
fails, inside `resize`. -/
theorem C13_no_precondition_checks :
    bottom_up.segtree.new plain_sum_node 3 = .ok ⟨3, [0, 0, 0, 0, 0]⟩ ∧
      bottom_up.segtree.get plain_sum_node ⟨3, [0, 0, 0, 0, 0]⟩ 2 1 = .ok 0 ∧
      bottom_up.segtree.get plain_sum_node ⟨3, [0, 0, 0, 0, 0]⟩ 0 7 = .ok 0 ∧
      bottom_up.segtree.get_point (⟨3, [0, 0, 0, 0, 0]⟩ : bottom_up.segtree Int) (-1)
        = .ok 0 ∧
      bottom_up.segtree.modify plain_sum_node ⟨3, [0, 0, 0, 0, 0]⟩ (-1) 5
        = .ok ⟨3, [0, 5, 5, 0, 0]⟩ ∧
      bottom_up.segtree.get plain_sum_node ⟨3, [0, 5, 5, 0, 0]⟩ (-1) 1 = .ok 5 ∧
      bottom_up.segtree.new plain_sum_node 0 = .error .allocation ∧
      bottom_up.segtree.new plain_sum_node (-2) = .error .allocation := by
  decide


/-! ## C14: the implicit indexing of the recursive engine -/

/-- **C14.** Recursive engine, for every `n > 0`. `vertices n 0 0 (n - 1)` lists the vertices of
the tree rooted at vertex `0` over `[0, n - 1]` (left child `x + 1` over `[l, mid]`, right child
`z = x + 2 * (mid - l + 1)` over `[mid + 1, r]`, `mid = (l + r) / 2`). (i) The subtree of each
of these vertices `(x, l, r)` has as indices exactly `x, ..., x + 2 * (r - l + 1) - 2`, which
lie within `[0, 2n - 2]`; (ii) the indices of all vertices are `0, ..., 2n - 2`, each used
once, so distinct vertices have distinct indices; (iii) both constructors return a sequence of
`2n - 1` nodes without an out-of-range access, and on every state with `2n - 1` nodes `get`,
the point `get` and `modify` under their preconditions, and `push` at every vertex with
`l < r`, complete without an out-of-range access and keep the length. -/
theorem C14_implicit_indexing {N M : Type} (T : SegtreeNodeConcept N M) (n : Int)
    (hn : 0 < n) :
    (∀ q : Int × Int × Int, q ∈ tourist_like.vertices n.toNat 0 0 (n - 1) →
      (tourist_like.vertices n.toNat q.1 q.2.1 q.2.2).map (fun p => p.1)
        = tourist_like.irange q.1 (2 * (q.2.2 - q.2.1 + 1) - 1).toNat ∧
      (∀ i : Int, i ∈ (tourist_like.vertices n.toNat q.1 q.2.1 q.2.2).map (fun p => p.1) ↔
        q.1 ≤ i ∧ i ≤ q.1 + 2 * (q.2.2 - q.2.1 + 1) - 2) ∧
      0 ≤ q.1 ∧ q.1 + 2 * (q.2.2 - q.2.1 + 1) - 2 ≤ 2 * n - 2) ∧
    (tourist_like.vertices n.toNat 0 0 (n - 1)).map (fun p => p.1)
      = tourist_like.irange 0 (2 * n - 1).toNat ∧
    ((tourist_like.vertices n.toNat 0 0 (n - 1)).map (fun p => p.1)).Nodup ∧
    (∃ s, tourist_like.segtree.new T n = .ok s ∧ s.n = n ∧
      (s.tree.length : Int) = 2 * n - 1) ∧
    (∀ v : List M, (v.length : Int) = n →
      ∃ s, tourist_like.segtree.new_values T v = .ok s ∧ s.n = n ∧
        (s.tree.length : Int) = 2 * n - 1) ∧
    ∀ s : tourist_like.segtree N, s.n = n → (s.tree.length : Int) = 2 * n - 1 →
      (∀ ll rr : Int, 0 ≤ ll ∧ ll ≤ rr ∧ rr ≤ n - 1 →
        ∃ a u, tourist_like.segtree.get T s ll rr = .ok a ⟨n, u⟩ ∧
          u.length = s.tree.length) ∧
      (∀ p : Int, 0 ≤ p ∧ p ≤ n - 1 →
        ∃ a u, tourist_like.segtree.get_point T s p = .ok a ⟨n, u⟩ ∧
          u.length = s.tree.length) ∧
      (∀ (ll rr : Int) (v : M), 0 ≤ ll ∧ ll ≤ rr ∧ rr ≤ n - 1 →
        ∃ u, tourist_like.segtree.modify T s ll rr v = .ok () ⟨n, u⟩ ∧
          u.length = s.tree.length) ∧
      (∀ q : Int × Int × Int, q ∈ tourist_like.vertices n.toNat 0 0 (n - 1) →
        q.2.1 < q.2.2 →
        ∃ u, tourist_like.push T s.tree q.1 q.2.1 q.2.2 = .ok u ∧
          u.length = s.tree.length) := by
  have hroot := tourist_like.vertices_indices n.toNat 0 0 (n - 1) (by omega) (by omega)
  rw [show (2 * (n - 1 - 0) + 1).toNat = (2 * n - 1).toNat by omega] at hroot
  refine ⟨?_, hroot, ?_, tourist_like.new_length T hn, ?_, ?_⟩
  · intro q hq
    obtain ⟨w1, w2, w3, w4, w5⟩ :=
      tourist_like.vertices_window n.toNat 0 0 (n - 1) q hq (by omega)
    have hi := tourist_like.vertices_indices n.toNat q.1 q.2.1 q.2.2 w3 (by omega)
    rw [show (2 * (q.2.2 - q.2.1) + 1).toNat = (2 * (q.2.2 - q.2.1 + 1) - 1).toNat by omega]
      at hi
    refine ⟨hi, ?_, w1, by omega⟩
    intro i
    rw [hi, tourist_like.mem_irange]
    omega
  · rw [hroot]
    exact tourist_like.irange_nodup _ _
  · intro v hv
    have hne : v ≠ [] := by
      rintro rfl
      simp at hv
      omega
    obtain ⟨s, e, h1, h2⟩ := tourist_like.new_values_length T hne
    exact ⟨s, e, by omega, by omega⟩
  · intro s hsn hlen
    obtain ⟨a, F, H⟩ := tourist_like.holds_of_length s.tree n.toNat 0 0 (n - 1) (by omega)
      (by omega) le_rfl (by omega)
    refine ⟨?_, ?_, ?_, ?_⟩
    · intro ll rr hp
      obtain ⟨u, e, _, Fr⟩ := tourist_like.get_at_spec T ll rr n.toNat H (by omega)
        (by omega) hp.2.1 (by omega)
      exact ⟨(tourist_like.getF T a F 0 (n - 1) ll rr).1, u,
        by simp only [tourist_like.segtree.get, hsn, if_pos hp, e], Fr.1⟩
    · intro p hp
      obtain ⟨u, e, _, Fr⟩ := tourist_like.get_at_spec T p p n.toNat H (by omega)
        (by omega) le_rfl (by omega)
      exact ⟨(tourist_like.getF T a F 0 (n - 1) p p).1, u,
        by simp only [tourist_like.segtree.get_point, hsn, if_pos hp, e], Fr.1⟩
    · intro ll rr v hp
      obtain ⟨u, e, _, Fr⟩ := tourist_like.modify_at_spec T ll rr v n.toNat H (by omega)
        (by omega) hp.2.1 (by omega)
      exact ⟨u, by simp only [tourist_like.segtree.modify, hsn, if_pos hp, e], Fr.1⟩
    · intro q hq hlt
      obtain ⟨w1, w2, w3, w4, w5⟩ :=
        tourist_like.vertices_window n.toNat 0 0 (n - 1) q hq (by omega)
      obtain ⟨b, G, HG⟩ := tourist_like.holds_of_length s.tree n.toNat q.1 q.2.1 q.2.2 w3
        (by omega) (by omega) (by omega)
      obtain ⟨la, L, ra, R, rfl⟩ := HG.is_node hlt
      obtain ⟨u, e, _, Fr⟩ := tourist_like.push_spec T HG
      exact ⟨u, e, Fr.1⟩

/-- C14 on `n = 3` with the sum-with-range-assign node: the five vertices `(0, 0, 2)`,
`(1, 0, 1)`, `(2, 0, 0)`, `(3, 1, 1)`, `(4, 2, 2)` use the indices `0, ..., 4`. -/
theorem C14_implicit_indexing_witness :
    (0 : Int) < 3 ∧
    tourist_like.vertices (3 : Int).toNat 0 0 (3 - 1)
      = [(0, 0, 2), (1, 0, 1), (2, 0, 0), (3, 1, 1), (4, 2, 2)] ∧
    ((∀ q : Int × Int × Int, q ∈ tourist_like.vertices (3 : Int).toNat 0 0 (3 - 1) →
      (tourist_like.vertices (3 : Int).toNat q.1 q.2.1 q.2.2).map (fun p => p.1)
        = tourist_like.irange q.1 (2 * (q.2.2 - q.2.1 + 1) - 1).toNat ∧
      (∀ i : Int,
        i ∈ (tourist_like.vertices (3 : Int).toNat q.1 q.2.1 q.2.2).map (fun p => p.1) ↔
        q.1 ≤ i ∧ i ≤ q.1 + 2 * (q.2.2 - q.2.1 + 1) - 2) ∧
      0 ≤ q.1 ∧ q.1 + 2 * (q.2.2 - q.2.1 + 1) - 2 ≤ 2 * 3 - 2) ∧
    (tourist_like.vertices (3 : Int).toNat 0 0 (3 - 1)).map (fun p => p.1)
      = tourist_like.irange 0 (2 * 3 - 1 : Int).toNat ∧
    ((tourist_like.vertices (3 : Int).toNat 0 0 (3 - 1)).map (fun p => p.1)).Nodup ∧
    (∃ s, tourist_like.segtree.new sum_segtree_node.concept 3 = .ok s ∧ s.n = 3 ∧
      (s.tree.length : Int) = 2 * 3 - 1) ∧
    (∀ v : List Int, (v.length : Int) = 3 →
      ∃ s, tourist_like.segtree.new_values sum_segtree_node.concept v = .ok s ∧ s.n = 3 ∧
        (s.tree.length : Int) = 2 * 3 - 1) ∧
    ∀ s : tourist_like.segtree sum_segtree_node, s.n = 3 →
      (s.tree.length : Int) = 2 * 3 - 1 →
      (∀ ll rr : Int, 0 ≤ ll ∧ ll ≤ rr ∧ rr ≤ 3 - 1 →
        ∃ a u, tourist_like.segtree.get sum_segtree_node.concept s ll rr = .ok a ⟨3, u⟩ ∧
          u.length = s.tree.length) ∧
      (∀ p : Int, 0 ≤ p ∧ p ≤ 3 - 1 →
        ∃ a u, tourist_like.segtree.get_point sum_segtree_node.concept s p = .ok a ⟨3, u⟩ ∧
          u.length = s.tree.length) ∧
      (∀ (ll rr : Int) (v : Int), 0 ≤ ll ∧ ll ≤ rr ∧ rr ≤ 3 - 1 →
        ∃ u, tourist_like.segtree.modify sum_segtree_node.concept s ll rr v = .ok () ⟨3, u⟩ ∧
          u.length = s.tree.length) ∧
      (∀ q : Int × Int × Int, q ∈ tourist_like.vertices (3 : Int).toNat 0 0 (3 - 1) →
        q.2.1 < q.2.2 →
        ∃ u, tourist_like.push sum_segtree_node.concept s.tree q.1 q.2.1 q.2.2 = .ok u ∧
          u.length = s.tree.length)) :=
  ⟨by decide, by decide, C14_implicit_indexing sum_segtree_node.concept 3 (by decide)⟩


/-! ## C15: every internal vertex is pulled -/

open tourist_like in
/-- **C16.** Recursive engine, any node type: on a state with `n > 0` and `2 * n - 1` nodes,
`modify(ll, rr, v)` with `0 ≤ ll ≤ rr ≤ n - 1` returns, and with `acc` the list of the indices
that the call passes to `operator[]` (`modify_at_log` is `modify_at` with that list), for
every vertex `X` of the tree whose range is contained in `[ll, rr]` no proper descendant `d` of
`X` has its index in `acc`, and the slot of `d` is unchanged.  In particular
`modify(0, n - 1, v)` accesses only `tree[0]`, which becomes `apply(0, n - 1, v)` of its old
value, and every other slot is unchanged. -/
theorem C16_modify_is_lazy {N M : Type} (T : SegtreeNodeConcept N M) (s : segtree N)
    (hn : 0 < s.n) (hlen : (s.tree.length : Int) = 2 * s.n - 1) (ll rr : Int) (v : M)
    (hp : 0 ≤ ll ∧ ll ≤ rr ∧ rr ≤ s.n - 1) :
    ∃ u acc, modify_at_log T s.n.toNat s.tree 0 0 (s.n - 1) ll rr v = .ok (u, acc) ∧
      segtree.modify T s ll rr v = .ok () ⟨s.n, u⟩ ∧
      (∀ X : Int × Int × Int, X ∈ vertices s.n.toNat 0 0 (s.n - 1) →
        ll ≤ X.2.1 → X.2.2 ≤ rr →
        ∀ d : Int × Int × Int, d ∈ vertices s.n.toNat X.1 X.2.1 X.2.2 → d ≠ X →
          d.1 ∉ acc ∧ rd u d.1 = rd s.tree d.1) ∧
      (ll = 0 → rr = s.n - 1 →
        acc = [0, 0] ∧ (∀ i : Int, i ≠ 0 → rd u i = rd s.tree i) ∧
        ∃ a, rd s.tree 0 = .ok a ∧ rd u 0 = .ok (T.apply 0 (s.n - 1) v a)) := by
  obtain ⟨a, F, H⟩ := holds_of_length s.tree s.n.toNat 0 0 (s.n - 1) (by omega)
    (by omega) le_rfl (by omega)
  obtain ⟨u, e, H', _⟩ := modify_at_spec T ll rr v s.n.toNat H (by omega) (by omega)
    hp.2.1 (by omega)
  have er := modify_at_log_erase T s.n.toNat s.tree 0 0 (s.n - 1) ll rr v
  rw [e] at er
  cases hlog : modify_at_log T s.n.toNat s.tree 0 0 (s.n - 1) ll rr v with
  | error f =>
    rw [hlog] at er
    cases er
  | ok p =>
    rw [hlog] at er
    have hu : p.1 = u := Except.ok.inj er
    obtain ⟨_, hacc⟩ := modify_at_log_accesses T s.n.toNat s.tree 0 0 (s.n - 1) ll rr v p
      (by omega) (by omega) (by omega) hlog
    have hfr := modify_at_log_unlogged T s.n.toNat s.tree 0 0 (s.n - 1) ll rr v p hlog
    refine ⟨u, p.2, ?_, ?_, ?_, ?_⟩
    · rw [← hu]
    · simp only [segtree.modify, if_pos hp, e]
    · intro X hX c1 c2 d hd hne
      have wX := vertices_window s.n.toNat 0 0 (s.n - 1) X hX (by omega)
      have wd := vertices_proper s.n.toNat X.1 X.2.1 X.2.2 d hd hne wX.2.2.1
      have hnot : d.1 ∉ p.2 := fun hi => hacc s.n.toNat X hX c1 c2 d.1 hi wd
      exact ⟨hnot, by rw [← hu]; exact hfr d.1 hnot⟩
    · intro h0 h1
      subst h0
      subst h1
      obtain ⟨k, hk⟩ : ∃ k, s.n.toNat = k + 1 := ⟨s.n.toNat - 1, by omega⟩
      rw [hk, modify_at_log, if_pos ⟨le_rfl, le_rfl⟩] at hlog
      obtain ⟨nd, hnd, hlog⟩ := bind_ok hlog
      obtain ⟨w, hw, hlog⟩ := bind_ok hlog
      have hpw := Except.ok.inj hlog
      subst hpw
      have hb := rd_ok_bounds hnd
      obtain ⟨w', ew, _, hw0, _⟩ := wr_spec (t := s.tree) (T.apply 0 (s.n - 1) v nd)
        hb.1 hb.2
      rw [ew] at hw
      have := Except.ok.inj hw
      subst this
      have hu' : w' = u := hu
      subst hu'
      refine ⟨rfl, fun i hi => hfr i ?_, nd, hnd, hw0⟩
      simp only [List.mem_cons, List.mem_singleton, List.not_mem_nil, or_false, not_or]
      exact ⟨hi, hi⟩

/-- C16 on the state constructed from `[1, 2, 3]` with `modify(0, 1, 7)`: the vertex `1` over
`[0, 1]` is covered, and its children, the vertices `2` and `3`, are not accessed. -/
theorem C16_modify_is_lazy_witness :
    (0 : Int) < 3 ∧ (([⟨6, NO_LAZY⟩, ⟨3, NO_LAZY⟩, ⟨1, 1⟩, ⟨2, 2⟩, ⟨3, 3⟩] :
        List sum_segtree_node).length : Int) = 2 * 3 - 1 ∧
      ((0 : Int) ≤ 0 ∧ (0 : Int) ≤ 1 ∧ (1 : Int) ≤ 3 - 1) ∧
      ∃ u acc, tourist_like.modify_at_log sum_segtree_node.concept (3 : Int).toNat
          [⟨6, NO_LAZY⟩, ⟨3, NO_LAZY⟩, ⟨1, 1⟩, ⟨2, 2⟩, ⟨3, 3⟩] 0 0 (3 - 1) 0 1 7
          = .ok (u, acc) ∧
        tourist_like.segtree.modify sum_segtree_node.concept
          ⟨3, [⟨6, NO_LAZY⟩, ⟨3, NO_LAZY⟩, ⟨1, 1⟩, ⟨2, 2⟩, ⟨3, 3⟩]⟩ 0 1 7 = .ok () ⟨3, u⟩ ∧
        (∀ X : Int × Int × Int, X ∈ tourist_like.vertices (3 : Int).toNat 0 0 (3 - 1) →
          0 ≤ X.2.1 → X.2.2 ≤ 1 →
          ∀ d : Int × Int × Int,
            d ∈ tourist_like.vertices (3 : Int).toNat X.1 X.2.1 X.2.2 → d ≠ X →
            d.1 ∉ acc ∧
              rd u d.1 = rd [⟨6, NO_LAZY⟩, ⟨3, NO_LAZY⟩, ⟨1, 1⟩, ⟨2, 2⟩, ⟨3, 3⟩] d.1) ∧
        ((0 : Int) = 0 → (1 : Int) = 3 - 1 →
          acc = [0, 0] ∧
          (∀ i : Int, i ≠ 0 →
            rd u i = rd [⟨6, NO_LAZY⟩, ⟨3, NO_LAZY⟩, ⟨1, 1⟩, ⟨2, 2⟩, ⟨3, 3⟩] i) ∧
          ∃ a, rd [⟨6, NO_LAZY⟩, ⟨3, NO_LAZY⟩, ⟨1, 1⟩, ⟨2, 2⟩, ⟨3, 3⟩] 0 = .ok a ∧
            rd u 0 = .ok (sum_segtree_node.concept.apply 0 (3 - 1) 7 a)) :=
  ⟨by decide, by decide, by decide,
    C16_modify_is_lazy sum_segtree_node.concept
      ⟨3, [⟨6, NO_LAZY⟩, ⟨3, NO_LAZY⟩, ⟨1, 1⟩, ⟨2, 2⟩, ⟨3, 3⟩]⟩ (by decide) (by decide)
      0 1 7 (by decide)⟩

/-- The accesses of the calls of the witness of C16 and of `modify(0, 2, 7)`, in order. -/
lemma modify_at_log_example :
    tourist_like.modify_at_log sum_segtree_node.concept 3
        [⟨6, NO_LAZY⟩, ⟨3, NO_LAZY⟩, ⟨1, 1⟩, ⟨2, 2⟩, ⟨3, 3⟩] 0 0 2 0 1 7
        = .ok ([⟨17, NO_LAZY⟩, ⟨14, 7⟩, ⟨1, 1⟩, ⟨2, 2⟩, ⟨3, 3⟩],
          [0, 1, 4, 0, 1, 4, 1, 1, 1, 4, 0]) ∧
      tourist_like.modify_at_log sum_segtree_node.concept 3
        [⟨6, NO_LAZY⟩, ⟨3, NO_LAZY⟩, ⟨1, 1⟩, ⟨2, 2⟩, ⟨3, 3⟩] 0 0 2 0 2 7
        = .ok ([⟨21, 7⟩, ⟨3, NO_LAZY⟩, ⟨1, 1⟩, ⟨2, 2⟩, ⟨3, 3⟩], [0, 0]) := by
  decide


/-! ## C17: termination -/

/-- **C17.** For every `n > 0` and every amount of fuel `fuel ≥ n`: (i) `l ≤ mid < r` whenever
`l < r`; (ii) the recursive `build` of both constructors, and on every sequence of `2n - 1`
nodes the recursive `get` and `modify` under their preconditions, return, with the result
they return on the fuel `n` that the public operations pass; (iii) in the iterative engine,
under the preconditions, the loop of `get(l, r)` and the loop of `modify(p, v)` do not run out
of the fuel that the operations pass, more fuel does not change their result, `get` returns a
node when the slots below `r + n` are allocated, and `modify` returns when the pair of
siblings of the slot `p + n` is allocated. -/
theorem C17_operations_terminate {N M : Type} (T : SegtreeNodeConcept N M) (n : Int)
    (hn : 0 < n) (fuel : Nat) (hf : n ≤ fuel) :
    (∀ l r : Int, l < r → l ≤ (l + r) / 2 ∧ (l + r) / 2 < r) ∧
    (∃ u, tourist_like.build T fuel (List.replicate (2 * n - 1).toNat T.dflt) 0 0 (n - 1)
        = .ok u ∧
      tourist_like.build T n.toNat (List.replicate (2 * n - 1).toNat T.dflt) 0 0 (n - 1)
        = .ok u) ∧
    (∀ v : List M, (v.length : Int) = n →
      ∃ u, tourist_like.build_values T v fuel (List.replicate (2 * n - 1).toNat T.dflt)
          0 0 (n - 1) = .ok u ∧
        tourist_like.build_values T v n.toNat (List.replicate (2 * n - 1).toNat T.dflt)
          0 0 (n - 1) = .ok u) ∧
    (∀ t : List N, (t.length : Int) = 2 * n - 1 →
      ∀ ll rr : Int, 0 ≤ ll ∧ ll ≤ rr ∧ rr ≤ n - 1 →
      (∃ q, tourist_like.get_at T fuel t 0 0 (n - 1) ll rr = .ok q ∧
        tourist_like.get_at T n.toNat t 0 0 (n - 1) ll rr = .ok q) ∧
      (∀ v : M, ∃ u, tourist_like.modify_at T fuel t 0 0 (n - 1) ll rr v = .ok u ∧
        tourist_like.modify_at T n.toNat t 0 0 (n - 1) ll rr v = .ok u)) ∧
    (∀ s : bottom_up.segtree N, s.n = n → ∀ l r : Int, 0 ≤ l ∧ l ≤ r ∧ r ≤ n - 1 →
      bottom_up.segtree.get T s l r ≠ .error .outOfFuel ∧
      (∀ k : Nat, (r + n).toNat + 1 ≤ k →
        bottom_up.get_loop T s.tree k (l + n) (r + n) T.dflt T.dflt
          = bottom_up.segtree.get T s l r) ∧
      (r + n ≤ s.tree.length → ∃ a, bottom_up.segtree.get T s l r = .ok a)) ∧
    (∀ s : bottom_up.segtree N, s.n = n → ∀ (p : Int) (v : N), 0 ≤ p ∧ p ≤ n - 1 →
      bottom_up.segtree.modify T s p v ≠ .error .outOfFuel ∧
      (∀ (t : List N) (k : Nat), (p + n).toNat + 1 ≤ k →
        bottom_up.modify_loop T k t (p + n)
          = bottom_up.modify_loop T ((p + n).toNat + 1) t (p + n)) ∧
      (2 * ((p + n) / 2) + 1 < s.tree.length →
        ∃ s', bottom_up.segtree.modify T s p v = .ok s')) := by
  have hrep : ((List.replicate (2 * n - 1).toNat T.dflt).length : Int) = 2 * n - 1 := by
    rw [List.length_replicate]
    omega
  refine ⟨fun l r h => by omega, ?_, ?_, ?_, ?_, ?_⟩
  · obtain ⟨u, e₁, e₂, _⟩ := tourist_like.build_fuel T
      (t := List.replicate (2 * n - 1).toNat T.dflt) (x := 0) (l := 0) (r := n - 1)
      fuel n.toNat (by omega) (by omega) (by omega) le_rfl (by omega)
      (fun i h1 h2 => rd_replicate h1 (by omega))
    exact ⟨u, e₁, e₂⟩
  · intro v hv
    obtain ⟨u, e₁, e₂, _⟩ := tourist_like.build_values_fuel T v
      (t := List.replicate (2 * n - 1).toNat T.dflt) (x := 0) (l := 0) (r := n - 1)
      fuel n.toNat (by omega) (by omega) (by omega) le_rfl (by omega)
      (fun i h1 h2 => rd_replicate h1 (by omega))
      (fun p h1 h2 => rd_of_bounds h1 (by omega))
    exact ⟨u, e₁, e₂⟩
  · intro t ht ll rr hp
    obtain ⟨a, F, H⟩ := tourist_like.holds_of_length t n.toNat 0 0 (n - 1) (by omega)
      (by omega) le_rfl (by omega)
    refine ⟨?_, fun v => ?_⟩
    · obtain ⟨u, e, _⟩ := tourist_like.get_at_spec T ll rr fuel H (by omega) (by omega)
        hp.2.1 (by omega)
      refine ⟨_, e, ?_⟩
      rw [← e]
      exact tourist_like.get_at_fuel T ll rr n.toNat fuel H (by omega) (by omega) hp.2.1
        (by omega) (by omega)
    · obtain ⟨u, e, _⟩ := tourist_like.modify_at_spec T ll rr v fuel H (by omega) (by omega)
        hp.2.1 (by omega)
      refine ⟨u, e, ?_⟩
      rw [← e]
      exact tourist_like.modify_at_fuel T ll rr v n.toNat fuel H (by omega) (by omega)
        hp.2.1 (by omega) (by omega)
  · intro s hs l r hp
    subst hs
    obtain ⟨i₁, i₂, i₃⟩ := bottom_up.get_loop_ends T s.tree ((r + s.n).toNat + 1)
      (l + s.n) (r + s.n) T.dflt T.dflt (by omega) (by omega) (by omega)
    exact ⟨i₁, fun k hk => i₂ k (by omega), i₃⟩
  · intro s hs p v hp
    subst hs
    refine ⟨?_, fun t k hk => ?_, fun hb => ?_⟩
    · unfold bottom_up.segtree.modify
      cases ew : wr s.tree (p + s.n) v with
      | error f =>
        have := bottom_up.wr_error ew
        subst this
        intro h
        cases h
      | ok t =>
        obtain ⟨i₁, _, _⟩ := bottom_up.modify_loop_ends T ((p + s.n).toNat + 1) t
          (p + s.n) (by omega) (by omega)
        cases em : bottom_up.modify_loop T ((p + s.n).toNat + 1) t (p + s.n) with
        | error f =>
          simp only [bind, Except.bind, em]
          intro h
          cases h
          exact i₁ em
        | ok u =>
          simp only [bind, Except.bind, em]
          intro h
          cases h
    · exact (bottom_up.modify_loop_ends T ((p + s.n).toNat + 1) t (p + s.n) (by omega)
        (by omega)).2.1 k (by omega)
    · obtain ⟨t, ew, len, _, _⟩ := wr_spec (t := s.tree) (i := p + s.n) v (by omega)
        (by omega)
      obtain ⟨u, eu, _⟩ := (bottom_up.modify_loop_ends T ((p + s.n).toNat + 1) t (p + s.n)
        (by omega) (by omega)).2.2 (by rw [len]; exact hb)
      exact ⟨⟨s.n, u⟩, by simp only [bottom_up.segtree.modify, ew, eu, bind, Except.bind,
        pure, Except.pure]⟩

/-- C17 on `n = 3` with the node `plain_sum_node` and the fuel `5`. -/
theorem C17_operations_terminate_witness :
    (0 : Int) < 3 ∧ (3 : Int) ≤ ((5 : Nat) : Int) ∧
    ((∀ l r : Int, l < r → l ≤ (l + r) / 2 ∧ (l + r) / 2 < r) ∧
    (∃ u, tourist_like.build plain_sum_node 5
        (List.replicate (2 * 3 - 1 : Int).toNat plain_sum_node.dflt) 0 0 (3 - 1) = .ok u ∧
      tourist_like.build plain_sum_node (3 : Int).toNat
        (List.replicate (2 * 3 - 1 : Int).toNat plain_sum_node.dflt) 0 0 (3 - 1) = .ok u) ∧
    (∀ v : List Int, (v.length : Int) = 3 →
      ∃ u, tourist_like.build_values plain_sum_node v 5
          (List.replicate (2 * 3 - 1 : Int).toNat plain_sum_node.dflt) 0 0 (3 - 1) = .ok u ∧
        tourist_like.build_values plain_sum_node v (3 : Int).toNat
          (List.replicate (2 * 3 - 1 : Int).toNat plain_sum_node.dflt) 0 0 (3 - 1)
          = .ok u) ∧
    (∀ t : List Int, (t.length : Int) = 2 * 3 - 1 →
      ∀ ll rr : Int, 0 ≤ ll ∧ ll ≤ rr ∧ rr ≤ 3 - 1 →
      (∃ q, tourist_like.get_at plain_sum_node 5 t 0 0 (3 - 1) ll rr = .ok q ∧
        tourist_like.get_at plain_sum_node (3 : Int).toNat t 0 0 (3 - 1) ll rr = .ok q) ∧
      (∀ v : Int, ∃ u, tourist_like.modify_at plain_sum_node 5 t 0 0 (3 - 1) ll rr v = .ok u ∧
        tourist_like.modify_at plain_sum_node (3 : Int).toNat t 0 0 (3 - 1) ll rr v
          = .ok u)) ∧
    (∀ s : bottom_up.segtree Int, s.n = 3 → ∀ l r : Int, 0 ≤ l ∧ l ≤ r ∧ r ≤ 3 - 1 →
      bottom_up.segtree.get plain_sum_node s l r ≠ .error .outOfFuel ∧
      (∀ k : Nat, (r + 3).toNat + 1 ≤ k →
        bottom_up.get_loop plain_sum_node s.tree k (l + 3) (r + 3) plain_sum_node.dflt
            plain_sum_node.dflt
          = bottom_up.segtree.get plain_sum_node s l r) ∧
      (r + 3 ≤ s.tree.length → ∃ a, bottom_up.segtree.get plain_sum_node s l r = .ok a)) ∧
    (∀ s : bottom_up.segtree Int, s.n = 3 → ∀ (p : Int) (v : Int), 0 ≤ p ∧ p ≤ 3 - 1 →
      bottom_up.segtree.modify plain_sum_node s p v ≠ .error .outOfFuel ∧
      (∀ (t : List Int) (k : Nat), (p + 3).toNat + 1 ≤ k →
        bottom_up.modify_loop plain_sum_node k t (p + 3)
          = bottom_up.modify_loop plain_sum_node ((p + 3).toNat + 1) t (p + 3)) ∧
      (2 * ((p + 3) / 2) + 1 < s.tree.length →
        ∃ s', bottom_up.segtree.modify plain_sum_node s p v = .ok s'))) :=
  ⟨by decide, by decide, C17_operations_terminate plain_sum_node 3 (by decide) 5 (by decide)⟩


/-! ## C18: `get` does not change later answers -/

end kirkon
